import Mathlib

/-!
# Personal finance manager: ledger, password cipher and account records

A shallow embedding of `src/main.cpp`.

* A `std::string` is a list of bytes (`Str`); `std::endl` writes the byte 10.
* A `double` amount is the rational number it stands for (`Amount`). Under the names of the
  source the members combine amounts exactly. Where rounding matters the members are given a
  second time with the arithmetic as a parameter (`addTransactionWith` and the like):
  `exactArith` gives the first form back, and `doubleArith` rounds every sum and difference to
  the nearest `double`, as IEEE 754 binary64 arithmetic does.
* The decimal text of a `double` is produced by the stream library and read back by `std::stod`;
  both live outside the repository and are fields of `Lib`.
* The files under `data/` are a `FileStore`: a partial map from paths to contents, together with
  the set of paths that can be opened for writing.
* A call has a `Status`: it returns, it throws, or it reaches undefined behaviour (`i % 0` in the
  cipher).
* An input stream reads the content that the file had when it was opened.
* The global set `users` is a list of names, used through membership only.
* The fields of a `Date` are unbounded integers.
-/

namespace Finance

/-! ## Data model -/

/-- One `char` of a `std::string`, as its unsigned value. -/
abbrev Byte := Fin 256

/-- A `std::string`. -/
abbrev Str := List Byte

/-- A `double` amount, as the number it stands for. -/
abbrev Amount := ℚ

/-- The bytes of a string literal of the source (all literals there are ASCII). -/
def ascii (s : String) : Str := s.toList.map (fun c => Fin.ofNat c.toNat)

/-- The line terminator written by `std::endl` and consumed by `std::getline`. -/
def newline : Byte := 10

/-- What `std::endl` appends to a stream. -/
def endl : Str := [newline]

/-- The exceptions that cross the functions of the engine: a `FinancialException` with its
message, or the standard exception of a failing `std::stod`. -/
inductive Exn where
  | financial (what : String)
  | invalidArgument
  deriving DecidableEq

/-- How a call ends: it returns a value, throws, or runs into undefined behaviour. -/
inductive Status (ρ : Type) where
  | returned (r : ρ)
  | threw (e : Exn)
  | undefined
  deriving DecidableEq

/-- The parts of the C++ library the engine relies on and that the embedding does not fix:
`putDouble` is `operator<<` on a `double`, `stod` is `std::stod` (`none` when it throws), and
`uninit` holds the indeterminate values of the three locals `day, month, year` that
`loadUserData` passes to `sscanf`. -/
structure Lib where
  putDouble : Amount → Str
  stod : Str → Option Amount
  uninit : Int × Int × Int

/-- The class `Date`. -/
structure Date where
  day : Int
  month : Int
  year : Int
  deriving DecidableEq

/-- The two concrete subclasses of `Transaction`; `Expense` carries a `Category` name. -/
inductive Transaction where
  | income (amount : Amount) (description : Str) (date : Date)
  | expense (amount : Amount) (description : Str) (date : Date) (category : Str)
  deriving DecidableEq

/-- The data members of the class `User`. -/
structure User where
  id : Str
  username : Str
  password : Str
  balance : Amount
  transactions : List Transaction
  deriving DecidableEq

/-- The files of the working directory: `content p` is the content of the file at path `p`
when there is one, and `writable p` says whether `std::ofstream` can open `p`. -/
structure FileStore where
  content : Str → Option Str
  writable : Str → Bool

/-- The effect of a successful `std::ofstream` session on `path`: the file holds exactly the
bytes written. -/
def FileStore.write (fs : FileStore) (path data : Str) : FileStore :=
  { content := fun p => if p = path then some data else fs.content p
    writable := fs.writable }

/-- The state after a member call on a `User`, and how the call ended. -/
structure Run where
  user : User
  fs : FileStore
  status : Status Unit

/-! ## Random key and cipher -/

/-- The function `generateRandomString`: `rnd i` is the i-th value drawn from the distribution
(an integer between 11 and 1000000), narrowed to a `char` by `static_cast`. -/
def generateRandomString (rnd : Nat → Nat) (length : Nat) : Str :=
  (List.range length).map (fun i => Fin.ofNat (rnd i))

/-- The loop shared by `encryptPassword` and `decryptPassword`, from position `i` on: byte `i`
is XORed with `key[i % keyLength]`. With an empty key the first iteration evaluates `i % 0`. -/
def xorFrom (key : Str) : Nat → Str → Option Str
  | _, [] => some []
  | i, c :: cs =>
    if key.length = 0 then none
    else (xorFrom key (i + 1) cs).map (fun rest => (c ^^^ key.getD (i % key.length) 0) :: rest)

/-- The function `encryptPassword`; `none` is undefined behaviour. -/
def encryptPassword (password key : Str) : Option Str := xorFrom key 0 password

/-- The function `decryptPassword`; `none` is undefined behaviour. -/
def decryptPassword (encryptedPassword key : Str) : Option Str := xorFrom key 0 encryptedPassword

/-! ## The ledger -/

/-- The constructor `User(username, password)`: balance 0, no transactions, and a key as long as
the username. -/
def User.new (rnd : Nat → Nat) (username password : Str) : User :=
  { id := generateRandomString rnd username.length
    username := username
    password := password
    balance := 0
    transactions := [] }

/-- Decimal digits of a natural number, most significant first (`fuel` bounds the digits). -/
def putNatAux : Nat → Nat → Str → Str
  | 0, _, acc => acc
  | fuel + 1, n, acc =>
    if n / 10 = 0 then Fin.ofNat (48 + n % 10) :: acc
    else putNatAux fuel (n / 10) (Fin.ofNat (48 + n % 10) :: acc)

/-- Decimal text of a natural number. -/
def putNat (n : Nat) : Str := putNatAux (n + 1) n []

/-- The text `operator<<` writes for an `int`. -/
def putInt : Int → Str
  | Int.ofNat n => putNat n
  | Int.negSucc n => (45 : Byte) :: putNat (n + 1)

/-- The date text written by `saveUserData`: day, month and year separated by slashes. -/
def putDate (d : Date) : Str :=
  putInt d.day ++ ascii "/" ++ putInt d.month ++ ascii "/" ++ putInt d.year

/-- The body of the loop of `saveUserData`: the lines of one transaction appended to the
output written so far. -/
def writeTransaction (L : Lib) (out : Str) : Transaction → Str
  | .income amount description date =>
    out ++ ascii "Income" ++ endl ++ L.putDouble amount ++ endl ++ description ++ endl
      ++ putDate date ++ endl
  | .expense amount description date category =>
    out ++ ascii "Expense" ++ endl ++ L.putDouble amount ++ endl ++ description ++ endl
      ++ putDate date ++ endl ++ category ++ endl

/-- The text the C library reads from `c_str()`: the bytes before the first zero byte. -/
def cString (s : Str) : Str := s.takeWhile (fun c => c ≠ 0)

/-- The path of the record of `username`, as the file functions receive it. -/
def recordPath (username : Str) : Str := cString (ascii "data/" ++ username ++ ascii ".txt")

/-- The function `saveUserData`. Opening the stream truncates the file; the key line is written
(and flushed by `std::endl`) before `encryptPassword` is evaluated. -/
def saveUserData (L : Lib) (user : User) (fs : FileStore) : FileStore × Status Unit :=
  let key := user.id
  let path := recordPath user.username
  if fs.writable path = false then
    (fs, .threw (.financial "Error saving user data: User file Cannot be opened."))
  else
    match encryptPassword user.password key with
    | none => (fs.write path (key ++ endl), .undefined)
    | some encrypted =>
      let header := key ++ endl ++ encrypted ++ endl ++ user.username ++ endl
        ++ L.putDouble user.balance ++ endl
      (fs.write path (user.transactions.foldl (writeTransaction L) header), .returned ())

/-- The member `addTransaction`: the vector and the balance are updated before the record is
saved. -/
def addTransaction (L : Lib) (user : User) (transaction : Transaction) (fs : FileStore) : Run :=
  let pushed := { user with transactions := user.transactions ++ [transaction] }
  let updated : User :=
    match transaction with
    | .income amount _ _ => { pushed with balance := pushed.balance + amount }
    | .expense amount _ _ _ => { pushed with balance := pushed.balance - amount }
  let saved := saveUserData L updated fs
  { user := updated, fs := saved.1, status := saved.2 }

/-- The member `removeTransaction`. The guard is `index >= 0 && index < transactions.size()`;
the second comparison is unsigned, and a non-negative `int` keeps its value there. -/
def removeTransaction (L : Lib) (user : User) (index : Int) (fs : FileStore) : Run :=
  if 0 ≤ index ∧ index.toNat < user.transactions.length then
    match user.transactions.get? index.toNat with
    | none => { user := user, fs := fs, status := .returned () }
    | some transaction =>
      let rebalanced : User :=
        match transaction with
        | .income amount _ _ => { user with balance := user.balance - amount }
        | .expense amount _ _ _ => { user with balance := user.balance + amount }
      let erased := { rebalanced with transactions := rebalanced.transactions.eraseIdx index.toNat }
      let saved := saveUserData L erased fs
      { user := erased, fs := saved.1, status := saved.2 }
  else { user := user, fs := fs, status := .returned () }

/-! ## Reading a record -/

/-- One call of `std::getline` on the unread part of a stream: the line and what is left, or
`none` when no character could be extracted (the read fails and the string stays empty). -/
def getline : Str → Option (Str × Str)
  | [] => none
  | c :: cs =>
    if c = newline then some ([], cs)
    else
      match getline cs with
      | none => some ([c], [])
      | some (line, rest) => some (c :: line, rest)

/-- A `std::getline` into a fresh string whose result is not tested: a failed read leaves the
string empty and the stream at its end. -/
def getlineD (input : Str) : Str × Str := (getline input).getD ([], [])

/-- The characters `isspace` accepts. -/
def isSpace (c : Byte) : Bool := c = 32 || (9 ≤ c.val && c.val ≤ 13)

/-- The decimal digits. -/
def isDigit (c : Byte) : Bool := 48 ≤ c.val && c.val ≤ 57

/-- Leading white space skipped by a `%d` conversion. -/
def skipSpace : Str → Str
  | [] => []
  | c :: cs => if isSpace c then skipSpace cs else c :: cs

/-- The digits consumed by a `%d` conversion and the value they denote. -/
def scanDigits : Nat → Str → Nat × Str
  | acc, [] => (acc, [])
  | acc, c :: cs =>
    if isDigit c then scanDigits (acc * 10 + (c.val - 48)) cs else (acc, c :: cs)

/-- One `%d` conversion of `sscanf`: white space, an optional sign, at least one digit. The value
is not reduced to the range of `int`. -/
def scanInt (s : Str) : Option (Int × Str) :=
  match skipSpace s with
  | [] => none
  | c :: cs =>
    let body := if c = 45 ∨ c = 43 then cs else c :: cs
    match body with
    | [] => none
    | d :: _ =>
      if isDigit d then
        let scanned := scanDigits 0 body
        some (if c = 45 then -(scanned.1 : Int) else (scanned.1 : Int), scanned.2)
      else none

/-- The call `sscanf(dateString.c_str(), "%d/%d/%d", &day, &month, &year)`: the C string ends at
the first zero byte, and a variable whose conversion is not reached keeps its previous value. -/
def sscanfDate (dateString : Str) (init : Int × Int × Int) : Int × Int × Int :=
  match scanInt (dateString.takeWhile (fun c => c ≠ 0)) with
  | none => init
  | some (day, afterDay) =>
    match afterDay with
    | [] => (day, init.2.1, init.2.2)
    | c :: afterSlash =>
      if c = 47 then
        match scanInt afterSlash with
        | none => (day, init.2.1, init.2.2)
        | some (month, afterMonth) =>
          match afterMonth with
          | [] => (day, month, init.2.2)
          | c2 :: afterSlash2 =>
            if c2 = 47 then
              match scanInt afterSlash2 with
              | none => (day, month, init.2.2)
              | some (year, _) => (day, month, year)
            else (day, month, init.2.2)
      else (day, init.2.1, init.2.2)

/-- The `while (std::getline(file, transactionType))` loop of `loadUserData`. Every iteration
consumes at least one byte of `input`, so `input.length + 1` units of fuel are never used up. -/
def loadLoop (L : Lib) : Nat → Str → User → FileStore → Run
  | 0, _, user, fs => { user := user, fs := fs, status := .undefined }
  | fuel + 1, input, user, fs =>
    match getline input with
    | none => { user := user, fs := fs, status := .returned () }
    | some (transactionType, in1) =>
      if transactionType = ascii "Income" then
        let amountString := getlineD in1
        match L.stod amountString.1 with
        | none => { user := user, fs := fs, status := .threw .invalidArgument }
        | some amount =>
          let description := getlineD amountString.2
          let dateString := getlineD description.2
          let dmy := sscanfDate dateString.1 L.uninit
          let date : Date := { day := dmy.1, month := dmy.2.1, year := dmy.2.2 }
          let r := addTransaction L user (.income amount description.1 date) fs
          match r.status with
          | .returned _ => loadLoop L fuel dateString.2 r.user r.fs
          | _ => r
      else if transactionType = ascii "Expense" then
        let amountString := getlineD in1
        match L.stod amountString.1 with
        | none => { user := user, fs := fs, status := .threw .invalidArgument }
        | some amount =>
          let description := getlineD amountString.2
          let dateString := getlineD description.2
          let dmy := sscanfDate dateString.1 L.uninit
          let date : Date := { day := dmy.1, month := dmy.2.1, year := dmy.2.2 }
          let categoryName := getlineD dateString.2
          let r := addTransaction L user (.expense amount description.1 date categoryName.1) fs
          match r.status with
          | .returned _ => loadLoop L fuel categoryName.2 r.user r.fs
          | _ => r
      else loadLoop L fuel in1 user fs

/-- What a call of `loadUserData` leaves behind: `user` is the object stored into the
out-parameter (`none` when it was not assigned), `fs` the files, `status` the returned code. -/
structure LoadResult where
  user : Option User
  fs : FileStore
  status : Status Int

/-- The function `loadUserData`. The ledger gets a fresh key from the constructor, and every
`addTransaction` of the loop saves the record again while the stream, opened before, goes on
reading the content it was opened on. -/
def loadUserData (L : Lib) (rnd : Nat → Nat) (username password : Str) (fs : FileStore) :
    LoadResult :=
  match fs.content (recordPath username) with
  | none => { user := none, fs := fs, status := .threw (.financial "User data not found.") }
  | some input =>
    let key := getlineD input
    let loadedPassword := getlineD key.2
    let loadedUsername := getlineD loadedPassword.2
    if loadedUsername.1 ≠ username then { user := none, fs := fs, status := .returned (-1) }
    else
      match decryptPassword loadedPassword.1 key.1 with
      | none => { user := none, fs := fs, status := .undefined }
      | some decrypted =>
        if decrypted ≠ password then { user := none, fs := fs, status := .returned (-2) }
        else
          let r := loadLoop L (loadedUsername.2.length + 1) loadedUsername.2
            (User.new rnd username password) fs
          { user := some r.user
            fs := r.fs
            status :=
              match r.status with
              | .returned _ => .returned 0
              | .threw e => .threw e
              | .undefined => .undefined }

/-- The function `login`, given the global set `users`: the status codes of `loadUserData`
become exceptions. -/
def login (L : Lib) (rnd : Nat → Nat) (users : List Str) (username password : Str)
    (fs : FileStore) : LoadResult :=
  if username ∈ users then
    let r := loadUserData L rnd username password fs
    match r.status with
    | .returned code =>
      if code = -1 then { r with status := .threw (.financial "Invalid username.") }
      else if code = -2 then { r with status := .threw (.financial "Invalid password.") }
      else r
    | _ => r
  else { user := none, fs := fs, status := .threw (.financial "User does not exist.") }

/-! ## Dates and aggregates -/

/-- The member `Date::checkValidity`. The branch for February has no `return true`: for a
February date that passes both tests control flows off the end of the function, which is
undefined behaviour (`none`). The remainder `year % 4` is taken of a year that is not negative. -/
def Date.checkValidity (d : Date) : Option Bool :=
  if d.day < 1 ∨ d.day > 31 ∨ d.month < 1 ∨ d.month > 12 ∨ d.year < 0 then some false
  else if (d.month = 4 ∨ d.month = 6 ∨ d.month = 9 ∨ d.month = 11) ∧ d.day > 30 then some false
  else if d.month = 2 then
    if d.year % 4 = 0 ∧ d.day > 29 then some false
    else if d.year % 4 ≠ 0 ∧ d.day > 28 then some false
    else none
  else some true

/-- The member `getAmount`. -/
def Transaction.getAmount : Transaction → Amount
  | .income a _ _ => a
  | .expense a _ _ _ => a

/-- The private member `isDateInRange`. -/
def isDateInRange (date startDate endDate : Date) : Bool :=
  decide (date.year ≥ startDate.year) && decide (date.year ≤ endDate.year) &&
    decide (date.month ≥ startDate.month) && decide (date.month ≤ endDate.month) &&
    decide (date.day ≥ startDate.day) && decide (date.day ≤ endDate.day)

/-- The body of the loop of `calculateIncomeForPeriod`: an Income whose date is in range is added
to `income`. -/
def incomeStep (startDate endDate : Date) (income : Amount) : Transaction → Amount
  | .income amount _ date =>
    if isDateInRange date startDate endDate then income + amount else income
  | .expense _ _ _ _ => income

/-- The member `calculateIncomeForPeriod`: `income` starts at 0. -/
def calculateIncomeForPeriod (user : User) (startDate endDate : Date) : Amount :=
  user.transactions.foldl (incomeStep startDate endDate) 0

/-- The body of the loop of `calculateExpensesByCategory`: the category name is compared as a
string. -/
def categoryStep (categoryName : Str) (expenses : Amount) : Transaction → Amount
  | .income _ _ _ => expenses
  | .expense amount _ _ category =>
    if category = categoryName then expenses + amount else expenses

/-- The member `calculateExpensesByCategory`. -/
def calculateExpensesByCategory (user : User) (categoryName : Str) : Amount :=
  user.transactions.foldl (categoryStep categoryName) 0

/-! ## The user directory -/

/-- The path of the index file of registered usernames. -/
def indexPath : Str := ascii "data/users.txt"

/-- The path of the temporary file of `deleteUser`. -/
def tempPath : Str := ascii "data/temp.txt"

/-- The effect of a `std::ofstream` opened with `std::ios::app` on `path`: the bytes written
follow the content the file had; a missing file is created. -/
def FileStore.append (fs : FileStore) (path data : Str) : FileStore :=
  fs.write path ((fs.content path).getD [] ++ data)

/-- The call `std::remove(path)`: the file is gone afterwards. -/
def FileStore.remove (fs : FileStore) (path : Str) : FileStore :=
  { content := fun p => if p = path then none else fs.content p
    writable := fs.writable }

/-- The call `std::rename(old, new)`: nothing happens when there is no file at `old`; otherwise
the file is found at `new`, in place of whatever was there, and no longer at `old`. -/
def FileStore.rename (fs : FileStore) (old new : Str) : FileStore :=
  match fs.content old with
  | none => fs
  | some data =>
    { content := fun p => if p = new then some data else if p = old then none else fs.content p
      writable := fs.writable }

/-- The call `users.insert(username)` on the global `std::set`, kept as a list without order of
its own: a name already present is not added again. -/
def usersInsert (users : List Str) (username : Str) : List Str :=
  if username ∈ users then users else users ++ [username]

/-- The call `users.erase(it)` for the element equal to `username`. -/
def usersErase (users : List Str) (username : Str) : List Str :=
  users.filter (fun u => u ≠ username)

/-- The loop at the start of `main` that fills `users` from the lines of the index file. -/
def readUsers : Nat → Str → List Str → List Str
  | 0, _, users => users
  | fuel + 1, input, users =>
    match getline input with
    | none => users
    | some (line, rest) => readUsers fuel rest (usersInsert users line)

/-- The set `users` after the start of `main`: empty when there is no index file. -/
def loadUsers (fs : FileStore) : List Str :=
  match fs.content indexPath with
  | none => []
  | some text => readUsers (text.length + 1) text []

/-- What a call of `registerUser` leaves behind: the global set, the files, the object returned
(`none` when the call does not return) and how the call ended. -/
structure RegisterResult where
  users : List Str
  fs : FileStore
  user : Option User
  status : Status Unit

/-- The function `registerUser`. The name is inserted into `users` before the index file is
opened, and the line of the index file is written and flushed before the record is saved. -/
def registerUser (L : Lib) (rnd : Nat → Nat) (username password : Str) (users : List Str)
    (fs : FileStore) : RegisterResult :=
  if username ∈ users then
    { users := users, fs := fs, user := none
      status := .threw (.financial "User already exists.") }
  else
    let inserted := usersInsert users username
    if fs.writable indexPath = false then
      { users := inserted, fs := fs, user := none
        status := .threw (.financial "Error saving user data: User file Cannot be opened.") }
    else
      let indexed := fs.append indexPath (username ++ endl)
      let user := User.new rnd username password
      let saved := saveUserData L user indexed
      match saved.2 with
      | .returned _ =>
        { users := inserted, fs := saved.1, user := some user, status := .returned () }
      | .threw e => { users := inserted, fs := saved.1, user := none, status := .threw e }
      | .undefined => { users := inserted, fs := saved.1, user := none, status := .undefined }

/-- The loop of `deleteUser` over the lines of the index file: every line different from
`username` is written to the temporary file, followed by a line terminator. -/
def copyOtherLines (username : Str) : Nat → Str → Str → Str
  | 0, _, out => out
  | fuel + 1, input, out =>
    match getline input with
    | none => out
    | some (line, rest) =>
      copyOtherLines username fuel rest (if line ≠ username then out ++ line ++ endl else out)

/-- What a call of `deleteUser` leaves behind. -/
structure DeleteResult where
  users : List Str
  fs : FileStore
  status : Status Unit

/-- The function `deleteUser`. The record is removed first; the index file is then read (no line
is read when it cannot be opened), the temporary file is written when it can be opened, and at
the end the index file is removed and the temporary file renamed to it. The password is not
used. -/
def deleteUser (username _password : Str) (users : List Str) (fs : FileStore) : DeleteResult :=
  if username ∈ users then
    let erased := usersErase users username
    let fs1 := fs.remove (recordPath username)
    let input := fs1.content indexPath
    let tempOpen := fs1.writable tempPath
    let fs2 := if tempOpen then fs1.write tempPath [] else fs1
    let out :=
      match input with
      | none => []
      | some text => copyOtherLines username (text.length + 1) text []
    let fs3 := if tempOpen then fs2.write tempPath out else fs2
    let fs4 := fs3.remove indexPath
    { users := erased, fs := fs4.rename tempPath indexPath, status := .returned () }
  else { users := users, fs := fs, status := .threw (.financial "User does not exist.") }

/-! ## Changing the password -/

/-- The member `validatePassword`. -/
def validatePassword (user : User) (inputPassword : Str) : Bool :=
  decide (user.password = inputPassword)

/-- The member `changePassword`: the password is replaced in memory, the record file is removed,
and the record is saved again. -/
def changePassword (L : Lib) (user : User) (newPassword : Str) (fs : FileStore) : Run :=
  let updated := { user with password := newPassword }
  let removed := fs.remove (recordPath updated.username)
  let saved := saveUserData L updated removed
  { user := updated, fs := saved.1, status := saved.2 }

/-! ## Sequences of mutations -/

/-- A mutation request on a ledger. -/
inductive Op where
  | add (transaction : Transaction)
  | remove (index : Int)

/-- One mutation request carried out on the ledger. -/
def applyOp (L : Lib) (op : Op) (user : User) (fs : FileStore) : Run :=
  match op with
  | .add transaction => addTransaction L user transaction fs
  | .remove index => removeTransaction L user index fs

/-- A sequence of mutation requests carried out in order. An exception is caught by the menu loop
and the session goes on with the same object; nothing follows undefined behaviour. -/
def runOps (L : Lib) : List Op → User → FileStore → Run
  | [], user, fs => { user := user, fs := fs, status := .returned () }
  | op :: ops, user, fs =>
    let r := applyOp L op user fs
    match r.status with
    | .undefined => r
    | _ => runOps L ops r.user r.fs

/-! ## The arithmetic of `double` -/

/-- How the members combine two amounts: `add` is `+` on `double` (the `+=` of the members),
`sub` is `-` (the `-=`). -/
structure Arith where
  add : Amount → Amount → Amount
  sub : Amount → Amount → Amount

/-- Arithmetic without rounding: the one the definitions above are written in. -/
def exactArith : Arith :=
  { add := fun a b => a + b
    sub := fun a b => a - b }

/-- The number of halvings that bring `n` below 2 (`fuel` bounds them). -/
def log2Fuel : Nat → Nat → Nat
  | 0, _ => 0
  | fuel + 1, n => if n < 2 then 0 else log2Fuel fuel (n / 2) + 1

/-- The position of the leading binary digit of `n`: the `k` with `2 ^ k ≤ n < 2 ^ (k + 1)`. -/
def ilog2 (n : Nat) : Nat := log2Fuel n n

/-- Whether `2 ^ k ≤ n / d`. -/
def pow2Le (k : Int) (n d : Nat) : Bool :=
  if 0 ≤ k then decide (d * 2 ^ k.toNat ≤ n) else decide (d ≤ n * 2 ^ (-k).toNat)

/-- The binary exponent of the fraction `n / d`: the `k` with `2 ^ k ≤ n / d < 2 ^ (k + 1)`. -/
def floorLog2 (n d : Nat) : Int :=
  let k : Int := (ilog2 n : Int) - (ilog2 d : Int)
  if pow2Le k n d then k else k - 1

/-- The integer nearest to `n / d`; of two equally near integers the even one. -/
def roundHalfEven (n d : Nat) : Nat :=
  let q := n / d
  let r := n % d
  if 2 * r < d then q else if d < 2 * r then q + 1 else if q % 2 = 0 then q else q + 1

/-- The `double` nearest to an exact result, as IEEE 754 binary64 arithmetic in its default
rounding mode delivers it: the result is rounded to 53 significant binary digits (to a multiple
of `2 ^ -1074` below `2 ^ -1022`), and of two equally near values the one with the even last digit
is taken. A result beyond the largest finite `double`, which the program holds as an infinity, is
left at the rounded value. -/
def roundDouble (x : ℚ) : ℚ :=
  if x = 0 then 0
  else
    let n := x.num.natAbs
    let d := x.den
    let e : Int := max (floorLog2 n d - 52) (-1074)
    let v : ℚ :=
      if 0 ≤ e then ((roundHalfEven n (d * 2 ^ e.toNat) * 2 ^ e.toNat : Nat) : ℚ)
      else mkRat (roundHalfEven (n * 2 ^ (-e).toNat) d) (2 ^ (-e).toNat)
    if x < 0 then -v else v

/-- The arithmetic of the source: every sum and difference of two `double`s is rounded to a
`double`. -/
def doubleArith : Arith :=
  { add := fun a b => roundDouble (a + b)
    sub := fun a b => roundDouble (a - b) }

/-- The member `addTransaction`, with the arithmetic of the balance as a parameter. -/
def addTransactionWith (A : Arith) (L : Lib) (user : User) (transaction : Transaction)
    (fs : FileStore) : Run :=
  let pushed := { user with transactions := user.transactions ++ [transaction] }
  let updated : User :=
    match transaction with
    | .income amount _ _ => { pushed with balance := A.add pushed.balance amount }
    | .expense amount _ _ _ => { pushed with balance := A.sub pushed.balance amount }
  let saved := saveUserData L updated fs
  { user := updated, fs := saved.1, status := saved.2 }

/-- The member `removeTransaction`, with the arithmetic of the balance as a parameter. -/
def removeTransactionWith (A : Arith) (L : Lib) (user : User) (index : Int) (fs : FileStore) :
    Run :=
  if 0 ≤ index ∧ index.toNat < user.transactions.length then
    match user.transactions.get? index.toNat with
    | none => { user := user, fs := fs, status := .returned () }
    | some transaction =>
      let rebalanced : User :=
        match transaction with
        | .income amount _ _ => { user with balance := A.sub user.balance amount }
        | .expense amount _ _ _ => { user with balance := A.add user.balance amount }
      let erased := { rebalanced with transactions := rebalanced.transactions.eraseIdx index.toNat }
      let saved := saveUserData L erased fs
      { user := erased, fs := saved.1, status := saved.2 }
  else { user := user, fs := fs, status := .returned () }

/-- One mutation request carried out in the arithmetic `A`. -/
def applyOpWith (A : Arith) (L : Lib) (op : Op) (user : User) (fs : FileStore) : Run :=
  match op with
  | .add transaction => addTransactionWith A L user transaction fs
  | .remove index => removeTransactionWith A L user index fs

/-- A sequence of mutation requests carried out in order in the arithmetic `A`. -/
def runOpsWith (A : Arith) (L : Lib) : List Op → User → FileStore → Run
  | [], user, fs => { user := user, fs := fs, status := .returned () }
  | op :: ops, user, fs =>
    let r := applyOpWith A L op user fs
    match r.status with
    | .undefined => r
    | _ => runOpsWith A L ops r.user r.fs

/-- The reading loop of `loadUserData`, with the arithmetic of the balance as a parameter. -/
def loadLoopWith (A : Arith) (L : Lib) : Nat → Str → User → FileStore → Run
  | 0, _, user, fs => { user := user, fs := fs, status := .undefined }
  | fuel + 1, input, user, fs =>
    match getline input with
    | none => { user := user, fs := fs, status := .returned () }
    | some (transactionType, in1) =>
      if transactionType = ascii "Income" then
        let amountString := getlineD in1
        match L.stod amountString.1 with
        | none => { user := user, fs := fs, status := .threw .invalidArgument }
        | some amount =>
          let description := getlineD amountString.2
          let dateString := getlineD description.2
          let dmy := sscanfDate dateString.1 L.uninit
          let date : Date := { day := dmy.1, month := dmy.2.1, year := dmy.2.2 }
          let r := addTransactionWith A L user (.income amount description.1 date) fs
          match r.status with
          | .returned _ => loadLoopWith A L fuel dateString.2 r.user r.fs
          | _ => r
      else if transactionType = ascii "Expense" then
        let amountString := getlineD in1
        match L.stod amountString.1 with
        | none => { user := user, fs := fs, status := .threw .invalidArgument }
        | some amount =>
          let description := getlineD amountString.2
          let dateString := getlineD description.2
          let dmy := sscanfDate dateString.1 L.uninit
          let date : Date := { day := dmy.1, month := dmy.2.1, year := dmy.2.2 }
          let categoryName := getlineD dateString.2
          let r :=
            addTransactionWith A L user (.expense amount description.1 date categoryName.1) fs
          match r.status with
          | .returned _ => loadLoopWith A L fuel categoryName.2 r.user r.fs
          | _ => r
      else loadLoopWith A L fuel in1 user fs

/-- The function `loadUserData`, with the arithmetic of the balance as a parameter. -/
def loadUserDataWith (A : Arith) (L : Lib) (rnd : Nat → Nat) (username password : Str)
    (fs : FileStore) : LoadResult :=
  match fs.content (recordPath username) with
  | none => { user := none, fs := fs, status := .threw (.financial "User data not found.") }
  | some input =>
    let key := getlineD input
    let loadedPassword := getlineD key.2
    let loadedUsername := getlineD loadedPassword.2
    if loadedUsername.1 ≠ username then { user := none, fs := fs, status := .returned (-1) }
    else
      match decryptPassword loadedPassword.1 key.1 with
      | none => { user := none, fs := fs, status := .undefined }
      | some decrypted =>
        if decrypted ≠ password then { user := none, fs := fs, status := .returned (-2) }
        else
          let r := loadLoopWith A L (loadedUsername.2.length + 1) loadedUsername.2
            (User.new rnd username password) fs
          { user := some r.user
            fs := r.fs
            status :=
              match r.status with
              | .returned _ => .returned 0
              | .threw e => .threw e
              | .undefined => .undefined }

/-- The body of the loop of `calculateExpensesByCategory`, with the arithmetic of the total as a
parameter. -/
def categoryStepWith (A : Arith) (categoryName : Str) (expenses : Amount) :
    Transaction → Amount
  | .income _ _ _ => expenses
  | .expense amount _ _ category =>
    if category = categoryName then A.add expenses amount else expenses

/-- The member `calculateExpensesByCategory`, with the arithmetic of the total as a parameter. -/
def calculateExpensesByCategoryWith (A : Arith) (user : User) (categoryName : Str) : Amount :=
  user.transactions.foldl (categoryStepWith A categoryName) 0

/-- The balance step of `addTransaction` for one entry: an Income is added, an Expense
subtracted. -/
def balanceStep (A : Arith) (balance : Amount) : Transaction → Amount
  | .income amount _ _ => A.add balance amount
  | .expense amount _ _ _ => A.sub balance amount

/-- The balance after the entries of a list went through `addTransaction` in order. -/
def replayBalance (A : Arith) (balance : Amount) (ts : List Transaction) : Amount :=
  ts.foldl (balanceStep A) balance

/-- A list of amounts accumulated from 0 in order with `double` additions, as the summing loops
of the source do. -/
def doubleSum (amounts : List Amount) : Amount := amounts.foldl doubleArith.add 0

/-! ## Reference definitions, following the specification -/

/-- Sum of the amounts of the Income entries. -/
def incomeTotal : List Transaction → Amount
  | [] => 0
  | .income a _ _ :: ts => a + incomeTotal ts
  | .expense _ _ _ _ :: ts => incomeTotal ts

/-- Sum of the amounts of the Expense entries. -/
def expenseTotal : List Transaction → Amount
  | [] => 0
  | .income _ _ _ :: ts => expenseTotal ts
  | .expense a _ _ _ :: ts => a + expenseTotal ts

/-- The balance equals the Income amounts held minus the Expense amounts held. -/
def BalanceHolds (user : User) : Prop :=
  user.balance = incomeTotal user.transactions - expenseTotal user.transactions

/-- The lines of a text: the maximal runs of bytes between line terminators. -/
def splitLines : Str → List Str
  | [] => [[]]
  | c :: cs =>
    if c = newline then [] :: splitLines cs
    else
      match splitLines cs with
      | [] => [[c]]
      | line :: lines => (c :: line) :: lines

/-- The n-th line of a text, counted from 0; empty when the text has no such line. -/
def nthLine (n : Nat) (text : Str) : Str := (splitLines text).getD n []

/-- A text given by its lines, each followed by a line terminator. -/
def unlines : List Str → Str
  | [] => []
  | line :: lines => line ++ endl ++ unlines lines

/-- The lines of one entry in a record, as the specification lists them. -/
def entryLines (L : Lib) : Transaction → List Str
  | .income amount description date =>
    [ascii "Income", L.putDouble amount, description, putDate date]
  | .expense amount description date category =>
    [ascii "Expense", L.putDouble amount, description, putDate date, category]

/-- No decimal digit comes first in the text. -/
def NoDigitAhead (rest : Str) : Prop := ∀ c tl, rest = c :: tl → isDigit c = false

/-- The text of the amount fits on one line and `std::stod` reads the amount back from it. -/
def CleanAmount (L : Lib) (a : Amount) : Prop :=
  newline ∉ L.putDouble a ∧ L.stod (L.putDouble a) = some a

/-- An entry whose amount is read back as written and whose texts hold no line terminator. -/
def CleanEntry (L : Lib) : Transaction → Prop
  | .income a d _ => CleanAmount L a ∧ newline ∉ d
  | .expense a d _ c => CleanAmount L a ∧ newline ∉ d ∧ newline ∉ c

/-- The last day of a month as the specification gives it: 30 for months 4, 6, 9 and 11; for
month 2, 29 when the year is divisible by 4 and 28 otherwise; 31 for every other month. -/
def maxDay (month year : Int) : Int :=
  if month = 4 ∨ month = 6 ∨ month = 9 ∨ month = 11 then 30
  else if month = 2 then (if year % 4 = 0 then 29 else 28)
  else 31

/-- Validity of a date as the specification gives it. -/
def validDate (d : Date) : Prop :=
  0 ≤ d.year ∧ 1 ≤ d.month ∧ d.month ≤ 12 ∧ 1 ≤ d.day ∧ d.day ≤ maxDay d.month d.year

instance (d : Date) : Decidable (validDate d) := by
  unfold validDate
  infer_instance

/-- The entry is an Income. -/
def Transaction.isIncome : Transaction → Bool
  | .income _ _ _ => true
  | .expense _ _ _ _ => false

/-- The entry is an Expense. -/
def Transaction.isExpense : Transaction → Bool
  | .income _ _ _ => false
  | .expense _ _ _ _ => true

/-- The entry is an Expense with this category name. -/
def Transaction.hasCategory (c : Str) : Transaction → Bool
  | .income _ _ _ => false
  | .expense _ _ _ category => decide (category = c)

/-- Sum of the amounts of the entries of a list. -/
def amountSum (ts : List Transaction) : Amount := (ts.map Transaction.getAmount).sum

/-- The lines of a file as successive reads by `std::getline` deliver them: a text that ends with
a line terminator has no further line after it. -/
def fileLines : Str → List Str
  | [] => []
  | c :: cs =>
    if c = newline then [] :: fileLines cs
    else
      match fileLines cs with
      | [] => [[c]]
      | line :: lines => (c :: line) :: lines

/-- True chronological order of two dates: lexicographic on year, then month, then day. -/
def chronLe (a b : Date) : Prop :=
  a.year < b.year ∨ (a.year = b.year ∧ (a.month < b.month ∨ (a.month = b.month ∧ a.day ≤ b.day)))

instance (a b : Date) : Decidable (chronLe a b) := by
  unfold chronLe
  infer_instance

/-- Strictly earlier in true chronological order. -/
def chronLt (a b : Date) : Prop :=
  a.year < b.year ∨ (a.year = b.year ∧ (a.month < b.month ∨ (a.month = b.month ∧ a.day < b.day)))

instance (a b : Date) : Decidable (chronLt a b) := by
  unfold chronLt
  infer_instance

/-- The category name of an Expense entry. -/
def Transaction.categoryName : Transaction → Option Str
  | .income _ _ _ => none
  | .expense _ _ _ category => some category

/-- The distinct category names that occur among the Expense entries. -/
def categoriesOf (ts : List Transaction) : List Str :=
  (ts.filterMap Transaction.categoryName).dedup

/-- The amount is a whole number. -/
def Whole (a : Amount) : Prop := a.den = 1

instance (a : Amount) : Decidable (Whole a) := by
  unfold Whole
  infer_instance

/-- Sum of the absolute values of the amounts of the entries of a list. -/
def absTotal (ts : List Transaction) : Amount := (ts.map (fun t => |t.getAmount|)).sum

/-- The entries that a sequence of mutation requests adds, in order. -/
def addedEntries : List Op → List Transaction
  | [] => []
  | .add transaction :: ops => transaction :: addedEntries ops
  | .remove _ :: ops => addedEntries ops

/-- The power `2 ^ 53`: every whole number of smaller absolute value is a `double`. -/
def doubleIntegerLimit : Amount := 9007199254740992

/-- The amounts of the Income entries of a list, in order. -/
def incomeAmounts (ts : List Transaction) : List Amount :=
  (ts.filter (fun t => t.isIncome)).map Transaction.getAmount

/-- The amounts of the Expense entries of a list, in order. -/
def expenseAmounts (ts : List Transaction) : List Amount :=
  (ts.filter (fun t => t.isExpense)).map Transaction.getAmount

/-! ## Sample inputs -/

/-- A library instance for evaluating examples. A whole amount is written as a decimal integer,
which is what the stream library prints for whole amounts of at most six digits, and such text is
read back; any other amount is written as `nan`. -/
def wholeLib : Lib :=
  { putDouble := fun a => if a.den = 1 then putInt a.num else ascii "nan"
    stod := fun s => (scanInt s).map (fun r => (r.1 : ℚ))
    uninit := (0, 0, 0) }

/-- A ledger with one Income and one Expense entry. -/
def sampleUser : User :=
  { id := ascii "key"
    username := ascii "bob"
    password := ascii "secret"
    balance := 800
    transactions :=
      [ .income 1000 (ascii "salary") { day := 1, month := 1, year := 2024 },
        .expense 200 (ascii "food") { day := 15, month := 1, year := 2024 } (ascii "Food") ] }

/-- A working directory without files in which every path can be written. -/
def emptyStore : FileStore :=
  { content := fun _ => none
    writable := fun _ => true }

/-- The record of `sampleUser` with a stored balance of 123456 in place of 800. -/
def tamperedStore : FileStore :=
  (saveUserData wholeLib { sampleUser with balance := 123456 } emptyStore).1

/-- The text of the record in `tamperedStore`. -/
def tamperedRecord : Str :=
  unlines
    [ ascii "key", [24, 0, 26, 25, 0, 13], ascii "bob", ascii "123456",
      ascii "Income", ascii "1000", ascii "salary", ascii "1/1/2024",
      ascii "Expense", ascii "200", ascii "food", ascii "15/1/2024", ascii "Food" ]

/-- A ledger for `a` with password `a` whose key is the byte 107, drawn as 107. -/
def newlineCipherUser : User := User.new (fun _ => 107) (ascii "a") (ascii "a")

/-- A ledger for `ab` whose key is the bytes 1 and 10, drawn as 257 and 266, and whose password
is the bytes 96 and 104. -/
def newlineKeyUser : User :=
  User.new (fun i => if i = 0 then 257 else 266) (ascii "ab") [96, 104]

/-- The Income of the worked example. -/
def salary : Transaction :=
  .income 1000 (ascii "salary") { day := 1, month := 1, year := 2024 }

/-- The Expense of the worked example. -/
def food : Transaction :=
  .expense 200 (ascii "food") { day := 15, month := 1, year := 2024 } (ascii "Food")

/-- The files after the name `users` has registered with password `pw` and key `kkkkk` in an empty
directory. -/
def usersNameStore : FileStore :=
  (registerUser wholeLib (fun _ => 107) (ascii "users") (ascii "pw") [] emptyStore).fs

/-- Requests on whose amounts a `double` addition rounds: two Incomes of 10^16 and 1, an Expense
of 10^16, then the removal of the Income of 1. -/
def roundingOps : List Op :=
  [ .add (.income 10000000000000000 (ascii "sale") { day := 1, month := 1, year := 2024 }),
    .add (.income 1 (ascii "tip") { day := 2, month := 1, year := 2024 }),
    .add (.expense 10000000000000000 (ascii "house") { day := 3, month := 1, year := 2024 }
      (ascii "Home")),
    .remove 1 ]

/-- Four entries on whose amounts a `double` addition rounds: Income 10^16, Income 1, Expense
10^16, Income 1. -/
def roundingEntries : List Transaction :=
  [ .income 10000000000000000 (ascii "sale") { day := 1, month := 1, year := 2024 },
    .income 1 (ascii "tip") { day := 2, month := 1, year := 2024 },
    .expense 10000000000000000 (ascii "house") { day := 3, month := 1, year := 2024 }
      (ascii "Home"),
    .income 1 (ascii "tip") { day := 4, month := 1, year := 2024 } ]

/-- A working directory with a record for `bob`, password `abc` under the key of three blanks,
stored balance 0, and the entries of `roundingEntries`. -/
def roundingStore : FileStore :=
  { content := fun p =>
      if p = recordPath (ascii "bob") then
        some (unlines
          [ ascii "   ", ascii "ABC", ascii "bob", ascii "0",
            ascii "Income", ascii "10000000000000000", ascii "sale", ascii "1/1/2024",
            ascii "Income", ascii "1", ascii "tip", ascii "2/1/2024",
            ascii "Expense", ascii "10000000000000000", ascii "house", ascii "3/1/2024",
            ascii "Home",
            ascii "Income", ascii "1", ascii "tip", ascii "4/1/2024" ])
      else none
    writable := fun _ => true }

/-- Four entries with amounts that are `double`s but not whole: the `double`s nearest to 0.3,
0.1, 0.2 and 0.2, as `std::stod` reads them, as Income, Expense, Income, Expense. -/
def decimalEntries : List Transaction :=
  [ .income (roundDouble (3 / 10)) (ascii "a") { day := 1, month := 1, year := 2024 },
    .expense (roundDouble (1 / 10)) (ascii "b") { day := 2, month := 1, year := 2024 }
      (ascii "A"),
    .income (roundDouble (2 / 10)) (ascii "c") { day := 3, month := 1, year := 2024 },
    .expense (roundDouble (2 / 10)) (ascii "d") { day := 4, month := 1, year := 2024 }
      (ascii "A") ]

/-- A ledger with two categories of Expenses with whole amounts. -/
def twoCategoryLedger : User :=
  { sampleUser with
    balance := 720
    transactions :=
      sampleUser.transactions ++
        [ .expense 50 (ascii "bus") { day := 16, month := 1, year := 2024 } (ascii "Travel"),
          .expense 30 (ascii "rice") { day := 17, month := 1, year := 2024 } (ascii "Food") ] }

/-- A ledger with four Expenses: 10^16 and 1 in category `A`, 1 and 1 in category `B`. -/
def roundingLedger : User :=
  { id := ascii "key"
    username := ascii "bob"
    password := ascii "secret"
    balance := -10000000000000000
    transactions :=
      [ .expense 10000000000000000 (ascii "house") { day := 1, month := 1, year := 2024 }
          (ascii "A"),
        .expense 1 (ascii "tea") { day := 2, month := 1, year := 2024 } (ascii "A"),
        .expense 1 (ascii "bus") { day := 3, month := 1, year := 2024 } (ascii "B"),
        .expense 1 (ascii "pen") { day := 4, month := 1, year := 2024 } (ascii "B") ] }

/-! ## The cipher -/

theorem byte_xor_cancel (a b : Byte) : (a ^^^ b) ^^^ b = a := by
  apply Fin.ext
  show ((a.val ^^^ b.val) % 256 ^^^ b.val) % 256 = a.val
  have h1 : a.val ^^^ b.val < 2 ^ 8 := Nat.xor_lt_two_pow (by omega) (by omega)
  have h2 : (a.val ^^^ b.val) % 256 = a.val ^^^ b.val := Nat.mod_eq_of_lt (by omega)
  rw [h2, Nat.xor_assoc, Nat.xor_self, Nat.xor_zero]
  exact Nat.mod_eq_of_lt a.isLt

theorem xorFrom_spec (key : Str) (hk : 1 ≤ key.length) :
    ∀ (s : Str) (i : Nat), ∃ e, xorFrom key i s = some e ∧ xorFrom key i e = some s ∧
      e.length = s.length ∧
      ∀ j, j < s.length → e.getD j 0 = s.getD j 0 ^^^ key.getD ((i + j) % key.length) 0 := by
  intro s
  induction s with
  | nil => intro i; exact ⟨[], rfl, rfl, rfl, fun j hj => absurd hj (by simp)⟩
  | cons c cs ih =>
    intro i
    obtain ⟨e, h1, h2, h3, h4⟩ := ih (i + 1)
    have hk0 : ¬ key.length = 0 := by omega
    refine ⟨(c ^^^ key.getD (i % key.length) 0) :: e, ?_, ?_, ?_, ?_⟩
    · simp [xorFrom, hk0, h1]
    · simp [xorFrom, hk0, h2, byte_xor_cancel]
    · simp [h3]
    · intro j hj
      cases j with
      | zero => simp
      | succ j =>
        have hj2 : j < cs.length := by simpa using hj
        have := h4 j hj2
        simpa [Nat.add_assoc, Nat.add_comm 1 j] using this

/-- C3: for every password and every key of length at least 1, `encryptPassword` is defined,
byte i of its result is byte i of the password XORed with byte (i mod len(key)) of the key, and
`decryptPassword` with the same key gives the password back. -/
theorem decryptPassword_encryptPassword (p k : Str) (hk : 1 ≤ k.length) :
    ∃ e, encryptPassword p k = some e ∧ decryptPassword e k = some p ∧
      e.length = p.length ∧
      ∀ i, i < p.length → e.getD i 0 = p.getD i 0 ^^^ k.getD (i % k.length) 0 := by
  obtain ⟨e, h1, h2, h3, h4⟩ := xorFrom_spec k hk p 0
  exact ⟨e, h1, h2, h3, fun i hi => by simpa using h4 i hi⟩

theorem decryptPassword_encryptPassword_witness :
    1 ≤ (ascii "key").length ∧
    ∃ e, encryptPassword (ascii "secret") (ascii "key") = some e ∧
      decryptPassword e (ascii "key") = some (ascii "secret") ∧
      e.length = (ascii "secret").length ∧
      ∀ i, i < (ascii "secret").length →
        e.getD i 0 = (ascii "secret").getD i 0 ^^^ (ascii "key").getD (i % (ascii "key").length) 0 :=
  ⟨by decide, decryptPassword_encryptPassword (ascii "secret") (ascii "key") (by decide)⟩

theorem decryptPassword_of_encryptPassword (p k e : Str) (h : encryptPassword p k = some e) :
    decryptPassword e k = some p := by
  by_cases hk : 1 ≤ k.length
  · obtain ⟨e2, h1, h2, _, _⟩ := xorFrom_spec k hk p 0
    have he : e2 = e := by
      have h3 : xorFrom k 0 p = some e := h
      rw [h1] at h3
      exact Option.some.inj h3
    rw [← he]
    exact h2
  · have hk0 : k.length = 0 := by omega
    cases p with
    | nil =>
      have he : e = [] := by
        have h3 : xorFrom k 0 [] = some e := h
        simpa [xorFrom] using h3.symm
      rw [he]
      rfl
    | cons c cs =>
      have h3 : xorFrom k 0 (c :: cs) = some e := h
      simp [xorFrom, hk0] at h3

theorem encryptPassword_defined (p k : Str) (h : k ≠ [] ∨ p = []) :
    ∃ e, encryptPassword p k = some e := by
  rcases h with h | h
  · have hk : 1 ≤ k.length := by
      cases k with
      | nil => exact absurd rfl h
      | cons c cs => simp
    obtain ⟨e, h1, _⟩ := xorFrom_spec k hk p 0
    exact ⟨e, h1⟩
  · subst h
    exact ⟨[], rfl⟩

theorem generateRandomString_length (rnd : Nat → Nat) (n : Nat) :
    (generateRandomString rnd n).length = n := by
  simp [generateRandomString]

theorem User_new_cipher_defined (rnd : Nat → Nat) (username password : Str)
    (h : username ≠ [] ∨ password = []) :
    ∃ e, encryptPassword (User.new rnd username password).password
      (User.new rnd username password).id = some e := by
  apply encryptPassword_defined
  rcases h with h | h
  · left
    intro hid
    have := generateRandomString_length rnd username.length
    have hid2 : generateRandomString rnd username.length = [] := hid
    rw [hid2] at this
    cases username with
    | nil => exact h rfl
    | cons c cs => simp at this
  · exact Or.inr h

/-! ## The record written by `saveUserData` -/

theorem unlines_append (xs ys : List Str) : unlines (xs ++ ys) = unlines xs ++ unlines ys := by
  induction xs with
  | nil => rfl
  | cons x xs ih => simp [unlines, ih, List.append_assoc]

theorem writeTransaction_eq (L : Lib) (out : Str) (t : Transaction) :
    writeTransaction L out t = out ++ unlines (entryLines L t) := by
  cases t <;> simp [writeTransaction, entryLines, unlines, List.append_assoc]

theorem foldl_writeTransaction (L : Lib) (ts : List Transaction) :
    ∀ out : Str, ts.foldl (writeTransaction L) out = out ++ unlines (ts.flatMap (entryLines L)) := by
  induction ts with
  | nil => intro out; simp [unlines]
  | cons t ts ih =>
    intro out
    simp [List.foldl_cons, ih, writeTransaction_eq, unlines_append, List.append_assoc]

theorem saveUserData_returns (L : Lib) (user : User) (fs : FileStore) (encrypted : Str)
    (hopen : fs.writable (recordPath user.username) = true)
    (henc : encryptPassword user.password user.id = some encrypted) :
    saveUserData L user fs
      = (fs.write (recordPath user.username)
          (unlines ([user.id, encrypted, user.username, L.putDouble user.balance]
            ++ user.transactions.flatMap (entryLines L))), .returned ()) := by
  unfold saveUserData
  simp only [hopen, henc, foldl_writeTransaction, unlines_append]
  simp [unlines, List.append_assoc]

/-- C8: for every ledger whose record file can be opened and whose cipher is defined,
`saveUserData` returns after writing exactly these texts in this order, each followed by a line
terminator: the account key; the encrypted password; the username; the balance; then for each
entry in insertion order the tag `Income` or `Expense`, the amount, the description, the date as
day/month/year and, for an Expense only, the category name. An Income has 4 lines and an
Expense 5. -/
theorem saveUserData_record_format (L : Lib) (user : User) (fs : FileStore) (encrypted : Str)
    (hopen : fs.writable (recordPath user.username) = true)
    (henc : encryptPassword user.password user.id = some encrypted) :
    saveUserData L user fs
      = (fs.write (recordPath user.username)
          (unlines ([user.id, encrypted, user.username, L.putDouble user.balance]
            ++ user.transactions.flatMap (entryLines L))), .returned ()) ∧
    (∀ a d dt, entryLines L (.income a d dt)
      = [ascii "Income", L.putDouble a, d,
          putInt dt.day ++ ascii "/" ++ putInt dt.month ++ ascii "/" ++ putInt dt.year]) ∧
    (∀ a d dt c, entryLines L (.expense a d dt c)
      = [ascii "Expense", L.putDouble a, d,
          putInt dt.day ++ ascii "/" ++ putInt dt.month ++ ascii "/" ++ putInt dt.year, c]) :=
  ⟨saveUserData_returns L user fs encrypted hopen henc, fun _ _ _ => rfl, fun _ _ _ _ => rfl⟩

theorem saveUserData_record_format_witness :
    emptyStore.writable (recordPath sampleUser.username) = true ∧
    encryptPassword sampleUser.password sampleUser.id = some [24, 0, 26, 25, 0, 13] ∧
    (saveUserData wholeLib sampleUser emptyStore
      = (emptyStore.write (recordPath sampleUser.username)
          (unlines ([sampleUser.id, [24, 0, 26, 25, 0, 13], sampleUser.username,
              wholeLib.putDouble sampleUser.balance]
            ++ sampleUser.transactions.flatMap (entryLines wholeLib))), .returned ()) ∧
    (∀ a d dt, entryLines wholeLib (.income a d dt)
      = [ascii "Income", wholeLib.putDouble a, d,
          putInt dt.day ++ ascii "/" ++ putInt dt.month ++ ascii "/" ++ putInt dt.year]) ∧
    (∀ a d dt c, entryLines wholeLib (.expense a d dt c)
      = [ascii "Expense", wholeLib.putDouble a, d,
          putInt dt.day ++ ascii "/" ++ putInt dt.month ++ ascii "/" ++ putInt dt.year, c])) :=
  ⟨rfl, by decide,
    saveUserData_record_format wholeLib sampleUser emptyStore [24, 0, 26, 25, 0, 13] rfl
      (by decide)⟩

theorem saveUserData_threw (L : Lib) (user : User) (fs : FileStore) (e : Exn)
    (h : (saveUserData L user fs).2 = .threw e) :
    e = .financial "Error saving user data: User file Cannot be opened." := by
  unfold saveUserData at h
  simp only at h
  split at h
  · simpa using h.symm
  · split at h <;> simp at h

theorem saveUserData_defined (L : Lib) (user : User) (fs : FileStore) (e : Str)
    (h : encryptPassword user.password user.id = some e) :
    (saveUserData L user fs).2 ≠ .undefined := by
  unfold saveUserData
  simp only [h]
  split <;> simp

theorem saveUserData_writable (L : Lib) (user : User) (fs : FileStore) :
    (saveUserData L user fs).1.writable = fs.writable := by
  unfold saveUserData
  simp only
  split
  · rfl
  · split <;> rfl

theorem FileStore.content_write (fs : FileStore) (path data : Str) :
    (fs.write path data).content path = some data := by
  simp [FileStore.write]

theorem record_text (L : Lib) (user : User) (encrypted : Str) :
    unlines ([user.id, encrypted, user.username, L.putDouble user.balance]
        ++ user.transactions.flatMap (entryLines L))
      = user.id ++ newline :: (encrypted ++ newline :: (user.username ++ newline ::
          (L.putDouble user.balance ++ newline ::
            unlines (user.transactions.flatMap (entryLines L))))) := by
  simp only [unlines, endl, List.cons_append, List.nil_append, List.append_assoc,
    List.singleton_append, unlines_append]
  rfl

theorem unlines_flatMap_cons (L : Lib) (t : Transaction) (ts : List Transaction) :
    unlines ((t :: ts).flatMap (entryLines L))
      = unlines (entryLines L t) ++ unlines (ts.flatMap (entryLines L)) := by
  rw [List.flatMap_cons, unlines_append]

/-! ## The balance invariant -/

theorem incomeTotal_append (ts us : List Transaction) :
    incomeTotal (ts ++ us) = incomeTotal ts + incomeTotal us := by
  induction ts with
  | nil => simp [incomeTotal]
  | cons t ts ih => cases t <;> simp [incomeTotal, ih, add_assoc]

theorem expenseTotal_append (ts us : List Transaction) :
    expenseTotal (ts ++ us) = expenseTotal ts + expenseTotal us := by
  induction ts with
  | nil => simp [expenseTotal]
  | cons t ts ih => cases t <;> simp [expenseTotal, ih, add_assoc]

theorem incomeTotal_eraseIdx (ts : List Transaction) :
    ∀ (i : Nat) (t : Transaction), ts.get? i = some t →
      incomeTotal ts = incomeTotal (ts.eraseIdx i) + incomeTotal [t] := by
  induction ts with
  | nil => intro i t h; simp at h
  | cons x xs ih =>
    intro i t h
    cases i with
    | zero =>
      have hx : x = t := by simpa using h
      subst hx
      cases x <;> simp [incomeTotal, add_comm]
    | succ i =>
      have h2 : xs.get? i = some t := by simpa using h
      have := ih i t h2
      cases x <;> simp [incomeTotal, this, add_assoc]

theorem expenseTotal_eraseIdx (ts : List Transaction) :
    ∀ (i : Nat) (t : Transaction), ts.get? i = some t →
      expenseTotal ts = expenseTotal (ts.eraseIdx i) + expenseTotal [t] := by
  induction ts with
  | nil => intro i t h; simp at h
  | cons x xs ih =>
    intro i t h
    cases i with
    | zero =>
      have hx : x = t := by simpa using h
      subst hx
      cases x <;> simp [expenseTotal, add_comm]
    | succ i =>
      have h2 : xs.get? i = some t := by simpa using h
      have := ih i t h2
      cases x <;> simp [expenseTotal, this, add_assoc]

theorem addTransaction_balanced (L : Lib) (user : User) (t : Transaction) (fs : FileStore)
    (h : BalanceHolds user) : BalanceHolds (addTransaction L user t fs).user := by
  unfold BalanceHolds at *
  cases t <;>
    simp [addTransaction, incomeTotal_append, expenseTotal_append, incomeTotal, expenseTotal, h] <;>
    ring

theorem removeTransaction_balanced (L : Lib) (user : User) (index : Int) (fs : FileStore)
    (h : BalanceHolds user) : BalanceHolds (removeTransaction L user index fs).user := by
  unfold removeTransaction
  split
  · split
    · exact h
    · rename_i t ht
      have hi := incomeTotal_eraseIdx user.transactions index.toNat t ht
      have he := expenseTotal_eraseIdx user.transactions index.toNat t ht
      unfold BalanceHolds at *
      cases t <;> simp [incomeTotal, expenseTotal] at hi he ⊢ <;> rw [h, hi, he] <;> ring
  · exact h

theorem applyOp_balanced (L : Lib) (op : Op) (user : User) (fs : FileStore)
    (h : BalanceHolds user) : BalanceHolds (applyOp L op user fs).user := by
  cases op with
  | add t => exact addTransaction_balanced L user t fs h
  | remove i => exact removeTransaction_balanced L user i fs h

theorem runOps_balanced (L : Lib) (ops : List Op) :
    ∀ (user : User) (fs : FileStore), BalanceHolds user → BalanceHolds (runOps L ops user fs).user := by
  induction ops with
  | nil => intro user fs h; exact h
  | cons op ops ih =>
    intro user fs h
    have h1 := applyOp_balanced L op user fs h
    unfold runOps
    simp only
    split
    · exact h1
    · exact ih _ _ h1

/-- In exact arithmetic: starting from a freshly constructed `User`, after every finite sequence
of `addTransaction` and `removeTransaction` calls (any entries, any integer indices) the balance
equals the sum of the amounts of the Income entries held minus the sum of the amounts of the
Expense entries held. -/
theorem balance_invariant (L : Lib) (rnd : Nat → Nat) (username password : Str)
    (fs : FileStore) (ops : List Op) :
    (runOps L ops (User.new rnd username password) fs).user.balance
      = incomeTotal (runOps L ops (User.new rnd username password) fs).user.transactions
        - expenseTotal (runOps L ops (User.new rnd username password) fs).user.transactions :=
  runOps_balanced L ops _ fs (by simp [BalanceHolds, User.new, incomeTotal, expenseTotal])

/-! ## Definedness of the mutations -/

theorem addTransaction_user (L : Lib) (user : User) (t : Transaction) (fs : FileStore) :
    (addTransaction L user t fs).user
      = { user with
            transactions := user.transactions ++ [t]
            balance := user.balance + incomeTotal [t] - expenseTotal [t] } := by
  cases t <;> simp [addTransaction, incomeTotal, expenseTotal]

theorem addTransaction_writable (L : Lib) (user : User) (t : Transaction) (fs : FileStore) :
    (addTransaction L user t fs).fs.writable = fs.writable := by
  unfold addTransaction
  exact saveUserData_writable L _ fs

theorem addTransaction_status (L : Lib) (user : User) (t : Transaction) (fs : FileStore)
    (e : Str) (hopen : fs.writable (recordPath user.username) = true)
    (henc : encryptPassword user.password user.id = some e) :
    (addTransaction L user t fs).status = .returned () := by
  cases t with
  | income a d dt =>
    exact congrArg Prod.snd (saveUserData_returns L
      { user with transactions := user.transactions ++ [.income a d dt],
                  balance := user.balance + a } fs e hopen henc)
  | expense a d dt c =>
    exact congrArg Prod.snd (saveUserData_returns L
      { user with transactions := user.transactions ++ [.expense a d dt c],
                  balance := user.balance - a } fs e hopen henc)

theorem removeTransaction_identity (L : Lib) (user : User) (index : Int) (fs : FileStore) :
    (removeTransaction L user index fs).user.id = user.id ∧
    (removeTransaction L user index fs).user.username = user.username ∧
    (removeTransaction L user index fs).user.password = user.password := by
  unfold removeTransaction
  split
  · split
    · exact ⟨rfl, rfl, rfl⟩
    · rename_i t _
      cases t <;> exact ⟨rfl, rfl, rfl⟩
  · exact ⟨rfl, rfl, rfl⟩

theorem applyOp_identity (L : Lib) (op : Op) (user : User) (fs : FileStore) :
    (applyOp L op user fs).user.id = user.id ∧
    (applyOp L op user fs).user.username = user.username ∧
    (applyOp L op user fs).user.password = user.password := by
  cases op with
  | add t => simp [applyOp, addTransaction_user]
  | remove i => exact removeTransaction_identity L user i fs

theorem applyOp_defined (L : Lib) (op : Op) (user : User) (fs : FileStore) (e : Str)
    (h : encryptPassword user.password user.id = some e) :
    (applyOp L op user fs).status ≠ .undefined := by
  cases op with
  | add t =>
    cases t <;> exact saveUserData_defined L _ fs e h
  | remove i =>
    show (removeTransaction L user i fs).status ≠ .undefined
    unfold removeTransaction
    split
    · split
      · simp
      · rename_i t _
        cases t <;> exact saveUserData_defined L _ fs e h
    · simp

/-- No call in a sequence of mutations reaches undefined behaviour when the cipher is defined
for the ledger, which is so for a non-empty username or an empty password. -/
theorem runOps_defined (L : Lib) (ops : List Op) :
    ∀ (user : User) (fs : FileStore) (e : Str),
      encryptPassword user.password user.id = some e →
      (runOps L ops user fs).status ≠ .undefined := by
  induction ops with
  | nil => intro user fs e _; simp [runOps]
  | cons op ops ih =>
    intro user fs e h
    have hd := applyOp_defined L op user fs e h
    obtain ⟨h1, _, h3⟩ := applyOp_identity L op user fs
    have hrun : runOps L (op :: ops) user fs
        = runOps L ops (applyOp L op user fs).user (applyOp L op user fs).fs := by
      rw [runOps]
      cases hs : (applyOp L op user fs).status with
      | undefined => exact absurd hs hd
      | returned r => rfl
      | threw x => rfl
    rw [hrun]
    exact ih _ _ e (by rw [h1, h3]; exact h)

/-- A ledger made by the constructor with a non-empty username or an empty password never
reaches undefined behaviour in a sequence of mutations. -/
theorem runOps_fresh_defined (L : Lib) (rnd : Nat → Nat) (username password : Str)
    (fs : FileStore) (ops : List Op) (h : username ≠ [] ∨ password = []) :
    (runOps L ops (User.new rnd username password) fs).status ≠ .undefined := by
  obtain ⟨e, he⟩ := User_new_cipher_defined rnd username password h
  exact runOps_defined L ops _ fs e he

/-! ## Out-of-bounds removal -/

theorem removeTransaction_skip (L : Lib) (user : User) (index : Int)
    (fs : FileStore) (h : index < 0 ∨ (user.transactions.length : Int) ≤ index) :
    removeTransaction L user index fs = { user := user, fs := fs, status := .returned () } := by
  unfold removeTransaction
  have hg : ¬ (0 ≤ index ∧ index.toNat < user.transactions.length) := by omega
  rw [if_neg hg]

/-- C9 as the code has it: `removeTransaction` has no index error. For every ledger and every
index with index < 0 or index >= number of entries the call returns normally, and for any index
the only exception the call can raise is the file error of `saveUserData`, raised for an index
inside the bounds. -/
theorem removeTransaction_out_of_bounds_returns (L : Lib) (user : User) (index : Int)
    (fs : FileStore) (h : index < 0 ∨ (user.transactions.length : Int) ≤ index) :
    (removeTransaction L user index fs).status = .returned () ∧
    ∀ (j : Int) (e : Exn), (removeTransaction L user j fs).status = .threw e →
      e = .financial "Error saving user data: User file Cannot be opened." ∧
      0 ≤ j ∧ j < (user.transactions.length : Int) := by
  refine ⟨by rw [removeTransaction_skip L user index fs h], ?_⟩
  intro j e hj
  by_cases hb : j < 0 ∨ (user.transactions.length : Int) ≤ j
  · rw [removeTransaction_skip L user j fs hb] at hj
    simp at hj
  · refine ⟨?_, by omega, by omega⟩
    unfold removeTransaction at hj
    split at hj
    · split at hj
      · simp at hj
      · exact saveUserData_threw L _ fs e hj
    · simp at hj

theorem removeTransaction_out_of_bounds_returns_witness :
    ((5 : Int) < 0 ∨ (sampleUser.transactions.length : Int) ≤ 5) ∧
    ((removeTransaction wholeLib sampleUser 5 emptyStore).status = .returned () ∧
    ∀ (j : Int) (e : Exn), (removeTransaction wholeLib sampleUser j emptyStore).status = .threw e →
      e = .financial "Error saving user data: User file Cannot be opened." ∧
      0 ≤ j ∧ j < (sampleUser.transactions.length : Int)) :=
  ⟨Or.inr (by decide),
    removeTransaction_out_of_bounds_returns wholeLib sampleUser 5 emptyStore (Or.inr (by decide))⟩

/-- C9 as stated fails: removing at the out-of-bounds index -1 raises nothing, the call returns
normally. -/
theorem removeTransaction_out_of_bounds_not_reported :
    ((-1 : Int) < 0 ∨ (sampleUser.transactions.length : Int) ≤ -1) ∧
    ¬ ∃ e, (removeTransaction wholeLib sampleUser (-1) emptyStore).status = .threw e := by
  refine ⟨Or.inl (by decide), ?_⟩
  rw [removeTransaction_skip wholeLib sampleUser (-1) emptyStore (Or.inl (by decide))]
  simp

/-- C10: for every ledger and every index with index < 0 or index >= number of entries,
`removeTransaction(index)` leaves the balance, the entry list, the username, the password and
the account key as they were, and does not touch the files. -/
theorem removeTransaction_out_of_bounds_unchanged (L : Lib) (user : User) (index : Int)
    (fs : FileStore) (h : index < 0 ∨ (user.transactions.length : Int) ≤ index) :
    removeTransaction L user index fs = { user := user, fs := fs, status := .returned () } :=
  removeTransaction_skip L user index fs h

theorem removeTransaction_out_of_bounds_unchanged_witness :
    ((2 : Int) < 0 ∨ (sampleUser.transactions.length : Int) ≤ 2) ∧
    removeTransaction wholeLib sampleUser 2 emptyStore
      = { user := sampleUser, fs := emptyStore, status := .returned () } :=
  ⟨Or.inr (by decide),
    removeTransaction_out_of_bounds_unchanged wholeLib sampleUser 2 emptyStore
      (Or.inr (by decide))⟩

/-! ## Reading lines -/

theorem splitLines_ne_nil (s : Str) : splitLines s ≠ [] := by
  cases s with
  | nil => simp [splitLines]
  | cons c cs =>
    unfold splitLines
    split
    · simp
    · split <;> simp

theorem nthLine_nil (n : Nat) : nthLine n [] = [] := by
  cases n <;> simp [nthLine, splitLines]

theorem getlineD_nthLine (s : Str) :
    (getlineD s).1 = nthLine 0 s ∧ ∀ n, nthLine (n + 1) s = nthLine n (getlineD s).2 := by
  induction s with
  | nil =>
    refine ⟨rfl, fun n => ?_⟩
    cases n <;> simp [nthLine, splitLines, getlineD, getline]
  | cons c cs ih =>
    by_cases hc : c = newline
    · refine ⟨by simp [getlineD, getline, nthLine, splitLines, hc], fun n => ?_⟩
      simp [getlineD, getline, nthLine, splitLines, hc]
    · obtain ⟨ih1, ih2⟩ := ih
      cases hsp : splitLines cs with
      | nil => exact absurd hsp (splitLines_ne_nil cs)
      | cons l0 ls =>
        have h0 : (getlineD cs).1 = l0 := by simpa [nthLine, hsp] using ih1
        have hn : ∀ n, ls.getD n [] = nthLine n (getlineD cs).2 := by
          intro n
          simpa [nthLine, hsp] using ih2 n
        cases hg : getline cs with
        | none =>
          have hd : getlineD cs = ([], []) := by simp [getlineD, hg]
          rw [hd] at h0 hn
          refine ⟨by simp [getlineD, getline, hg, hc, nthLine, splitLines, hsp, ← h0],
            fun n => ?_⟩
          simp [getlineD, getline, hg, hc, nthLine, splitLines, hsp]
          have h := hn n
          rw [nthLine_nil n] at h
          simpa using h
        | some lr =>
          obtain ⟨l, r⟩ := lr
          have hd : getlineD cs = (l, r) := by simp [getlineD, hg]
          rw [hd] at h0 hn
          refine ⟨by simp [getlineD, getline, hg, hc, nthLine, splitLines, hsp, ← h0],
            fun n => ?_⟩
          simp [getlineD, getline, hg, hc, nthLine, splitLines, hsp]
          simpa [nthLine] using hn n

theorem third_getline (input : Str) :
    (getlineD (getlineD (getlineD input).2).2).1 = nthLine 2 input := by
  rw [(getlineD_nthLine _).1, ← (getlineD_nthLine _).2 0, ← (getlineD_nthLine _).2 1]

theorem getline_append_newline (l rest : Str) (h : newline ∉ l) :
    getline (l ++ newline :: rest) = some (l, rest) := by
  induction l with
  | nil => simp [getline]
  | cons c cs ih =>
    have hc : c ≠ newline := fun hc => h (by simp [hc])
    have hcs : newline ∉ cs := fun hcs => h (by simp [hcs])
    simp [getline, hc, ih hcs]

theorem getlineD_append_newline (l rest : Str) (h : newline ∉ l) :
    getlineD (l ++ newline :: rest) = (l, rest) := by
  simp [getlineD, getline_append_newline l rest h]

theorem getline_length (s : Str) : ∀ l r, getline s = some (l, r) → r.length < s.length := by
  induction s with
  | nil => intro l r h; simp [getline] at h
  | cons c cs ih =>
    intro l r h
    unfold getline at h
    split at h
    · simp at h; obtain ⟨_, h2⟩ := h; subst h2; simp
    · split at h
      · simp at h; obtain ⟨_, h2⟩ := h; subst h2; simp
      · rename_i l2 r2 hg
        simp at h; obtain ⟨_, h2⟩ := h; subst h2
        have := ih l2 r2 hg
        simp; omega

theorem getlineD_length (s : Str) : (getlineD s).2.length ≤ s.length := by
  unfold getlineD
  cases h : getline s with
  | none => simp
  | some lr =>
    obtain ⟨l, r⟩ := lr
    have := getline_length s l r h
    simp; omega

theorem splitLines_append_newline (l rest : Str) (h : newline ∉ l) :
    splitLines (l ++ newline :: rest) = l :: splitLines rest := by
  induction l with
  | nil => simp [splitLines]
  | cons c cs ih =>
    have hc : c ≠ newline := fun hc => h (by simp [hc])
    have hcs : newline ∉ cs := fun hcs => h (by simp [hcs])
    simp [splitLines, hc, ih hcs]

/-- A text written line by line from texts without line terminator has exactly these lines,
followed by the empty rest after the last terminator. -/
theorem splitLines_unlines (items : List Str) (h : ∀ item ∈ items, newline ∉ item) :
    splitLines (unlines items) = items ++ [[]] := by
  induction items with
  | nil => rfl
  | cons x xs ih =>
    have hx : newline ∉ x := h x (List.mem_cons_self _ _)
    have hxs : ∀ item ∈ xs, newline ∉ item := fun y hy => h y (List.mem_cons_of_mem _ hy)
    simp only [unlines, endl, List.append_assoc, List.singleton_append, List.cons_append]
    rw [splitLines_append_newline x _ hx, List.nil_append, ih hxs]

/-! ## The username and password checks of `loadUserData` -/

/-- C5: for every record whose third line differs from the requested username, `loadUserData`
returns -1 whatever password is supplied, assigns no ledger and leaves the files as they were. -/
theorem loadUserData_username_mismatch (L : Lib) (rnd : Nat → Nat) (username password : Str)
    (fs : FileStore) (input : Str) (hfile : fs.content (recordPath username) = some input)
    (hname : nthLine 2 input ≠ username) :
    loadUserData L rnd username password fs
      = { user := none, fs := fs, status := .returned (-1) } := by
  unfold loadUserData
  rw [hfile]
  simp only
  rw [third_getline, if_pos hname]

theorem loadUserData_username_mismatch_witness :
    (FileStore.write emptyStore (recordPath (ascii "bob")) (ascii "k\n\nalice\n0\n")).content
        (recordPath (ascii "bob")) = some (ascii "k\n\nalice\n0\n") ∧
    nthLine 2 (ascii "k\n\nalice\n0\n") ≠ ascii "bob" ∧
    loadUserData wholeLib (fun _ => 107) (ascii "bob") (ascii "secret")
        (FileStore.write emptyStore (recordPath (ascii "bob")) (ascii "k\n\nalice\n0\n"))
      = { user := none
          fs := FileStore.write emptyStore (recordPath (ascii "bob")) (ascii "k\n\nalice\n0\n")
          status := .returned (-1) } :=
  ⟨by decide, by decide,
    loadUserData_username_mismatch wholeLib (fun _ => 107) (ascii "bob") (ascii "secret")
      (FileStore.write emptyStore (recordPath (ascii "bob")) (ascii "k\n\nalice\n0\n"))
      (ascii "k\n\nalice\n0\n") (by decide) (by decide)⟩

/-- C6: for every username without a record in the file store and every password,
`loadUserData` throws the exception "User data not found." and assigns no ledger. -/
theorem loadUserData_missing_record (L : Lib) (rnd : Nat → Nat) (username password : Str)
    (fs : FileStore) (hfile : fs.content (recordPath username) = none) :
    loadUserData L rnd username password fs
      = { user := none, fs := fs, status := .threw (.financial "User data not found.") } := by
  unfold loadUserData
  rw [hfile]

theorem loadUserData_missing_record_witness :
    emptyStore.content (recordPath (ascii "bob")) = none ∧
    loadUserData wholeLib (fun _ => 107) (ascii "bob") (ascii "secret") emptyStore
      = { user := none, fs := emptyStore,
          status := .threw (.financial "User data not found.") } :=
  ⟨rfl,
    loadUserData_missing_record wholeLib (fun _ => 107) (ascii "bob") (ascii "secret")
      emptyStore rfl⟩

/-- Outside the records that hold a line terminator in the key, the encrypted password or the
username, the password check works: a saved ledger is not opened with another password. -/
theorem loadUserData_wrong_password_rejected (L : Lib) (rnd : Nat → Nat) (user : User)
    (fs : FileStore) (encrypted q : Str)
    (hopen : fs.writable (recordPath user.username) = true)
    (henc : encryptPassword user.password user.id = some encrypted)
    (hkey : newline ∉ user.id) (hcipher : newline ∉ encrypted)
    (hname : newline ∉ user.username) (hq : q ≠ user.password) :
    loadUserData L rnd user.username q (saveUserData L user fs).1
      = { user := none, fs := (saveUserData L user fs).1, status := .returned (-2) } := by
  rw [saveUserData_returns L user fs encrypted hopen henc]
  unfold loadUserData
  simp only [FileStore.write, if_true, unlines, endl, List.cons_append, List.nil_append,
    List.append_assoc, List.singleton_append]
  rw [getlineD_append_newline _ _ hkey]
  simp only
  rw [getlineD_append_newline _ _ hcipher]
  simp only
  rw [getlineD_append_newline _ _ hname]
  simp only [ne_eq, not_true_eq_false, if_false]
  rw [decryptPassword_of_encryptPassword _ _ _ henc]
  simp only
  rw [if_pos (fun h => hq h.symm)]

/-- The function `login` turns the status -2 into the exception "Invalid password.". -/
theorem login_wrong_password (L : Lib) (rnd : Nat → Nat) (users : List Str)
    (username password : Str) (fs : FileStore) (hmem : username ∈ users)
    (hload : (loadUserData L rnd username password fs).status = .returned (-2)) :
    (login L rnd users username password fs).status
      = .threw (.financial "Invalid password.") := by
  unfold login
  rw [if_pos hmem]
  simp only [hload]
  rfl

/-- C2 fails at this input: user `a` registers with password `a` and draws the key byte 107.
The encrypted password is the single byte 10, the line terminator, so the record holds an extra
empty line; loading it with the right username and password returns -1 and assigns no ledger. -/
theorem save_load_newline_in_cipher (L : Lib) (rnd : Nat → Nat) :
    newlineCipherUser.id = [107] ∧
    encryptPassword newlineCipherUser.password newlineCipherUser.id = some [newline] ∧
    (saveUserData L newlineCipherUser emptyStore).2 = .returned () ∧
    loadUserData L rnd newlineCipherUser.username newlineCipherUser.password
        (saveUserData L newlineCipherUser emptyStore).1
      = { user := none, fs := (saveUserData L newlineCipherUser emptyStore).1,
          status := .returned (-1) } :=
  ⟨by decide, by decide, rfl, rfl⟩

/-- C4 fails at this input: user `ab` registers with the password of bytes 96 and 104 and draws
the key bytes 1 and 10. The key holds a line terminator, so the record is read with key 1, an
empty stored password and the encrypted password `ab` as the stored username: the supplied empty
password, which is not the ledger's password, is accepted with status 0 and a ledger is
assigned, while the ledger's own password is refused with -2. -/
theorem wrong_password_accepted :
    newlineKeyUser.id = [1, 10] ∧
    (saveUserData wholeLib newlineKeyUser emptyStore).2 = .returned () ∧
    ([] : Str) ≠ newlineKeyUser.password ∧
    (loadUserData wholeLib (fun _ => 107) newlineKeyUser.username []
        (saveUserData wholeLib newlineKeyUser emptyStore).1).status = .returned 0 ∧
    (loadUserData wholeLib (fun _ => 107) newlineKeyUser.username []
        (saveUserData wholeLib newlineKeyUser emptyStore).1).user
      = some (User.new (fun _ => 107) newlineKeyUser.username []) ∧
    (loadUserData wholeLib (fun _ => 107) newlineKeyUser.username newlineKeyUser.password
        (saveUserData wholeLib newlineKeyUser emptyStore).1).status = .returned (-2) :=
  ⟨by decide, by decide, by decide, by decide, by decide, by decide⟩

/-! ## The balance rebuilt by `loadUserData` -/

theorem loadLoop_balanced (L : Lib) :
    ∀ (fuel : Nat) (input : Str) (user : User) (fs : FileStore),
      BalanceHolds user → BalanceHolds (loadLoop L fuel input user fs).user := by
  intro fuel
  induction fuel with
  | zero => intro input user fs h; exact h
  | succ fuel ih =>
    intro input user fs h
    unfold loadLoop
    split
    · exact h
    · split
      · simp only
        split
        · exact h
        · split
          · exact ih _ _ _ (addTransaction_balanced L user _ fs h)
          · exact addTransaction_balanced L user _ fs h
      · split
        · simp only
          split
          · exact h
          · split
            · exact ih _ _ _ (addTransaction_balanced L user _ fs h)
            · exact addTransaction_balanced L user _ fs h
        · exact ih _ _ _ h

/-- In exact arithmetic: whenever `loadUserData` gets past the username and password checks and
assigns a ledger, the balance of that ledger is the sum of the amounts of its Income entries minus
the sum of the amounts of its Expense entries, whatever the record holds, its fourth line
included. -/
theorem loadUserData_balance_rebuilt (L : Lib) (rnd : Nat → Nat) (username password : Str)
    (fs : FileStore) (u : User) (h : (loadUserData L rnd username password fs).user = some u) :
    u.balance = incomeTotal u.transactions - expenseTotal u.transactions := by
  unfold loadUserData at h
  split at h
  · simp at h
  · simp only at h
    split at h
    · simp at h
    · split at h
      · simp at h
      · split at h
        · simp at h
        · simp only [Option.some.injEq] at h
          rw [← h]
          show BalanceHolds _
          exact loadLoop_balanced L _ _ _ fs
            (by simp [BalanceHolds, User.new, incomeTotal, expenseTotal])

theorem loadUserData_balance_rebuilt_witness :
    (loadUserData wholeLib (fun _ => 107) (ascii "bob") (ascii "secret") tamperedStore).user
      = some { id := ascii "kkk", username := ascii "bob", password := ascii "secret",
               balance := 800, transactions := sampleUser.transactions } ∧
    (800 : Amount) = incomeTotal sampleUser.transactions - expenseTotal sampleUser.transactions :=
  ⟨by decide!,
    loadUserData_balance_rebuilt wholeLib (fun _ => 107) (ascii "bob") (ascii "secret")
      tamperedStore
      { id := ascii "kkk", username := ascii "bob", password := ascii "secret",
        balance := 800, transactions := sampleUser.transactions } (by decide!)⟩

/-! ## Fuel of the reading loop -/

theorem loadLoop_succ (L : Lib) :
    ∀ (fuel : Nat) (input : Str) (user : User) (fs : FileStore), input.length < fuel →
      loadLoop L (fuel + 1) input user fs = loadLoop L fuel input user fs := by
  intro fuel
  induction fuel with
  | zero => intro input user fs h; omega
  | succ n ih =>
    intro input user fs hlen
    conv_lhs => unfold loadLoop
    conv_rhs => unfold loadLoop
    cases hg : getline input with
    | none => rfl
    | some lr =>
      obtain ⟨ty, in1⟩ := lr
      have h1 := getline_length input ty in1 hg
      have h2 := getlineD_length in1
      have h3 := getlineD_length (getlineD in1).2
      have h4 := getlineD_length (getlineD (getlineD in1).2).2
      have h5 := getlineD_length (getlineD (getlineD (getlineD in1).2).2).2
      simp only
      split
      · split
        · rfl
        · split
          · exact ih _ _ _ (by omega)
          · rfl
      · split
        · split
          · rfl
          · split
            · exact ih _ _ _ (by omega)
            · rfl
        · exact ih _ _ _ (by omega)

theorem loadLoop_fuel (L : Lib) (input : Str) (user : User) (fs : FileStore) :
    ∀ k, loadLoop L (input.length + 1 + k) input user fs
      = loadLoop L (input.length + 1) input user fs := by
  intro k
  induction k with
  | zero => rfl
  | succ k ih => rw [← ih, ← Nat.add_assoc, loadLoop_succ L _ input user fs (by omega)]

theorem loadLoop_fuel_le (L : Lib) (input : Str) (user : User) (fs : FileStore) (fuel : Nat)
    (h : input.length < fuel) :
    loadLoop L fuel input user fs = loadLoop L (input.length + 1) input user fs := by
  have hk : fuel = input.length + 1 + (fuel - input.length - 1) := by omega
  rw [hk, loadLoop_fuel]

/-! ## Decimal text of integers and dates -/

theorem digit_val (n : Nat) (h : n < 10) : (Fin.ofNat (48 + n) : Byte).val = 48 + n := by
  show (48 + n) % 256 = 48 + n
  omega

theorem isDigit_digit (n : Nat) (h : n < 10) : isDigit (Fin.ofNat (48 + n) : Byte) = true := by
  simp only [isDigit, digit_val n h, Bool.and_eq_true, decide_eq_true_eq]
  omega

theorem scanDigits_digit (a n : Nat) (h : n < 10) (rest : Str) :
    scanDigits a ((Fin.ofNat (48 + n) : Byte) :: rest) = scanDigits (a * 10 + n) rest := by
  rw [scanDigits, if_pos (isDigit_digit n h), digit_val n h]
  congr 2
  omega

theorem scanDigits_putNatAux :
    ∀ (fuel n : Nat) (acc : Str), n < fuel →
      scanDigits 0 (putNatAux fuel n acc) = scanDigits n acc := by
  intro fuel
  induction fuel with
  | zero => intro n acc h; omega
  | succ f ih =>
    intro n acc h
    have hd : n % 10 < 10 := Nat.mod_lt _ (by omega)
    unfold putNatAux
    split
    · rw [scanDigits_digit 0 _ hd]
      congr 1
      omega
    · rw [ih (n / 10) _ (by omega), scanDigits_digit _ _ hd]
      congr 1
      omega

theorem putNatAux_digits :
    ∀ (fuel n : Nat) (acc : Str) (c : Byte),
      c ∈ putNatAux fuel n acc → isDigit c = true ∨ c ∈ acc := by
  intro fuel
  induction fuel with
  | zero => intro n acc c h; exact Or.inr h
  | succ f ih =>
    intro n acc c h
    have hd : n % 10 < 10 := Nat.mod_lt _ (by omega)
    unfold putNatAux at h
    split at h
    · rcases List.mem_cons.mp h with h | h
      · exact Or.inl (h ▸ isDigit_digit _ hd)
      · exact Or.inr h
    · rcases ih _ _ _ h with h | h
      · exact Or.inl h
      · rcases List.mem_cons.mp h with h | h
        · exact Or.inl (h ▸ isDigit_digit _ hd)
        · exact Or.inr h

theorem putNat_digits (n : Nat) (c : Byte) (h : c ∈ putNat n) : isDigit c = true := by
  rcases putNatAux_digits _ _ _ _ h with h | h
  · exact h
  · simp at h

theorem putNatAux_head :
    ∀ (fuel n : Nat) (acc : Str), n < fuel →
      ∃ c tl, putNatAux fuel n acc = c :: tl ∧ isDigit c = true := by
  intro fuel
  induction fuel with
  | zero => intro n acc h; omega
  | succ f ih =>
    intro n acc h
    have hd : n % 10 < 10 := Nat.mod_lt _ (by omega)
    unfold putNatAux
    split
    · exact ⟨_, _, rfl, isDigit_digit _ hd⟩
    · exact ih _ _ (by omega)

theorem scanDigits_stop (a : Nat) (rest : Str) (h : ∀ c tl, rest = c :: tl → isDigit c = false) :
    scanDigits a rest = (a, rest) := by
  cases rest with
  | nil => rfl
  | cons c tl => simp [scanDigits, h c tl rfl]

theorem putNatAux_append :
    ∀ (fuel n : Nat) (acc rest : Str),
      putNatAux fuel n acc ++ rest = putNatAux fuel n (acc ++ rest) := by
  intro fuel
  induction fuel with
  | zero => intro n acc rest; rfl
  | succ f ih =>
    intro n acc rest
    unfold putNatAux
    split
    · rfl
    · rw [ih]; rfl

set_option maxRecDepth 100000 in
theorem isDigit_not_space (c : Byte) (h : isDigit c = true) :
    isSpace c = false ∧ c ≠ 45 ∧ c ≠ 43 ∧ c ≠ 0 ∧ c ≠ newline ∧ c ≠ 47 := by
  revert c; decide

theorem scanInt_putInt (z : Int) (rest : Str) (h : NoDigitAhead rest) :
    scanInt (putInt z ++ rest) = some (z, rest) := by
  cases z with
  | ofNat n =>
    obtain ⟨c, tl, hc, hdig⟩ := putNatAux_head (n + 1) n [] (by omega)
    have hs := scanDigits_putNatAux (n + 1) n rest (by omega)
    have happ : putNat n ++ rest = putNatAux (n + 1) n rest := by
      rw [putNat, putNatAux_append]; rfl
    obtain ⟨c2, tl2, hc2, hdig2⟩ := putNatAux_head (n + 1) n rest (by omega)
    obtain ⟨h1, h2, h3, _⟩ := isDigit_not_space c2 hdig2
    show scanInt (putNat n ++ rest) = _
    rw [happ]
    unfold scanInt
    rw [hc2] at hs ⊢
    simp only [skipSpace, h1, Bool.false_eq_true, if_false, h2, h3, or_self, hdig2, if_true, hs,
      scanDigits_stop n rest h]
    rfl
  | negSucc n =>
    have hs := scanDigits_putNatAux (n + 1 + 1) (n + 1) rest (by omega)
    have happ : putNat (n + 1) ++ rest = putNatAux (n + 1 + 1) (n + 1) rest := by
      rw [putNat, putNatAux_append]; rfl
    obtain ⟨c2, tl2, hc2, hdig2⟩ := putNatAux_head (n + 1 + 1) (n + 1) rest (by omega)
    show scanInt ((45 : Byte) :: (putNat (n + 1) ++ rest)) = _
    rw [happ]
    unfold scanInt
    rw [hc2] at hs ⊢
    have h45 : isSpace (45 : Byte) = false := by decide
    simp only [skipSpace, h45, Bool.false_eq_true, if_false, true_or, if_true, hdig2, hs,
      scanDigits_stop (n + 1) rest h]
    rfl

theorem putInt_chars (z : Int) (c : Byte) (h : c ∈ putInt z) : isDigit c = true ∨ c = 45 := by
  cases z with
  | ofNat n => exact Or.inl (putNat_digits n c h)
  | negSucc n =>
    rcases List.mem_cons.mp h with h | h
    · exact Or.inr h
    · exact Or.inl (putNat_digits _ c h)

theorem putDate_chars (d : Date) (c : Byte) (h : c ∈ putDate d) : c ≠ 0 ∧ c ≠ newline := by
  have key : isDigit c = true ∨ c = 45 ∨ c = 47 := by
    simp only [putDate, List.mem_append] at h
    rcases h with (((h | h) | h) | h) | h
    · rcases putInt_chars _ _ h with h | h
      · exact Or.inl h
      · exact Or.inr (Or.inl h)
    · exact Or.inr (Or.inr (by simpa [ascii] using h))
    · rcases putInt_chars _ _ h with h | h
      · exact Or.inl h
      · exact Or.inr (Or.inl h)
    · exact Or.inr (Or.inr (by simpa [ascii] using h))
    · rcases putInt_chars _ _ h with h | h
      · exact Or.inl h
      · exact Or.inr (Or.inl h)
  rcases key with h | h | h
  · obtain ⟨_, _, _, h0, hn, _⟩ := isDigit_not_space c h
    exact ⟨h0, hn⟩
  · subst h; decide
  · subst h; decide

theorem noDigitAhead_slash (rest : Str) : NoDigitAhead ((47 : Byte) :: rest) := by
  intro c tl h
  have : c = 47 := by simpa using (List.cons.inj h).1.symm
  subst this
  decide

theorem noDigitAhead_nil : NoDigitAhead [] := by
  intro c tl h
  simp at h

theorem sscanfDate_putDate (d : Date) (init : Int × Int × Int) :
    sscanfDate (putDate d) init = (d.day, d.month, d.year) := by
  have htw : (putDate d).takeWhile (fun c => c ≠ 0) = putDate d := by
    rw [List.takeWhile_eq_self_iff]
    intro c hc
    simpa using (putDate_chars d c hc).1
  unfold sscanfDate
  rw [htw]
  have hshape : putDate d
      = putInt d.day ++ ((47 : Byte) :: (putInt d.month ++ ((47 : Byte) :: (putInt d.year ++ [])))) := by
    simp [putDate, ascii]
    decide
  rw [hshape, scanInt_putInt _ _ (noDigitAhead_slash _)]
  simp only [if_true]
  rw [scanInt_putInt _ _ (noDigitAhead_slash _)]
  simp only [if_true]
  rw [scanInt_putInt _ _ noDigitAhead_nil]

theorem putDate_oneLine (d : Date) : newline ∉ putDate d :=
  fun h => (putDate_chars d newline h).2 rfl

/-! ## Saving and loading again -/

theorem ascii_income_oneLine : newline ∉ ascii "Income" := by decide

theorem ascii_expense_oneLine : newline ∉ ascii "Expense" := by decide

theorem ascii_expense_ne_income : ascii "Expense" ≠ ascii "Income" := by decide

theorem loadLoop_income_step (L : Lib) (fuel : Nat) (a : Amount) (d : Str) (dt : Date)
    (rest : Str) (user : User) (fs : FileStore) (ha : CleanAmount L a) (hd : newline ∉ d)
    (hst : (addTransaction L user (.income a d dt) fs).status = .returned ()) :
    loadLoop L (fuel + 1)
        (ascii "Income" ++ newline :: (L.putDouble a ++ newline :: (d ++ newline ::
          (putDate dt ++ newline :: rest)))) user fs
      = loadLoop L fuel rest (addTransaction L user (.income a d dt) fs).user
          (addTransaction L user (.income a d dt) fs).fs := by
  rw [loadLoop, getline_append_newline _ _ ascii_income_oneLine]
  simp only [if_true]
  rw [getlineD_append_newline _ _ ha.1]
  simp only [ha.2]
  rw [getlineD_append_newline _ _ hd]
  simp only
  rw [getlineD_append_newline _ _ (putDate_oneLine dt)]
  simp only [sscanfDate_putDate, hst]

theorem loadLoop_expense_step (L : Lib) (fuel : Nat) (a : Amount) (d : Str) (dt : Date)
    (c rest : Str) (user : User) (fs : FileStore) (ha : CleanAmount L a) (hd : newline ∉ d)
    (hc : newline ∉ c)
    (hst : (addTransaction L user (.expense a d dt c) fs).status = .returned ()) :
    loadLoop L (fuel + 1)
        (ascii "Expense" ++ newline :: (L.putDouble a ++ newline :: (d ++ newline ::
          (putDate dt ++ newline :: (c ++ newline :: rest))))) user fs
      = loadLoop L fuel rest (addTransaction L user (.expense a d dt c) fs).user
          (addTransaction L user (.expense a d dt c) fs).fs := by
  rw [loadLoop, getline_append_newline _ _ ascii_expense_oneLine]
  simp only [if_true, ascii_expense_ne_income, if_false]
  rw [getlineD_append_newline _ _ ha.1]
  simp only [ha.2]
  rw [getlineD_append_newline _ _ hd]
  simp only
  rw [getlineD_append_newline _ _ (putDate_oneLine dt)]
  simp only [sscanfDate_putDate]
  rw [getlineD_append_newline _ _ hc]
  simp only [hst]

theorem loadLoop_skip_line (L : Lib) (fuel : Nat) (line rest : Str) (user : User)
    (fs : FileStore) (h1 : newline ∉ line) (h2 : line ≠ ascii "Income")
    (h3 : line ≠ ascii "Expense") :
    loadLoop L (fuel + 1) (line ++ newline :: rest) user fs = loadLoop L fuel rest user fs := by
  rw [loadLoop, getline_append_newline _ _ h1]
  simp only [h2, h3, if_false]

theorem loadLoop_replay (L : Lib) (ts : List Transaction) :
    ∀ (user : User) (fs : FileStore) (e : Str),
      (∀ t ∈ ts, CleanEntry L t) →
      fs.writable (recordPath user.username) = true →
      encryptPassword user.password user.id = some e →
      (loadLoop L ((unlines (ts.flatMap (entryLines L))).length + 1)
          (unlines (ts.flatMap (entryLines L))) user fs).status = .returned () ∧
      (loadLoop L ((unlines (ts.flatMap (entryLines L))).length + 1)
          (unlines (ts.flatMap (entryLines L))) user fs).user
        = { user with
              transactions := user.transactions ++ ts
              balance := user.balance + incomeTotal ts - expenseTotal ts } := by
  induction ts with
  | nil =>
    intro user fs e _ _ _
    simp [unlines, loadLoop, getline, incomeTotal, expenseTotal]
  | cons t ts ih =>
    intro user fs e hclean hopen henc
    have hts : ∀ t ∈ ts, CleanEntry L t := fun x hx => hclean x (List.mem_cons_of_mem _ hx)
    have ht : CleanEntry L t := hclean t (List.mem_cons_self _ _)
    have hst := addTransaction_status L user t fs e hopen henc
    have hus := addTransaction_user L user t fs
    have hwr := addTransaction_writable L user t fs
    have hopen2 : (addTransaction L user t fs).fs.writable
        (recordPath (addTransaction L user t fs).user.username) = true := by
      rw [hwr, hus]; exact hopen
    have henc2 : encryptPassword (addTransaction L user t fs).user.password
        (addTransaction L user t fs).user.id = some e := by
      rw [hus]; exact henc
    obtain ⟨ih1, ih2⟩ := ih (addTransaction L user t fs).user (addTransaction L user t fs).fs e
      hts hopen2 henc2
    have hfinal : ({ (addTransaction L user t fs).user with
          transactions := (addTransaction L user t fs).user.transactions ++ ts
          balance := (addTransaction L user t fs).user.balance + incomeTotal ts
            - expenseTotal ts } : User)
        = { user with
              transactions := user.transactions ++ t :: ts
              balance := user.balance + incomeTotal (t :: ts) - expenseTotal (t :: ts) } := by
      rw [hus]
      cases t <;> simp [incomeTotal, expenseTotal] <;> ring
    cases t with
    | income a d dt =>
      obtain ⟨ha, hd⟩ := ht
      have hin : unlines ((Transaction.income a d dt :: ts).flatMap (entryLines L))
          = ascii "Income" ++ newline :: (L.putDouble a ++ newline :: (d ++ newline ::
              (putDate dt ++ newline :: unlines (ts.flatMap (entryLines L))))) := by
        rw [unlines_flatMap_cons]
        simp only [entryLines, unlines, endl, List.append_assoc, List.cons_append,
          List.nil_append, List.singleton_append, List.append_nil]
      have hstep := loadLoop_income_step L
        (unlines ((Transaction.income a d dt :: ts).flatMap (entryLines L))).length
        a d dt (unlines (ts.flatMap (entryLines L))) user fs ha hd hst
      rw [← hin] at hstep
      rw [hstep, loadLoop_fuel_le L _ _ _ _ (by rw [hin]; simp; omega)]
      exact ⟨ih1, ih2.trans hfinal⟩
    | expense a d dt c =>
      obtain ⟨ha, hd, hc⟩ := ht
      have hin : unlines ((Transaction.expense a d dt c :: ts).flatMap (entryLines L))
          = ascii "Expense" ++ newline :: (L.putDouble a ++ newline :: (d ++ newline ::
              (putDate dt ++ newline :: (c ++ newline :: unlines (ts.flatMap (entryLines L)))))) := by
        rw [unlines_flatMap_cons]
        simp only [entryLines, unlines, endl, List.append_assoc, List.cons_append,
          List.nil_append, List.singleton_append, List.append_nil]
      have hstep := loadLoop_expense_step L
        (unlines ((Transaction.expense a d dt c :: ts).flatMap (entryLines L))).length
        a d dt c (unlines (ts.flatMap (entryLines L))) user fs ha hd hc hst
      rw [← hin] at hstep
      rw [hstep, loadLoop_fuel_le L _ _ _ _ (by rw [hin]; simp; omega)]
      exact ⟨ih1, ih2.trans hfinal⟩

/-- Saving a ledger and loading it again gives back the entries and the balance, for the ledgers
whose record is free of stray line terminators. -/
theorem save_load_round_trip (L : Lib) (rnd : Nat → Nat) (user : User) (fs : FileStore)
    (encrypted : Str)
    (hopen : fs.writable (recordPath user.username) = true)
    (henc : encryptPassword user.password user.id = some encrypted)
    (hkey : newline ∉ user.id) (hcipher : newline ∉ encrypted)
    (hname : newline ∉ user.username)
    (hnew : user.username ≠ [] ∨ user.password = [])
    (hbal : newline ∉ L.putDouble user.balance ∧ L.putDouble user.balance ≠ ascii "Income"
      ∧ L.putDouble user.balance ≠ ascii "Expense")
    (hentries : ∀ t ∈ user.transactions, CleanEntry L t)
    (hbalanced : BalanceHolds user) :
    (loadUserData L rnd user.username user.password (saveUserData L user fs).1).status
      = .returned 0 ∧
    ∃ u, (loadUserData L rnd user.username user.password (saveUserData L user fs).1).user
        = some u ∧
      u.transactions = user.transactions ∧ u.balance = user.balance := by
  obtain ⟨e2, he2⟩ := User_new_cipher_defined rnd user.username user.password hnew
  obtain ⟨hr1, hr2⟩ := loadLoop_replay L user.transactions
    (User.new rnd user.username user.password)
    (fs.write (recordPath user.username)
      (unlines ([user.id, encrypted, user.username, L.putDouble user.balance]
        ++ user.transactions.flatMap (entryLines L)))) e2 hentries hopen he2
  have hcontent := FileStore.content_write fs (recordPath user.username)
    (unlines ([user.id, encrypted, user.username, L.putDouble user.balance]
        ++ user.transactions.flatMap (entryLines L)))
  rw [saveUserData_returns L user fs encrypted hopen henc]
  generalize fs.write (recordPath user.username)
    (unlines ([user.id, encrypted, user.username, L.putDouble user.balance]
        ++ user.transactions.flatMap (entryLines L))) = fs1 at hr1 hr2 hcontent ⊢
  rw [record_text] at hcontent
  have hloop : loadLoop L
      ((L.putDouble user.balance ++ newline ::
        unlines (user.transactions.flatMap (entryLines L))).length + 1)
      (L.putDouble user.balance ++ newline ::
        unlines (user.transactions.flatMap (entryLines L)))
      (User.new rnd user.username user.password) fs1
      = loadLoop L ((unlines (user.transactions.flatMap (entryLines L))).length + 1)
          (unlines (user.transactions.flatMap (entryLines L)))
          (User.new rnd user.username user.password) fs1 := by
    rw [loadLoop_skip_line L _ _ _ _ _ hbal.1 hbal.2.1 hbal.2.2]
    exact loadLoop_fuel_le L _ _ _ _ (by simp; omega)
  unfold loadUserData
  rw [hcontent]
  simp only
  rw [getlineD_append_newline _ _ hkey]
  simp only
  rw [getlineD_append_newline _ _ hcipher]
  simp only
  rw [getlineD_append_newline _ _ hname]
  simp only [ne_eq, not_true_eq_false, if_false]
  rw [decryptPassword_of_encryptPassword _ _ _ henc]
  simp only [not_true_eq_false, if_false]
  rw [hloop, hr1, hr2]
  refine ⟨rfl, _, rfl, ?_, ?_⟩
  · simp [User.new]
  · unfold BalanceHolds at hbalanced
    simp [User.new, hbalanced]

theorem sampleUser_clean : ∀ t ∈ sampleUser.transactions, CleanEntry wholeLib t := by
  intro t ht
  simp only [sampleUser, List.mem_cons, List.mem_singleton, List.not_mem_nil, or_false] at ht
  rcases ht with ht | ht
  · subst ht
    exact ⟨⟨by decide, by decide!⟩, by decide⟩
  · subst ht
    exact ⟨⟨by decide, by decide!⟩, by decide, by decide⟩

/-- The round trip applies to the sample ledger. -/
theorem save_load_round_trip_sample :
    (loadUserData wholeLib (fun _ => 107) sampleUser.username sampleUser.password
        (saveUserData wholeLib sampleUser emptyStore).1).status = .returned 0 ∧
    ∃ u, (loadUserData wholeLib (fun _ => 107) sampleUser.username sampleUser.password
          (saveUserData wholeLib sampleUser emptyStore).1).user = some u ∧
      u.transactions = sampleUser.transactions ∧ u.balance = sampleUser.balance :=
  save_load_round_trip wholeLib (fun _ => 107) sampleUser emptyStore [24, 0, 26, 25, 0, 13]
    rfl (by decide) (by decide) (by decide) (by decide) (Or.inl (by decide))
    ⟨by decide, by decide, by decide⟩ sampleUser_clean (by unfold BalanceHolds; decide!)

/-! ## Adding and removing an entry -/

/-- C13: for all dates d, lo, hi, `isDateInRange(d, lo, hi)` is true if and only if
lo.year <= d.year <= hi.year and lo.month <= d.month <= hi.month and lo.day <= d.day <= hi.day,
each field on its own. -/
theorem isDateInRange_iff (d lo hi : Date) :
    isDateInRange d lo hi = true ↔
      (lo.year ≤ d.year ∧ d.year ≤ hi.year) ∧ (lo.month ≤ d.month ∧ d.month ≤ hi.month) ∧
        (lo.day ≤ d.day ∧ d.day ≤ hi.day) := by
  simp only [isDateInRange, Bool.and_eq_true, decide_eq_true_eq, ge_iff_le]
  tauto

/-- What `checkValidity` does on every date: false on an invalid date, true on a valid date
outside February, and no returned value on a valid date in February. -/
theorem checkValidity_spec (d : Date) :
    d.checkValidity
      = if validDate d then (if d.month = 2 then none else some true) else some false := by
  simp only [Date.checkValidity, validDate, maxDay]
  split_ifs <;> first | rfl | (exfalso; omega)

/-- C14 fails at valid February dates: for 28/2/2023 and 29/2/2024 `checkValidity` reaches the end
of the function without a `return`, so no value is returned, while 29/2/2023 and 30/2/2024 give
false. -/
theorem checkValidity_february_no_return :
    validDate { day := 28, month := 2, year := 2023 } ∧
    Date.checkValidity { day := 28, month := 2, year := 2023 } = none ∧
    validDate { day := 29, month := 2, year := 2024 } ∧
    Date.checkValidity { day := 29, month := 2, year := 2024 } = none ∧
    Date.checkValidity { day := 29, month := 2, year := 2023 } = some false ∧
    Date.checkValidity { day := 30, month := 2, year := 2024 } = some false := by
  decide

/-! ## Period and category totals -/

theorem foldl_categoryStep (c : Str) (ts : List Transaction) :
    ∀ acc : Amount,
      ts.foldl (categoryStep c) acc
      = acc + amountSum (ts.filter (fun t => t.hasCategory c)) := by
  induction ts with
  | nil => intro acc; simp [amountSum]
  | cons t ts ih =>
    intro acc
    rw [List.foldl_cons, ih]
    cases t with
    | income a d dt => simp [categoryStep, amountSum, Transaction.hasCategory]
    | expense a d dt cat =>
      by_cases h : cat = c
      · simp [categoryStep, h, amountSum, Transaction.hasCategory, Transaction.getAmount,
          add_assoc]
      · simp [categoryStep, h, amountSum, Transaction.hasCategory]

theorem expense_category_eq (user : User) (c : Str) :
    calculateExpensesByCategory user c
      = amountSum (user.transactions.filter (fun t => t.hasCategory c)) := by
  rw [calculateExpensesByCategory, foldl_categoryStep, zero_add]

theorem runOps_two (L : Lib) (a b : Op) (user : User) (fs : FileStore) (e : Str)
    (h : encryptPassword user.password user.id = some e) :
    (runOps L [a, b] user fs).user
      = (applyOp L b (applyOp L a user fs).user (applyOp L a user fs).fs).user := by
  have hd := applyOp_defined L a user fs e h
  obtain ⟨h1, _, h3⟩ := applyOp_identity L a user fs
  have hd2 := applyOp_defined L b (applyOp L a user fs).user (applyOp L a user fs).fs e
    (by rw [h1, h3]; exact h)
  rw [runOps]
  cases hs : (applyOp L a user fs).status with
  | undefined => exact absurd hs hd
  | returned r =>
    simp only
    rw [runOps]
    cases hs2 : (applyOp L b (applyOp L a user fs).user (applyOp L a user fs).fs).status with
    | undefined => exact absurd hs2 hd2
    | returned r => rfl
    | threw x => rfl
  | threw x =>
    simp only
    rw [runOps]
    cases hs2 : (applyOp L b (applyOp L a user fs).user (applyOp L a user fs).fs).status with
    | undefined => exact absurd hs2 hd2
    | returned r => rfl
    | threw x => rfl

/-- C18: starting from an empty ledger, after adding Income(1000, salary, 1/1/2024) and then
Expense(200, food, 15/1/2024, Food) the balance is 800, `calculateIncomeForPeriod(1/1/2024,
31/1/2024)` is 1000 and `calculateExpensesByCategory(Food)` is 200. The ledger has a non-empty
username or an empty password, so that both calls complete. -/
theorem worked_example (L : Lib) (rnd : Nat → Nat) (username password : Str) (fs : FileStore)
    (h : username ≠ [] ∨ password = []) :
    (runOps L [.add salary, .add food] (User.new rnd username password) fs).status
      ≠ .undefined ∧
    (runOps L [.add salary, .add food] (User.new rnd username password) fs).user.transactions
      = [salary, food] ∧
    (runOps L [.add salary, .add food] (User.new rnd username password) fs).user.balance = 800 ∧
    calculateIncomeForPeriod
        (runOps L [.add salary, .add food] (User.new rnd username password) fs).user
        { day := 1, month := 1, year := 2024 } { day := 31, month := 1, year := 2024 } = 1000 ∧
    calculateExpensesByCategory
        (runOps L [.add salary, .add food] (User.new rnd username password) fs).user
        (ascii "Food") = 200 := by
  obtain ⟨e, he⟩ := User_new_cipher_defined rnd username password h
  have hu : (runOps L [.add salary, .add food] (User.new rnd username password) fs).user
      = { User.new rnd username password with transactions := [salary, food], balance := 800 } := by
    rw [runOps_two L _ _ _ fs e he]
    simp only [applyOp, addTransaction_user, User.new, salary, food, incomeTotal, expenseTotal,
      List.nil_append, List.cons_append]
    norm_num
  refine ⟨runOps_defined L _ _ fs e he, ?_, ?_, ?_, ?_⟩
  · rw [hu]
  · rw [hu]
  · rw [hu]
    have hr : isDateInRange { day := 1, month := 1, year := 2024 }
        { day := 1, month := 1, year := 2024 } { day := 31, month := 1, year := 2024 } = true := by
      decide
    simp [calculateIncomeForPeriod, incomeStep, salary, food, hr]
  · rw [hu]
    simp [calculateExpensesByCategory, categoryStep, salary, food]

theorem worked_example_witness :
    (ascii "bob" ≠ [] ∨ ascii "secret" = []) ∧
    (runOps wholeLib [.add salary, .add food]
        (User.new (fun _ => 107) (ascii "bob") (ascii "secret")) emptyStore).status
      ≠ .undefined ∧
    (runOps wholeLib [.add salary, .add food]
        (User.new (fun _ => 107) (ascii "bob") (ascii "secret")) emptyStore).user.transactions
      = [salary, food] ∧
    (runOps wholeLib [.add salary, .add food]
        (User.new (fun _ => 107) (ascii "bob") (ascii "secret")) emptyStore).user.balance = 800 ∧
    calculateIncomeForPeriod
        (runOps wholeLib [.add salary, .add food]
          (User.new (fun _ => 107) (ascii "bob") (ascii "secret")) emptyStore).user
        { day := 1, month := 1, year := 2024 } { day := 31, month := 1, year := 2024 } = 1000 ∧
    calculateExpensesByCategory
        (runOps wholeLib [.add salary, .add food]
          (User.new (fun _ => 107) (ascii "bob") (ascii "secret")) emptyStore).user
        (ascii "Food") = 200 :=
  ⟨Or.inl (by decide),
    worked_example wholeLib (fun _ => 107) (ascii "bob") (ascii "secret") emptyStore
      (Or.inl (by decide))⟩

/-! ## Registration -/

theorem registerUser_of_mem (L : Lib) (rnd : Nat → Nat) (username password : Str)
    (users : List Str) (fs : FileStore) (h : username ∈ users) :
    registerUser L rnd username password users fs
      = { users := users, fs := fs, user := none
          status := .threw (.financial "User already exists.") } := by
  unfold registerUser
  rw [if_pos h]

theorem mem_usersInsert (users : List Str) (u : Str) : u ∈ usersInsert users u := by
  unfold usersInsert
  split
  · assumption
  · simp

theorem registerUser_mem (L : Lib) (rnd : Nat → Nat) (username password : Str)
    (users : List Str) (fs : FileStore) :
    username ∈ (registerUser L rnd username password users fs).users := by
  unfold registerUser
  split
  · assumption
  · simp only
    split
    · exact mem_usersInsert users username
    · split <;> exact mem_usersInsert users username

/-- C19: for every username already in the user set and every password, `registerUser` throws
"User already exists." and leaves the user set and all files, the index file and the record
included, as they were; and a second `registerUser` of the same name right after a first one
throws that exception, whatever the passwords. -/
theorem registerUser_duplicate (L : Lib) (rnd : Nat → Nat) (username password : Str)
    (users : List Str) (fs : FileStore) (h : username ∈ users) :
    registerUser L rnd username password users fs
      = { users := users, fs := fs, user := none
          status := .threw (.financial "User already exists.") } ∧
    ∀ (rnd0 rnd1 : Nat → Nat) (p0 p1 : Str) (users0 : List Str) (fs0 : FileStore),
      (registerUser L rnd1 username p1
        (registerUser L rnd0 username p0 users0 fs0).users
        (registerUser L rnd0 username p0 users0 fs0).fs).status
        = .threw (.financial "User already exists.") :=
  ⟨registerUser_of_mem L rnd username password users fs h,
    fun rnd0 rnd1 p0 p1 users0 fs0 => by
      rw [registerUser_of_mem L rnd1 username p1 _ _
        (registerUser_mem L rnd0 username p0 users0 fs0)]⟩

theorem registerUser_duplicate_witness :
    ascii "bob" ∈ [ascii "alice", ascii "bob"] ∧
    (registerUser wholeLib (fun _ => 107) (ascii "bob") (ascii "secret")
        [ascii "alice", ascii "bob"] emptyStore
      = { users := [ascii "alice", ascii "bob"], fs := emptyStore, user := none
          status := .threw (.financial "User already exists.") } ∧
    ∀ (rnd0 rnd1 : Nat → Nat) (p0 p1 : Str) (users0 : List Str) (fs0 : FileStore),
      (registerUser wholeLib rnd1 (ascii "bob") p1
        (registerUser wholeLib rnd0 (ascii "bob") p0 users0 fs0).users
        (registerUser wholeLib rnd0 (ascii "bob") p0 users0 fs0).fs).status
        = .threw (.financial "User already exists.")) :=
  ⟨by decide, registerUser_duplicate wholeLib (fun _ => 107) (ascii "bob") (ascii "secret")
    [ascii "alice", ascii "bob"] emptyStore (by decide)⟩

/-! ## Deletion of a user -/

theorem fileLines_of_getline (s : Str) :
    ∀ l r, getline s = some (l, r) → fileLines s = l :: fileLines r := by
  induction s with
  | nil => intro l r h; simp [getline] at h
  | cons c cs ih =>
    intro l r h
    unfold getline at h
    conv_lhs => unfold fileLines
    split at h
    · rename_i hc
      simp only [Option.some.injEq, Prod.mk.injEq] at h
      obtain ⟨h1, h2⟩ := h
      subst h1 h2
      rw [if_pos hc]
    · rename_i hc
      rw [if_neg hc]
      split at h
      · rename_i hg
        simp only [Option.some.injEq, Prod.mk.injEq] at h
        obtain ⟨h1, h2⟩ := h
        subst h1 h2
        have hcs : cs = [] := by
          cases cs with
          | nil => rfl
          | cons x xs =>
            unfold getline at hg
            split at hg
            · simp at hg
            · split at hg <;> simp at hg
        subst hcs
        rfl
      · rename_i l2 r2 hg
        simp only [Option.some.injEq, Prod.mk.injEq] at h
        obtain ⟨h1, h2⟩ := h
        subst h1 h2
        rw [ih l2 r2 hg]

theorem getline_none (s : Str) (h : getline s = none) : s = [] := by
  cases s with
  | nil => rfl
  | cons x xs =>
    unfold getline at h
    split at h
    · simp at h
    · split at h <;> simp at h

theorem copyOtherLines_eq (username : Str) :
    ∀ (fuel : Nat) (input out : Str), input.length < fuel →
      copyOtherLines username fuel input out
        = out ++ unlines ((fileLines input).filter (fun l => l ≠ username)) := by
  intro fuel
  induction fuel with
  | zero => intro input out h; omega
  | succ n ih =>
    intro input out h
    unfold copyOtherLines
    cases hg : getline input with
    | none =>
      rw [getline_none input hg]
      simp [fileLines, unlines]
    | some lr =>
      obtain ⟨l, r⟩ := lr
      have hlen := getline_length input l r hg
      simp only
      rw [ih r _ (by omega), fileLines_of_getline input l r hg]
      by_cases hl : l = username
      · simp [hl]
      · simp [hl, unlines, List.append_assoc]

theorem fileLines_append_newline (l rest : Str) (h : newline ∉ l) :
    fileLines (l ++ newline :: rest) = l :: fileLines rest :=
  fileLines_of_getline _ l rest (getline_append_newline l rest h)

theorem fileLines_unlines (ls : List Str) (h : ∀ l ∈ ls, newline ∉ l) :
    fileLines (unlines ls) = ls := by
  induction ls with
  | nil => rfl
  | cons x xs ih =>
    have hx : newline ∉ x := h x (List.mem_cons_self _ _)
    have hxs : ∀ l ∈ xs, newline ∉ l := fun y hy => h y (List.mem_cons_of_mem _ hy)
    simp only [unlines, endl, List.append_assoc, List.singleton_append, List.cons_append]
    rw [fileLines_append_newline x _ hx, List.nil_append, ih hxs]

theorem fileLines_oneLine (s : Str) : ∀ l ∈ fileLines s, newline ∉ l := by
  induction s with
  | nil => intro l hl; simp [fileLines] at hl
  | cons c cs ih =>
    intro l hl
    unfold fileLines at hl
    split at hl
    · rcases List.mem_cons.mp hl with h | h
      · subst h; simp
      · exact ih l h
    · rename_i hc
      split at hl
      · simp only [List.mem_singleton] at hl
        subst hl
        simpa using fun h => hc h.symm
      · rename_i line lines hfl
        rcases List.mem_cons.mp hl with h | h
        · subst h
          have := ih line (by rw [hfl]; exact List.mem_cons_self _ _)
          intro hmem
          rcases List.mem_cons.mp hmem with h2 | h2
          · exact hc h2.symm
          · exact this h2
        · exact ih l (by rw [hfl]; exact List.mem_cons_of_mem _ h)

theorem cString_eq_self (s : Str) (h : (0 : Byte) ∉ s) : cString s = s := by
  rw [cString, List.takeWhile_eq_self_iff]
  intro c hc
  have : c ≠ 0 := fun h0 => h (h0 ▸ hc)
  simpa using this

/-- For a username without zero byte, the record path is the path of the index file exactly for
the name `users`. -/
theorem recordPath_eq_indexPath (username : Str) (h0 : (0 : Byte) ∉ username) :
    recordPath username = indexPath ↔ username = ascii "users" := by
  have hidx : indexPath = ascii "data/" ++ ascii "users" ++ ascii ".txt" := by decide
  have hz : (0 : Byte) ∉ ascii "data/" ++ username ++ ascii ".txt" := by
    simp only [List.mem_append, not_or]
    exact ⟨⟨by decide, h0⟩, by decide⟩
  rw [recordPath, cString_eq_self _ hz]
  constructor
  · intro h
    rw [hidx] at h
    exact List.append_cancel_left (List.append_cancel_right h)
  · intro h
    rw [h, hidx]

theorem tempPath_ne_indexPath : tempPath ≠ indexPath := by decide

theorem mem_usersErase (users : List Str) (u v : Str) :
    v ∈ usersErase users u ↔ v ∈ users ∧ v ≠ u := by
  simp [usersErase]

/-- For a username whose record is not the index file itself, `deleteUser` does what it is meant
to do: the name leaves the user set, the other names stay, and the lines of the index file are
the former lines without those equal to the name, in their former order. -/
theorem deleteUser_index (username password : Str) (users : List Str) (fs : FileStore)
    (text : Str) (hmem : username ∈ users) (hrecord : recordPath username ≠ indexPath)
    (htemp : fs.writable tempPath = true) (hindex : fs.content indexPath = some text) :
    (deleteUser username password users fs).status = .returned () ∧
    username ∉ (deleteUser username password users fs).users ∧
    (∀ v, v ≠ username → (v ∈ (deleteUser username password users fs).users ↔ v ∈ users)) ∧
    ∃ text2, (deleteUser username password users fs).fs.content indexPath = some text2 ∧
      fileLines text2 = (fileLines text).filter (fun l => l ≠ username) := by
  have hpath : ¬ indexPath = recordPath username := fun h => hrecord h.symm
  have hti : ¬ indexPath = tempPath := fun h => tempPath_ne_indexPath h.symm
  unfold deleteUser
  rw [if_pos hmem]
  refine ⟨rfl, ?_, ?_, ?_⟩
  · simp [mem_usersErase]
  · intro v hv
    simp [mem_usersErase, hv]
  · refine ⟨unlines ((fileLines text).filter (fun l => l ≠ username)), ?_, ?_⟩
    · simp only [FileStore.remove, FileStore.write, FileStore.rename, htemp, if_true, hpath,
        if_false, hindex, hti]
      rw [copyOtherLines_eq username _ text [] (by omega)]
      simp [tempPath_ne_indexPath]
    · apply fileLines_unlines
      intro l hl
      exact fileLines_oneLine text l (List.mem_of_mem_filter hl)

/-- The deletion of `alice` from an index file that lists `alice` and `bob`. -/
theorem deleteUser_index_sample :
    ∃ text2,
      (deleteUser (ascii "alice") (ascii "secret") [ascii "alice", ascii "bob"]
          (emptyStore.write indexPath (ascii "alice\nbob\n"))).fs.content indexPath
        = some text2 ∧
      fileLines text2
        = (fileLines (ascii "alice\nbob\n")).filter (fun l => l ≠ ascii "alice") :=
  (deleteUser_index (ascii "alice") (ascii "secret") [ascii "alice", ascii "bob"]
    (emptyStore.write indexPath (ascii "alice\nbob\n")) (ascii "alice\nbob\n")
    (by decide) (by decide) rfl (by decide)).2.2.2

/-- C20 fails at this input: the name `users` has registered and the program has started again,
so that the user set is the lines of the index file, which is the record of `users`. Its record
path is the path of the index file: `deleteUser` removes that file first, copies no line, and
leaves an empty index file, where the lines other than `users` should have stayed. -/
theorem deleteUser_users_empties_index :
    (registerUser wholeLib (fun _ => 107) (ascii "users") (ascii "pw") [] emptyStore).status
      = .returned () ∧
    recordPath (ascii "users") = indexPath ∧
    usersNameStore.content indexPath = some (ascii "kkkkk\n\x1b\x1c\nusers\n0\n") ∧
    loadUsers usersNameStore = fileLines (ascii "kkkkk\n\x1b\x1c\nusers\n0\n") ∧
    ascii "users" ∈ loadUsers usersNameStore ∧
    (deleteUser (ascii "users") (ascii "pw") (loadUsers usersNameStore) usersNameStore).status
      = .returned () ∧
    (deleteUser (ascii "users") (ascii "pw") (loadUsers usersNameStore) usersNameStore).fs.content
        indexPath = some [] ∧
    fileLines [] = [] ∧
    (fileLines (ascii "kkkkk\n\x1b\x1c\nusers\n0\n")).filter (fun l => l ≠ ascii "users")
      = [ascii "kkkkk", [27, 28], ascii "0"] := by
  decide

/-! ## Changing the password -/

theorem changePassword_fs (L : Lib) (user : User) (q : Str) (fs : FileStore) :
    (changePassword L user q fs).user = { user with password := q } ∧
    (changePassword L user q fs).fs
      = (saveUserData L { user with password := q } (fs.remove (recordPath user.username))).1 ∧
    (changePassword L user q fs).status
      = (saveUserData L { user with password := q } (fs.remove (recordPath user.username))).2 :=
  ⟨rfl, rfl, rfl⟩

/-- C21: for every ledger and every string q, after `changePassword(q)` the password in memory is
q; the username, the account key, the balance and the entry list are as before; the files are
those `saveUserData` leaves for the updated ledger once the old record is removed, so that when
the record file can be opened and the cipher is defined the call returns and the record holds
exactly the lines of the updated ledger, the second being `encryptPassword(q, key)`;
`validatePassword(q)` is true and `validatePassword(old)` is false for every old different from
q. -/
theorem changePassword_postcondition (L : Lib) (user : User) (q : Str) (fs : FileStore) :
    (changePassword L user q fs).user.password = q ∧
    (changePassword L user q fs).user.username = user.username ∧
    (changePassword L user q fs).user.id = user.id ∧
    (changePassword L user q fs).user.balance = user.balance ∧
    (changePassword L user q fs).user.transactions = user.transactions ∧
    (changePassword L user q fs).fs
      = (saveUserData L (changePassword L user q fs).user
          (fs.remove (recordPath user.username))).1 ∧
    validatePassword (changePassword L user q fs).user q = true ∧
    (∀ old : Str, old ≠ q → validatePassword (changePassword L user q fs).user old = false) ∧
    ∀ encrypted : Str, fs.writable (recordPath user.username) = true →
      encryptPassword q user.id = some encrypted →
      (changePassword L user q fs).status = .returned () ∧
      (changePassword L user q fs).fs.content (recordPath user.username)
        = some (unlines ([user.id, encrypted, user.username, L.putDouble user.balance]
            ++ user.transactions.flatMap (entryLines L))) := by
  refine ⟨rfl, rfl, rfl, rfl, rfl, rfl, ?_, ?_, ?_⟩
  · simp [validatePassword, changePassword]
  · intro old hold
    simp only [validatePassword, changePassword, decide_eq_false_iff_not]
    exact fun h => hold h.symm
  · intro encrypted hopen henc
    have hs := saveUserData_returns L { user with password := q }
      (fs.remove (recordPath user.username)) encrypted hopen henc
    obtain ⟨_, h2, h3⟩ := changePassword_fs L user q fs
    rw [h3, h2, hs]
    exact ⟨rfl, FileStore.content_write _ _ _⟩

theorem changePassword_postcondition_witness :
    (changePassword wholeLib sampleUser (ascii "hunter2") emptyStore).user.password
      = ascii "hunter2" ∧
    validatePassword (changePassword wholeLib sampleUser (ascii "hunter2") emptyStore).user
      (ascii "secret") = false ∧
    (changePassword wholeLib sampleUser (ascii "hunter2") emptyStore).status = .returned () ∧
    (changePassword wholeLib sampleUser (ascii "hunter2") emptyStore).fs.content
        (recordPath sampleUser.username)
      = some (unlines ([sampleUser.id, [3, 16, 23, 31, 0, 11, 89], sampleUser.username,
            wholeLib.putDouble sampleUser.balance]
          ++ sampleUser.transactions.flatMap (entryLines wholeLib))) :=
  ⟨(changePassword_postcondition wholeLib sampleUser (ascii "hunter2") emptyStore).1,
    (changePassword_postcondition wholeLib sampleUser (ascii "hunter2") emptyStore).2.2.2.2.2.2.2.1
      (ascii "secret") (by decide),
    ((changePassword_postcondition wholeLib sampleUser (ascii "hunter2") emptyStore).2.2.2.2.2.2.2.2
      [3, 16, 23, 31, 0, 11, 89] rfl (by decide)).1,
    ((changePassword_postcondition wholeLib sampleUser (ascii "hunter2") emptyStore).2.2.2.2.2.2.2.2
      [3, 16, 23, 31, 0, 11, 89] rfl (by decide)).2⟩

/-! ## The paths of the records -/

theorem saveUserData_other_path (L : Lib) (user : User) (fs : FileStore) (path : Str)
    (h : recordPath user.username ≠ path) :
    (saveUserData L user fs).1.content path = fs.content path := by
  have hp : ¬ path = recordPath user.username := fun e => h e.symm
  unfold saveUserData
  simp only
  split
  · rfl
  · split <;> simp [FileStore.write, hp]

/-- For a username without zero byte other than `users`, saving the record leaves the index
file as it was. -/
theorem saveUserData_index_unchanged (L : Lib) (user : User) (fs : FileStore)
    (h0 : (0 : Byte) ∉ user.username) (hname : user.username ≠ ascii "users") :
    (saveUserData L user fs).1.content indexPath = fs.content indexPath :=
  saveUserData_other_path L user fs indexPath
    (fun h => hname ((recordPath_eq_indexPath user.username h0).mp h))

/-- C22 fails at this input: the record path of the username `users` is the path of the index
file (and that of `temp` is the path of the temporary file of `deleteUser`; a name that goes on
after `users.txt` with a zero byte also lands on the index file). When `users` registers next to
`alice`, `saveUserData` writes the record over the index file, which then no longer lists
`alice`. -/
theorem record_path_is_index_path :
    recordPath (ascii "users") = indexPath ∧
    recordPath (ascii "temp") = tempPath ∧
    recordPath (ascii "users.txt\x00") = indexPath ∧
    (emptyStore.write indexPath (ascii "alice\nusers\n")).content indexPath
      = some (ascii "alice\nusers\n") ∧
    (saveUserData wholeLib (User.new (fun _ => 107) (ascii "users") (ascii "pw"))
        (emptyStore.write indexPath (ascii "alice\nusers\n"))).1.content indexPath
      = some (ascii "kkkkk\n\x1b\x1c\nusers\n0\n") ∧
    (registerUser wholeLib (fun _ => 107) (ascii "users") (ascii "pw") [ascii "alice"]
        (emptyStore.write indexPath (ascii "alice\n"))).status = .returned () ∧
    (registerUser wholeLib (fun _ => 107) (ascii "users") (ascii "pw") [ascii "alice"]
        (emptyStore.write indexPath (ascii "alice\n"))).fs.content indexPath
      = some (ascii "kkkkk\n\x1b\x1c\nusers\n0\n") := by
  decide

/-! ## The range filter and true chronological order -/

/-- C23: the valid dates lo = 10/1/2024, d = 5/2/2024 and hi = 20/3/2024 are in true chronological
order, lo before d before hi, and `isDateInRange(d, lo, hi)` is false, so that an Income dated d
added to any ledger leaves `calculateIncomeForPeriod(lo, hi)` as it was. -/
theorem isDateInRange_excludes_date_in_range :
    validDate { day := 10, month := 1, year := 2024 } ∧
    validDate { day := 5, month := 2, year := 2024 } ∧
    validDate { day := 20, month := 3, year := 2024 } ∧
    chronLe { day := 10, month := 1, year := 2024 } { day := 5, month := 2, year := 2024 } ∧
    chronLe { day := 5, month := 2, year := 2024 } { day := 20, month := 3, year := 2024 } ∧
    isDateInRange { day := 5, month := 2, year := 2024 } { day := 10, month := 1, year := 2024 }
      { day := 20, month := 3, year := 2024 } = false ∧
    ∀ (user : User) (amount : Amount) (description : Str),
      calculateIncomeForPeriod
          { user with transactions := user.transactions
              ++ [.income amount description { day := 5, month := 2, year := 2024 }] }
          { day := 10, month := 1, year := 2024 } { day := 20, month := 3, year := 2024 }
        = calculateIncomeForPeriod user
            { day := 10, month := 1, year := 2024 } { day := 20, month := 3, year := 2024 } := by
  refine ⟨by decide, by decide, by decide, by decide, by decide, by decide, ?_⟩
  intro user amount description
  have hr : isDateInRange { day := 5, month := 2, year := 2024 }
      { day := 10, month := 1, year := 2024 } { day := 20, month := 3, year := 2024 } = false := by
    decide
  simp [calculateIncomeForPeriod, List.foldl_append, incomeStep, hr]

theorem inRange_chron (d lo hi : Date) (h : isDateInRange d lo hi = true) :
    chronLe lo d ∧ chronLe d hi ∧ ¬ chronLt d lo ∧ ¬ chronLt hi d := by
  simp only [isDateInRange, Bool.and_eq_true, decide_eq_true_eq, ge_iff_le] at h
  unfold chronLe chronLt
  omega

/-- C24 as the code has it: whenever `isDateInRange(d, lo, hi)` is true, d lies in the true
chronological range: lo is not after d, d is not after hi, and d is neither strictly before lo
nor strictly after hi. -/
theorem isDateInRange_within_chronological_range (d lo hi : Date)
    (h : isDateInRange d lo hi = true) :
    chronLe lo d ∧ chronLe d hi ∧ ¬ chronLt d lo ∧ ¬ chronLt hi d :=
  inRange_chron d lo hi h

theorem isDateInRange_within_chronological_range_witness :
    isDateInRange { day := 15, month := 1, year := 2024 } { day := 1, month := 1, year := 2024 }
      { day := 31, month := 1, year := 2024 } = true ∧
    (chronLe { day := 1, month := 1, year := 2024 } { day := 15, month := 1, year := 2024 } ∧
      chronLe { day := 15, month := 1, year := 2024 } { day := 31, month := 1, year := 2024 } ∧
      ¬ chronLt { day := 15, month := 1, year := 2024 } { day := 1, month := 1, year := 2024 } ∧
      ¬ chronLt { day := 31, month := 1, year := 2024 } { day := 15, month := 1, year := 2024 }) :=
  ⟨by decide,
    isDateInRange_within_chronological_range { day := 15, month := 1, year := 2024 }
      { day := 1, month := 1, year := 2024 } { day := 31, month := 1, year := 2024 } (by decide)⟩

/-- C24 as stated fails: there are no dates lo, d, hi with `isDateInRange(d, lo, hi)` true and d
chronologically before lo or after hi. -/
theorem isDateInRange_never_includes_outside :
    ¬ ∃ lo d hi : Date, isDateInRange d lo hi = true ∧ (chronLt d lo ∨ chronLt hi d) := by
  rintro ⟨lo, d, hi, h, hout⟩
  obtain ⟨_, _, h1, h2⟩ := inRange_chron d lo hi h
  rcases hout with h3 | h3
  · exact h1 h3
  · exact h2 h3

/-- C25: for all dates lo, hi of one year and one month and every date d,
`isDateInRange(d, lo, hi)` is true if and only if lo <= d <= hi in true chronological order. -/
theorem isDateInRange_within_one_month (d lo hi : Date) (hy : lo.year = hi.year)
    (hm : lo.month = hi.month) :
    isDateInRange d lo hi = true ↔ chronLe lo d ∧ chronLe d hi := by
  simp only [isDateInRange, Bool.and_eq_true, decide_eq_true_eq, ge_iff_le]
  unfold chronLe
  constructor
  · intro h; omega
  · intro h; omega

theorem isDateInRange_within_one_month_witness :
    (2024 : Int) = 2024 ∧ (1 : Int) = 1 ∧
    (isDateInRange { day := 15, month := 1, year := 2024 } { day := 1, month := 1, year := 2024 }
        { day := 31, month := 1, year := 2024 } = true ↔
      chronLe { day := 1, month := 1, year := 2024 } { day := 15, month := 1, year := 2024 } ∧
      chronLe { day := 15, month := 1, year := 2024 } { day := 31, month := 1, year := 2024 }) :=
  ⟨rfl, rfl, isDateInRange_within_one_month { day := 15, month := 1, year := 2024 }
    { day := 1, month := 1, year := 2024 } { day := 31, month := 1, year := 2024 } rfl rfl⟩

/-- Strictly earlier is the same as not later or equal. -/
theorem chronLt_iff (a b : Date) : chronLt a b ↔ ¬ chronLe b a := by
  unfold chronLt chronLe
  omega

/-! ## Categories -/

theorem sum_map_ite_of_mem (cats : List Str) (cat : Str) (a : Amount)
    (hnd : cats.Nodup) (hmem : cat ∈ cats) :
    (cats.map (fun c => if cat = c then a else 0)).sum = a := by
  induction cats with
  | nil => simp at hmem
  | cons x xs ih =>
    have hx : x ∉ xs := (List.nodup_cons.mp hnd).1
    have hxs : xs.Nodup := (List.nodup_cons.mp hnd).2
    rcases List.mem_cons.mp hmem with h | h
    · subst h
      have hz : (xs.map (fun c => if cat = c then a else 0)).sum = 0 := by
        apply List.sum_eq_zero
        intro v hv
        obtain ⟨c, hc, rfl⟩ := List.mem_map.mp hv
        have : cat ≠ c := fun e => hx (e ▸ hc)
        simp [this]
      simp [hz]
    · have hne : cat ≠ x := fun e => hx (e ▸ h)
      simp [hne, ih hxs h]

theorem sum_category_totals (cats : List Str) (hnd : cats.Nodup) (ts : List Transaction) :
    (∀ t ∈ ts, ∀ c, t.categoryName = some c → c ∈ cats) →
    (cats.map (fun c => amountSum (ts.filter (fun t => t.hasCategory c)))).sum
      = expenseTotal ts := by
  induction ts with
  | nil =>
    intro _
    simp [amountSum, expenseTotal]
  | cons t ts ih =>
    intro h
    have hts : ∀ t ∈ ts, ∀ c, t.categoryName = some c → c ∈ cats :=
      fun x hx => h x (List.mem_cons_of_mem _ hx)
    have ih2 := ih hts
    cases t with
    | income a d dt =>
      simpa [Transaction.hasCategory, expenseTotal] using ih2
    | expense a d dt cat =>
      have hcat : cat ∈ cats := h _ (List.mem_cons_self _ _) cat rfl
      have hstep : ∀ c, amountSum ((Transaction.expense a d dt cat :: ts).filter
            (fun t => t.hasCategory c))
          = (if cat = c then a else 0) + amountSum (ts.filter (fun t => t.hasCategory c)) := by
        intro c
        by_cases hc : cat = c
        · simp [List.filter_cons, Transaction.hasCategory, hc, amountSum, Transaction.getAmount]
        · simp [List.filter_cons, Transaction.hasCategory, hc, amountSum]
      simp only [hstep, List.sum_map_add, expenseTotal]
      rw [sum_map_ite_of_mem cats cat a hnd hcat, ih2]

theorem mem_categoriesOf (ts : List Transaction) :
    ∀ t ∈ ts, ∀ c, t.categoryName = some c → c ∈ categoriesOf ts := by
  intro t ht c hc
  rw [categoriesOf, List.mem_dedup, List.mem_filterMap]
  exact ⟨t, ht, hc⟩

theorem mem_categoriesOf_iff (ts : List Transaction) (c : Str) :
    c ∈ categoriesOf ts ↔ ∃ a d dt, Transaction.expense a d dt c ∈ ts := by
  rw [categoriesOf, List.mem_dedup, List.mem_filterMap]
  constructor
  · rintro ⟨t, ht, hc⟩
    cases t with
    | income a d dt => simp [Transaction.categoryName] at hc
    | expense a d dt cat =>
      simp only [Transaction.categoryName, Option.some.injEq] at hc
      subst hc
      exact ⟨a, d, dt, ht⟩
  · rintro ⟨a, d, dt, ht⟩
    exact ⟨_, ht, rfl⟩

theorem expenseTotal_eq_amountSum (ts : List Transaction) :
    expenseTotal ts = amountSum (ts.filter (fun t => t.isExpense)) := by
  induction ts with
  | nil => rfl
  | cons t ts ih =>
    cases t with
    | income a d dt => simpa [expenseTotal, Transaction.isExpense] using ih
    | expense a d dt cat =>
      simp only [expenseTotal, ih, List.filter_cons, Transaction.isExpense, if_true, amountSum,
        List.map_cons, List.sum_cons, Transaction.getAmount]

/-- In exact arithmetic: for every ledger, the sum of `calculateExpensesByCategory(c)` over the
distinct category names c of its Expense entries equals the sum of the amounts of all its Expense
entries. The names are taken once each, and they are exactly the names some Expense carries. -/
theorem category_totals_partition (user : User) :
    ((categoriesOf user.transactions).map
        (fun c => calculateExpensesByCategory user c)).sum
      = expenseTotal user.transactions ∧
    (categoriesOf user.transactions).Nodup ∧
    (∀ c, c ∈ categoriesOf user.transactions ↔
      ∃ a d dt, Transaction.expense a d dt c ∈ user.transactions) ∧
    expenseTotal user.transactions
      = amountSum (user.transactions.filter (fun t => t.isExpense)) := by
  refine ⟨?_, List.nodup_dedup _, mem_categoriesOf_iff _, expenseTotal_eq_amountSum _⟩
  simp only [expense_category_eq]
  exact sum_category_totals _ (List.nodup_dedup _) _ (mem_categoriesOf _)

/-! ## The key of a new ledger -/

theorem saveUserData_undefined_iff (L : Lib) (user : User) (fs : FileStore)
    (h : fs.writable (recordPath user.username) = true) :
    (saveUserData L user fs).2 = .undefined ↔ encryptPassword user.password user.id = none := by
  unfold saveUserData
  simp only [h]
  cases henc : encryptPassword user.password user.id <;> simp

/-- C27: the key made by the constructor is as long as the username, so for every username u and
password p the encryption of p under that key is defined (no `i % 0`) if and only if u is not
empty or p is empty; for an empty username and a non-empty password the key length is 0, the
encryption is undefined, and so is `saveUserData` on that ledger once the file is open. -/
theorem key_index_defined_iff (rnd : Nat → Nat) (u p : Str) :
    (User.new rnd u p).id.length = u.length ∧
    ((encryptPassword p (User.new rnd u p).id).isSome = true ↔ (u ≠ [] ∨ p = [])) ∧
    (u = [] → p ≠ [] → (User.new rnd u p).id.length = 0 ∧
      encryptPassword p (User.new rnd u p).id = none ∧
      ∀ (L : Lib) (fs : FileStore), fs.writable (recordPath u) = true →
        (saveUserData L (User.new rnd u p) fs).2 = .undefined) := by
  have hlen : (User.new rnd u p).id.length = u.length := generateRandomString_length rnd u.length
  refine ⟨hlen, ?_, ?_⟩
  · constructor
    · intro h
      by_contra hcon
      have hu : u = [] := by
        by_contra hu
        exact hcon (Or.inl hu)
      have hp : p ≠ [] := fun hp => hcon (Or.inr hp)
      have hk : (User.new rnd u p).id.length = 0 := by rw [hlen, hu]; rfl
      cases p with
      | nil => exact hp rfl
      | cons c cs => simp [encryptPassword, xorFrom, hk] at h
    · intro h
      obtain ⟨e, he⟩ := User_new_cipher_defined rnd u p h
      have he2 : encryptPassword p (User.new rnd u p).id = some e := he
      rw [he2]
      rfl
  · intro hu hp
    have hk : (User.new rnd u p).id.length = 0 := by rw [hlen, hu]; rfl
    have hnone : encryptPassword p (User.new rnd u p).id = none := by
      cases p with
      | nil => exact absurd rfl hp
      | cons c cs => simp [encryptPassword, xorFrom, hk]
    refine ⟨hk, hnone, ?_⟩
    intro L fs hopen
    exact (saveUserData_undefined_iff L (User.new rnd u p) fs hopen).mpr hnone

theorem key_index_defined_iff_witness :
    ([] : Str) = [] ∧ ascii "pw" ≠ [] ∧
    (User.new (fun _ => 107) [] (ascii "pw")).id.length = 0 ∧
    encryptPassword (ascii "pw") (User.new (fun _ => 107) [] (ascii "pw")).id = none ∧
    ∀ (L : Lib) (fs : FileStore), fs.writable (recordPath []) = true →
      (saveUserData L (User.new (fun _ => 107) [] (ascii "pw")) fs).2 = .undefined :=
  ⟨rfl, by decide, (key_index_defined_iff (fun _ => 107) [] (ascii "pw")).2.2 rfl (by decide)⟩

/-! ## Rounding to a `double` -/

theorem log2Fuel_spec : ∀ (fuel n : Nat), n ≤ fuel → n ≠ 0 →
    2 ^ log2Fuel fuel n ≤ n ∧ n < 2 ^ (log2Fuel fuel n + 1) := by
  intro fuel
  induction fuel with
  | zero => intro n h h0; omega
  | succ fuel ih =>
    intro n h h0
    unfold log2Fuel
    split
    · constructor <;> simp <;> omega
    · have hn : n / 2 ≤ fuel := by omega
      have hn0 : n / 2 ≠ 0 := by omega
      obtain ⟨h1, h2⟩ := ih (n / 2) hn hn0
      constructor
      · rw [pow_succ]; omega
      · rw [pow_succ]; omega

theorem ilog2_spec (n : Nat) (h0 : n ≠ 0) : 2 ^ ilog2 n ≤ n ∧ n < 2 ^ (ilog2 n + 1) :=
  log2Fuel_spec n n le_rfl h0

theorem ilog2_lt (n k : Nat) (h0 : n ≠ 0) (h : n < 2 ^ k) : ilog2 n < k := by
  have h1 := (ilog2_spec n h0).1
  exact (Nat.pow_lt_pow_iff_right (by decide : 1 < 2)).mp (lt_of_le_of_lt h1 h)

theorem roundHalfEven_one (n : Nat) : roundHalfEven n 1 = n := by
  simp [roundHalfEven, Nat.mod_one]

theorem roundDouble_natCast (n : Nat) (h : n < 2 ^ 53) : roundDouble (n : ℚ) = n := by
  by_cases h0 : n = 0
  · subst h0; simp [roundDouble]
  have hk := ilog2_lt n 53 h0 h
  have hle := (ilog2_spec n h0).1
  have hx0 : (n : ℚ) ≠ 0 := by exact_mod_cast h0
  have hpos : ¬ ((n : ℚ) < 0) := by
    have : (0 : ℚ) ≤ n := Nat.cast_nonneg n
    exact not_lt.mpr this
  have hfl : floorLog2 n 1 = (ilog2 n : Int) := by
    have h1 : ilog2 1 = 0 := by decide
    simp [floorLog2, h1, pow2Le, hle]
  unfold roundDouble
  rw [if_neg hx0]
  simp only [Rat.num_natCast, Rat.den_natCast, Int.natAbs_ofNat, hfl, if_neg hpos]
  have hmax : max ((ilog2 n : Int) - 52) (-1074) = (ilog2 n : Int) - 52 := by
    apply max_eq_left; omega
  rw [hmax]
  by_cases he : (0 : Int) ≤ (ilog2 n : Int) - 52
  · have : ilog2 n = 52 := by omega
    rw [if_pos he, this]
    simp [roundHalfEven_one]
  · rw [if_neg he, roundHalfEven_one, Rat.mkRat_eq_div]
    have hp : ((2 ^ (-((ilog2 n : Int) - 52)).toNat : Nat) : ℚ) ≠ 0 := by positivity
    push_cast
    field_simp

/-- Values of the rounding: the `double`s nearest to 0.1 and to 0.1 + 0.2 (the latter is
0.30000000000000004 and not the `double` nearest to 0.3), a tie at 10^16 + 1 that goes to the even
neighbour 10^16, and the smallest positive `double`. -/
theorem roundDouble_samples :
    roundDouble (1 / 10) = 3602879701896397 / 36028797018963968 ∧
    roundDouble (roundDouble (1 / 10) + roundDouble (2 / 10))
      = 1351079888211149 / 4503599627370496 ∧
    roundDouble (3 / 10) = 5404319552844595 / 18014398509481984 ∧
    roundDouble 10000000000000001 = 10000000000000000 ∧
    roundDouble 10000000000000003 = 10000000000000004 ∧
    roundDouble (-9007199254740993) = -9007199254740992 ∧
    roundDouble (3 / 4 * mkRat 1 (2 ^ 1074)) = mkRat 1 (2 ^ 1074) :=
  ⟨by decide!, by decide!, by decide!, by decide!, by decide!, by decide!, by decide!⟩

theorem roundDouble_neg (x : ℚ) : roundDouble (-x) = -roundDouble x := by
  by_cases h0 : x = 0
  · subst h0; simp [roundDouble]
  have h0n : -x ≠ 0 := neg_ne_zero.mpr h0
  unfold roundDouble
  rw [if_neg h0, if_neg h0n]
  simp only [Rat.neg_num, Rat.neg_den, Int.natAbs_neg]
  by_cases hx : x < 0
  · have : ¬ (-x < 0) := by simp; exact le_of_lt hx
    rw [if_pos hx, if_neg this, neg_neg]
  · have : -x < 0 := by
      have : 0 < x := lt_of_le_of_ne (not_lt.mp hx) (Ne.symm h0)
      simpa using this
    rw [if_neg hx, if_pos this]

theorem roundDouble_intCast (z : ℤ) (h : z.natAbs < 2 ^ 53) : roundDouble (z : ℚ) = z := by
  obtain ⟨n, rfl | rfl⟩ := Int.eq_nat_or_neg z
  · have hn : n < 2 ^ 53 := by simpa using h
    simpa using roundDouble_natCast n hn
  · have hn : n < 2 ^ 53 := by simpa using h
    push_cast
    rw [roundDouble_neg, roundDouble_natCast n hn]

theorem doubleIntegerLimit_eq : doubleIntegerLimit = 2 ^ 53 := by
  norm_num [doubleIntegerLimit]

theorem roundDouble_exact (x : ℚ) (hw : Whole x) (hb : |x| < 2 ^ 53) : roundDouble x = x := by
  have hx : ((x.num : ℤ) : ℚ) = x := Rat.coe_int_num_of_den_eq_one hw
  have hn : x.num.natAbs < 2 ^ 53 := by
    have h1 : ((x.num.natAbs : ℕ) : ℚ) = |x| := by
      rw [Nat.cast_natAbs, Int.cast_abs, hx]
    have h2 : ((x.num.natAbs : ℕ) : ℚ) < ((2 ^ 53 : ℕ) : ℚ) := by
      rw [h1]; push_cast; exact hb
    exact_mod_cast h2
  rw [← hx]
  exact roundDouble_intCast x.num hn

theorem whole_intCast (z : ℤ) : Whole (z : ℚ) := Rat.den_intCast z

theorem whole_zero : Whole 0 := rfl

theorem whole_add {a b : Amount} (ha : Whole a) (hb : Whole b) : Whole (a + b) := by
  rw [← Rat.coe_int_num_of_den_eq_one ha, ← Rat.coe_int_num_of_den_eq_one hb, ← Int.cast_add]
  exact whole_intCast _

theorem whole_sub {a b : Amount} (ha : Whole a) (hb : Whole b) : Whole (a - b) := by
  rw [← Rat.coe_int_num_of_den_eq_one ha, ← Rat.coe_int_num_of_den_eq_one hb, ← Int.cast_sub]
  exact whole_intCast _

theorem whole_incomeTotal (ts : List Transaction) (hw : ∀ t ∈ ts, Whole t.getAmount) :
    Whole (incomeTotal ts) := by
  induction ts with
  | nil => exact whole_zero
  | cons t ts ih =>
    have h1 := hw t (List.mem_cons_self _ _)
    have h2 := ih (fun x hx => hw x (List.mem_cons_of_mem _ hx))
    cases t with
    | income a d dt => exact whole_add h1 h2
    | expense a d dt c => exact h2

theorem whole_expenseTotal (ts : List Transaction) (hw : ∀ t ∈ ts, Whole t.getAmount) :
    Whole (expenseTotal ts) := by
  induction ts with
  | nil => exact whole_zero
  | cons t ts ih =>
    have h1 := hw t (List.mem_cons_self _ _)
    have h2 := ih (fun x hx => hw x (List.mem_cons_of_mem _ hx))
    cases t with
    | income a d dt => exact h2
    | expense a d dt c => exact whole_add h1 h2

theorem whole_amountSum (ts : List Transaction) (hw : ∀ t ∈ ts, Whole t.getAmount) :
    Whole (amountSum ts) := by
  induction ts with
  | nil => exact whole_zero
  | cons t ts ih =>
    have h1 := hw t (List.mem_cons_self _ _)
    have h2 := ih (fun x hx => hw x (List.mem_cons_of_mem _ hx))
    simp only [amountSum, List.map_cons, List.sum_cons]
    exact whole_add h1 h2

theorem absTotal_nonneg (ts : List Transaction) : 0 ≤ absTotal ts := by
  unfold absTotal
  apply List.sum_nonneg
  intro x hx
  obtain ⟨t, _, rfl⟩ := List.mem_map.mp hx
  exact abs_nonneg _

theorem absTotal_cons (t : Transaction) (ts : List Transaction) :
    absTotal (t :: ts) = |t.getAmount| + absTotal ts := by
  simp [absTotal]

theorem absTotal_append (ts us : List Transaction) :
    absTotal (ts ++ us) = absTotal ts + absTotal us := by
  simp [absTotal]

theorem absTotal_sublist {ts us : List Transaction} (h : ts.Sublist us) :
    absTotal ts ≤ absTotal us := by
  induction h with
  | slnil => exact le_rfl
  | cons a _ ih =>
    rw [absTotal_cons]
    have := abs_nonneg (Transaction.getAmount a)
    linarith
  | cons₂ a _ ih =>
    rw [absTotal_cons, absTotal_cons]
    linarith

theorem abs_ledger_le (ts : List Transaction) :
    |incomeTotal ts - expenseTotal ts| ≤ absTotal ts := by
  have h : |incomeTotal ts| + |expenseTotal ts| ≤ absTotal ts := by
    induction ts with
    | nil => simp [incomeTotal, expenseTotal, absTotal]
    | cons t ts ih =>
      rw [absTotal_cons]
      cases t with
      | income a d dt =>
        have := abs_add a (incomeTotal ts)
        simp only [incomeTotal, expenseTotal, Transaction.getAmount]
        linarith
      | expense a d dt c =>
        have := abs_add a (expenseTotal ts)
        simp only [incomeTotal, expenseTotal, Transaction.getAmount]
        linarith
  exact le_trans (abs_sub _ _) h

theorem abs_amountSum_le (ts : List Transaction) : |amountSum ts| ≤ absTotal ts := by
  induction ts with
  | nil => simp [amountSum, absTotal]
  | cons t ts ih =>
    rw [absTotal_cons]
    have := abs_add t.getAmount (amountSum ts)
    simp only [amountSum, List.map_cons, List.sum_cons] at *
    linarith

theorem roundDouble_ledger (ts : List Transaction) (hw : ∀ t ∈ ts, Whole t.getAmount)
    (hb : absTotal ts < 2 ^ 53) :
    roundDouble (incomeTotal ts - expenseTotal ts) = incomeTotal ts - expenseTotal ts :=
  roundDouble_exact _ (whole_sub (whole_incomeTotal ts hw) (whole_expenseTotal ts hw))
    (lt_of_le_of_lt (abs_ledger_le ts) hb)

theorem roundDouble_amountSum (ts : List Transaction) (hw : ∀ t ∈ ts, Whole t.getAmount)
    (hb : absTotal ts < 2 ^ 53) : roundDouble (amountSum ts) = amountSum ts :=
  roundDouble_exact _ (whole_amountSum ts hw) (lt_of_le_of_lt (abs_amountSum_le ts) hb)

theorem doubleSum_whole_aux (xs : List Amount) :
    ∀ (acc : Amount), Whole acc → (∀ x ∈ xs, Whole x) →
      |acc| + (xs.map (fun x => |x|)).sum < 2 ^ 53 →
      xs.foldl doubleArith.add acc = acc + xs.sum := by
  induction xs with
  | nil => intro acc _ _ _; simp
  | cons x xs ih =>
    intro acc hacc hw hb
    have hx : Whole x := hw x (List.mem_cons_self _ _)
    have hnn : 0 ≤ (xs.map (fun x => |x|)).sum := by
      apply List.sum_nonneg
      intro y hy
      obtain ⟨z, _, rfl⟩ := List.mem_map.mp hy
      exact abs_nonneg _
    simp only [List.map_cons, List.sum_cons] at hb
    have hab : |acc + x| ≤ |acc| + |x| := abs_add acc x
    have hstep : doubleArith.add acc x = acc + x :=
      roundDouble_exact _ (whole_add hacc hx) (by linarith)
    simp only [List.foldl_cons, hstep, List.sum_cons]
    rw [ih (acc + x) (whole_add hacc hx) (fun y hy => hw y (List.mem_cons_of_mem _ hy))
      (by linarith)]
    ring

theorem doubleSum_whole (xs : List Amount) (hw : ∀ x ∈ xs, Whole x)
    (hb : (xs.map (fun x => |x|)).sum < 2 ^ 53) : doubleSum xs = xs.sum := by
  have h := doubleSum_whole_aux xs 0 whole_zero hw (by simpa using hb)
  simpa [doubleSum] using h

theorem incomeTotal_eq_amountSum (ts : List Transaction) :
    incomeTotal ts = amountSum (ts.filter (fun t => t.isIncome)) := by
  induction ts with
  | nil => rfl
  | cons t ts ih =>
    cases t with
    | income a d dt =>
      simp only [incomeTotal, ih, List.filter_cons, Transaction.isIncome, if_true, amountSum,
        List.map_cons, List.sum_cons, Transaction.getAmount]
    | expense a d dt cat => simpa [incomeTotal, Transaction.isIncome] using ih

theorem doubleSum_entries (us : List Transaction) (hw : ∀ t ∈ us, Whole t.getAmount)
    (hb : absTotal us < 2 ^ 53) :
    doubleSum (us.map Transaction.getAmount) = amountSum us := by
  apply doubleSum_whole
  · intro x hx
    obtain ⟨t, ht, rfl⟩ := List.mem_map.mp hx
    exact hw t ht
  · simpa [absTotal, List.map_map, Function.comp] using hb

theorem double_sums_ledger (ts : List Transaction) (hw : ∀ t ∈ ts, Whole t.getAmount)
    (hb : absTotal ts < 2 ^ 53) :
    doubleArith.sub (doubleSum (incomeAmounts ts)) (doubleSum (expenseAmounts ts))
      = incomeTotal ts - expenseTotal ts := by
  unfold incomeAmounts expenseAmounts
  have h1 := doubleSum_entries (ts.filter (fun t => t.isIncome))
    (fun t ht => hw t (List.mem_filter.mp ht).1)
    (lt_of_le_of_lt (absTotal_sublist (List.filter_sublist _)) hb)
  have h2 := doubleSum_entries (ts.filter (fun t => t.isExpense))
    (fun t ht => hw t (List.mem_filter.mp ht).1)
    (lt_of_le_of_lt (absTotal_sublist (List.filter_sublist _)) hb)
  rw [h1, h2, ← incomeTotal_eq_amountSum, ← expenseTotal_eq_amountSum]
  exact roundDouble_ledger ts hw hb

/-! ## The members in exact arithmetic -/

theorem addTransactionWith_exact (L : Lib) (user : User) (t : Transaction) (fs : FileStore) :
    addTransactionWith exactArith L user t fs = addTransaction L user t fs := by
  cases t <;> rfl

theorem removeTransactionWith_exact (L : Lib) (user : User) (index : Int) (fs : FileStore) :
    removeTransactionWith exactArith L user index fs = removeTransaction L user index fs := by
  unfold removeTransactionWith removeTransaction
  by_cases h : 0 ≤ index ∧ index.toNat < user.transactions.length
  · rw [if_pos h, if_pos h]
    generalize user.transactions.get? index.toNat = found
    cases found with
    | none => rfl
    | some t => cases t <;> rfl
  · rw [if_neg h, if_neg h]

theorem runOpsWith_exact (L : Lib) (ops : List Op) :
    ∀ (user : User) (fs : FileStore), runOpsWith exactArith L ops user fs = runOps L ops user fs := by
  induction ops with
  | nil => intro user fs; rfl
  | cons op ops ih =>
    intro user fs
    have hop : applyOpWith exactArith L op user fs = applyOp L op user fs := by
      cases op with
      | add t => exact addTransactionWith_exact L user t fs
      | remove i => exact removeTransactionWith_exact L user i fs
    unfold runOpsWith runOps
    simp only [hop, ih]

theorem loadLoopWith_exact (L : Lib) :
    ∀ (fuel : Nat) (input : Str) (user : User) (fs : FileStore),
      loadLoopWith exactArith L fuel input user fs = loadLoop L fuel input user fs := by
  intro fuel
  induction fuel with
  | zero => intro input user fs; rfl
  | succ fuel ih =>
    intro input user fs
    unfold loadLoopWith loadLoop
    simp only [addTransactionWith_exact, ih]

theorem loadUserDataWith_exact (L : Lib) (rnd : Nat → Nat) (username password : Str)
    (fs : FileStore) :
    loadUserDataWith exactArith L rnd username password fs
      = loadUserData L rnd username password fs := by
  unfold loadUserDataWith loadUserData
  simp only [loadLoopWith_exact]

theorem calculateExpensesByCategoryWith_exact (user : User) (c : Str) :
    calculateExpensesByCategoryWith exactArith user c = calculateExpensesByCategory user c := by
  unfold calculateExpensesByCategoryWith calculateExpensesByCategory
  congr 1

/-! ## The balance invariant in the arithmetic of `double` -/

theorem addTransactionWith_user (A : Arith) (L : Lib) (user : User) (t : Transaction)
    (fs : FileStore) :
    (addTransactionWith A L user t fs).user
      = { user with
            transactions := user.transactions ++ [t]
            balance := balanceStep A user.balance t } := by
  cases t <;> rfl

theorem addTransactionWith_double_balanced (L : Lib) (user : User) (t : Transaction)
    (fs : FileStore) (h : BalanceHolds user)
    (hw : ∀ x ∈ user.transactions ++ [t], Whole x.getAmount)
    (hb : absTotal (user.transactions ++ [t]) < 2 ^ 53) :
    BalanceHolds (addTransactionWith doubleArith L user t fs).user := by
  have key := roundDouble_ledger _ hw hb
  rw [addTransactionWith_user]
  unfold BalanceHolds at *
  rw [incomeTotal_append, expenseTotal_append] at key ⊢
  cases t with
  | income a d dt =>
    simp only [balanceStep, doubleArith, incomeTotal, expenseTotal, h] at key ⊢
    rw [← key]
    congr 1
    ring
  | expense a d dt c =>
    simp only [balanceStep, doubleArith, incomeTotal, expenseTotal, h] at key ⊢
    rw [← key]
    congr 1
    ring

theorem removeTransactionWith_sublist (A : Arith) (L : Lib) (user : User) (index : Int)
    (fs : FileStore) :
    (removeTransactionWith A L user index fs).user.transactions.Sublist user.transactions := by
  unfold removeTransactionWith
  split
  · split
    · exact List.Sublist.refl _
    · rename_i t ht
      cases t <;> exact List.eraseIdx_sublist _ _
  · exact List.Sublist.refl _

theorem removeTransactionWith_double_balanced (L : Lib) (user : User) (index : Int)
    (fs : FileStore) (h : BalanceHolds user)
    (hw : ∀ x ∈ user.transactions, Whole x.getAmount)
    (hb : absTotal user.transactions < 2 ^ 53) :
    BalanceHolds (removeTransactionWith doubleArith L user index fs).user := by
  unfold removeTransactionWith
  split
  · split
    · exact h
    · rename_i t ht
      have hsub : (user.transactions.eraseIdx index.toNat).Sublist user.transactions :=
        List.eraseIdx_sublist _ _
      have key := roundDouble_ledger (user.transactions.eraseIdx index.toNat)
        (fun x hx => hw x (hsub.subset hx)) (lt_of_le_of_lt (absTotal_sublist hsub) hb)
      have hi := incomeTotal_eraseIdx user.transactions index.toNat t ht
      have he := expenseTotal_eraseIdx user.transactions index.toNat t ht
      unfold BalanceHolds at *
      cases t with
      | income a d dt =>
        simp only [doubleArith, incomeTotal, expenseTotal, add_zero] at hi he ⊢
        rw [← key, h, hi, he]
        congr 1
        ring
      | expense a d dt c =>
        simp only [doubleArith, incomeTotal, expenseTotal, add_zero] at hi he ⊢
        rw [← key, h, hi, he]
        congr 1
        ring
  · exact h

theorem runOpsWith_double_balanced (L : Lib) (ops : List Op) :
    ∀ (user : User) (fs : FileStore), BalanceHolds user →
      (∀ x ∈ user.transactions ++ addedEntries ops, Whole x.getAmount) →
      absTotal (user.transactions ++ addedEntries ops) < 2 ^ 53 →
      BalanceHolds (runOpsWith doubleArith L ops user fs).user := by
  induction ops with
  | nil => intro user fs h _ _; exact h
  | cons op ops ih =>
    intro user fs h hw hb
    have hstep : BalanceHolds (applyOpWith doubleArith L op user fs).user ∧
        (∀ x ∈ (applyOpWith doubleArith L op user fs).user.transactions ++ addedEntries ops,
          Whole x.getAmount) ∧
        absTotal ((applyOpWith doubleArith L op user fs).user.transactions ++ addedEntries ops)
          < 2 ^ 53 := by
      cases op with
      | add t =>
        have hts : (addTransactionWith doubleArith L user t fs).user.transactions
            = user.transactions ++ [t] := by rw [addTransactionWith_user]
        have heq : user.transactions ++ [t] ++ addedEntries ops
            = user.transactions ++ addedEntries (Op.add t :: ops) := by
          simp [addedEntries]
        have hsub : (user.transactions ++ [t]).Sublist
            (user.transactions ++ addedEntries (Op.add t :: ops)) := by
          rw [← heq]; exact List.sublist_append_left _ _
        refine ⟨addTransactionWith_double_balanced L user t fs h
          (fun x hx => hw x (hsub.subset hx)) (lt_of_le_of_lt (absTotal_sublist hsub) hb), ?_, ?_⟩
        · show ∀ x ∈ (addTransactionWith doubleArith L user t fs).user.transactions
              ++ addedEntries ops, Whole x.getAmount
          rw [hts, heq]; exact hw
        · show absTotal ((addTransactionWith doubleArith L user t fs).user.transactions
              ++ addedEntries ops) < 2 ^ 53
          rw [hts, heq]; exact hb
      | remove i =>
        have hsub0 := removeTransactionWith_sublist doubleArith L user i fs
        have hsub1 : user.transactions.Sublist (user.transactions ++ addedEntries ops) :=
          List.sublist_append_left _ _
        have hsub : ((removeTransactionWith doubleArith L user i fs).user.transactions
            ++ addedEntries ops).Sublist (user.transactions ++ addedEntries ops) :=
          List.Sublist.append hsub0 (List.Sublist.refl _)
        have hw2 : ∀ x ∈ user.transactions ++ addedEntries ops, Whole x.getAmount := hw
        have hb2 : absTotal (user.transactions ++ addedEntries ops) < 2 ^ 53 := hb
        refine ⟨removeTransactionWith_double_balanced L user i fs h
          (fun x hx => hw2 x (hsub1.subset hx))
          (lt_of_le_of_lt (absTotal_sublist hsub1) hb2), ?_, ?_⟩
        · exact fun x hx => hw2 x (hsub.subset hx)
        · exact lt_of_le_of_lt (absTotal_sublist hsub) hb2
    unfold runOpsWith
    simp only
    split
    · exact hstep.1
    · exact ih _ _ hstep.1 hstep.2.1 hstep.2.2

theorem removeTransactionWith_identity (A : Arith) (L : Lib) (user : User) (index : Int)
    (fs : FileStore) :
    (removeTransactionWith A L user index fs).user.id = user.id ∧
    (removeTransactionWith A L user index fs).user.username = user.username ∧
    (removeTransactionWith A L user index fs).user.password = user.password := by
  unfold removeTransactionWith
  split
  · split
    · exact ⟨rfl, rfl, rfl⟩
    · rename_i t _
      cases t <;> exact ⟨rfl, rfl, rfl⟩
  · exact ⟨rfl, rfl, rfl⟩

theorem applyOpWith_identity (A : Arith) (L : Lib) (op : Op) (user : User) (fs : FileStore) :
    (applyOpWith A L op user fs).user.id = user.id ∧
    (applyOpWith A L op user fs).user.username = user.username ∧
    (applyOpWith A L op user fs).user.password = user.password := by
  cases op with
  | add t => simp [applyOpWith, addTransactionWith_user]
  | remove i => exact removeTransactionWith_identity A L user i fs

theorem applyOpWith_defined (A : Arith) (L : Lib) (op : Op) (user : User) (fs : FileStore)
    (e : Str) (h : encryptPassword user.password user.id = some e) :
    (applyOpWith A L op user fs).status ≠ .undefined := by
  cases op with
  | add t =>
    cases t <;> exact saveUserData_defined L _ fs e h
  | remove i =>
    show (removeTransactionWith A L user i fs).status ≠ .undefined
    unfold removeTransactionWith
    split
    · split
      · simp
      · rename_i t _
        cases t <;> exact saveUserData_defined L _ fs e h
    · simp

/-- No call in a sequence of mutations reaches undefined behaviour when the cipher is defined
for the ledger, in whatever arithmetic the balance is kept. -/
theorem runOpsWith_defined (A : Arith) (L : Lib) (ops : List Op) :
    ∀ (user : User) (fs : FileStore) (e : Str),
      encryptPassword user.password user.id = some e →
      (runOpsWith A L ops user fs).status ≠ .undefined := by
  induction ops with
  | nil => intro user fs e _; simp [runOpsWith]
  | cons op ops ih =>
    intro user fs e h
    have hd := applyOpWith_defined A L op user fs e h
    obtain ⟨h1, _, h3⟩ := applyOpWith_identity A L op user fs
    have hrun : runOpsWith A L (op :: ops) user fs
        = runOpsWith A L ops (applyOpWith A L op user fs).user
            (applyOpWith A L op user fs).fs := by
      rw [runOpsWith]
      cases hs : (applyOpWith A L op user fs).status with
      | undefined => exact absurd hs hd
      | returned r => rfl
      | threw x => rfl
    rw [hrun]
    exact ih _ _ e (by rw [h1, h3]; exact h)

/-- A ledger made by the constructor with a non-empty username or an empty password never
reaches undefined behaviour in a sequence of mutations, in whatever arithmetic the balance is
kept. -/
theorem runOpsWith_fresh_defined (A : Arith) (L : Lib) (rnd : Nat → Nat)
    (username password : Str) (fs : FileStore) (ops : List Op)
    (h : username ≠ [] ∨ password = []) :
    (runOpsWith A L ops (User.new rnd username password) fs).status ≠ .undefined := by
  obtain ⟨e, he⟩ := User_new_cipher_defined rnd username password h
  exact runOpsWith_defined A L ops _ fs e he

/-- C1, as stated, fails in the arithmetic of `double`. On a fresh ledger the requests Income
10^16, Income 1, Expense 10^16 and `removeTransaction(1)` all return; the entries then held are
the Income and the Expense of 10^16, whose amounts cancel, and the balance is -1. Adding 1 to
10^16 rounds back to 10^16, and taking the 1 away again from 0 is exact. -/
theorem balance_invariant_fails_on_doubles :
    (runOpsWith doubleArith wholeLib roundingOps
        (User.new (fun _ => 107) (ascii "bob") (ascii "abc")) emptyStore).status = .returned () ∧
    (runOpsWith doubleArith wholeLib roundingOps
        (User.new (fun _ => 107) (ascii "bob") (ascii "abc")) emptyStore).user.transactions
      = [ .income 10000000000000000 (ascii "sale") { day := 1, month := 1, year := 2024 },
          .expense 10000000000000000 (ascii "house") { day := 3, month := 1, year := 2024 }
            (ascii "Home") ] ∧
    (runOpsWith doubleArith wholeLib roundingOps
        (User.new (fun _ => 107) (ascii "bob") (ascii "abc")) emptyStore).user.balance = -1 ∧
    incomeTotal (runOpsWith doubleArith wholeLib roundingOps
        (User.new (fun _ => 107) (ascii "bob") (ascii "abc")) emptyStore).user.transactions
      - expenseTotal (runOpsWith doubleArith wholeLib roundingOps
        (User.new (fun _ => 107) (ascii "bob") (ascii "abc")) emptyStore).user.transactions = 0 ∧
    (runOpsWith doubleArith wholeLib roundingOps
        (User.new (fun _ => 107) (ascii "bob") (ascii "abc")) emptyStore).user.balance
      ≠ incomeTotal (runOpsWith doubleArith wholeLib roundingOps
          (User.new (fun _ => 107) (ascii "bob") (ascii "abc")) emptyStore).user.transactions
        - expenseTotal (runOpsWith doubleArith wholeLib roundingOps
          (User.new (fun _ => 107) (ascii "bob") (ascii "abc")) emptyStore).user.transactions :=
  ⟨by decide!, by decide!, by decide!, by decide!, by decide!⟩

theorem runOpsWith_sublist (A : Arith) (L : Lib) (ops : List Op) :
    ∀ (user : User) (fs : FileStore),
      (runOpsWith A L ops user fs).user.transactions.Sublist
        (user.transactions ++ addedEntries ops) := by
  induction ops with
  | nil => intro user fs; simp [runOpsWith, addedEntries]
  | cons op ops ih =>
    intro user fs
    have hstep : ((applyOpWith A L op user fs).user.transactions ++ addedEntries ops).Sublist
        (user.transactions ++ addedEntries (op :: ops)) := by
      cases op with
      | add t =>
        show ((addTransactionWith A L user t fs).user.transactions ++ addedEntries ops).Sublist _
        rw [addTransactionWith_user]
        simp [addedEntries]
      | remove i =>
        exact List.Sublist.append (removeTransactionWith_sublist A L user i fs)
          (List.Sublist.refl _)
    unfold runOpsWith
    simp only
    split
    · exact (List.sublist_append_left _ _).trans hstep
    · exact (ih _ _).trans hstep

/-- C1, amended: starting from a freshly constructed `User`, after every finite sequence of
`addTransaction` and `removeTransaction` calls (any integer indices, in or out of bounds) in which
every amount added is a whole number and the absolute values of the amounts added sum to less
than 2^53, the `double` balance equals the sum of the amounts of the Income entries held minus the
sum of the amounts of the Expense entries held, whether the two sums and their difference are
taken exactly or accumulated in `double`. -/
theorem balance_invariant_whole_amounts (L : Lib) (rnd : Nat → Nat) (username password : Str)
    (fs : FileStore) (ops : List Op)
    (hw : ∀ t ∈ addedEntries ops, Whole t.getAmount)
    (hb : absTotal (addedEntries ops) < doubleIntegerLimit) :
    (runOpsWith doubleArith L ops (User.new rnd username password) fs).user.balance
      = incomeTotal
          (runOpsWith doubleArith L ops (User.new rnd username password) fs).user.transactions
        - expenseTotal
          (runOpsWith doubleArith L ops (User.new rnd username password) fs).user.transactions ∧
    (runOpsWith doubleArith L ops (User.new rnd username password) fs).user.balance
      = doubleArith.sub
          (doubleSum (incomeAmounts
            (runOpsWith doubleArith L ops (User.new rnd username password) fs).user.transactions))
          (doubleSum (expenseAmounts
            (runOpsWith doubleArith L ops (User.new rnd username password) fs).user.transactions))
    := by
  have hb2 : absTotal (addedEntries ops) < 2 ^ 53 := by rw [← doubleIntegerLimit_eq]; exact hb
  have h1 : BalanceHolds (runOpsWith doubleArith L ops (User.new rnd username password) fs).user :=
    runOpsWith_double_balanced L ops _ fs
      (by simp [BalanceHolds, User.new, incomeTotal, expenseTotal])
      (by simpa [User.new] using hw) (by simpa [User.new] using hb2)
  have hsub : (runOpsWith doubleArith L ops (User.new rnd username password)
      fs).user.transactions.Sublist (addedEntries ops) := by
    simpa [User.new] using runOpsWith_sublist doubleArith L ops (User.new rnd username password) fs
  refine ⟨h1, ?_⟩
  rw [double_sums_ledger _ (fun t ht => hw t (hsub.subset ht))
    (lt_of_le_of_lt (absTotal_sublist hsub) hb2)]
  exact h1

theorem balance_invariant_whole_amounts_witness :
    (∀ t ∈ addedEntries [Op.add salary, Op.add food, Op.remove 0, Op.remove 7],
      Whole t.getAmount) ∧
    absTotal (addedEntries [Op.add salary, Op.add food, Op.remove 0, Op.remove 7])
      < doubleIntegerLimit ∧
    (runOpsWith doubleArith wholeLib [Op.add salary, Op.add food, Op.remove 0, Op.remove 7]
        (User.new (fun _ => 107) (ascii "bob") (ascii "secret")) emptyStore).user.transactions
      = [food] ∧
    (runOpsWith doubleArith wholeLib [Op.add salary, Op.add food, Op.remove 0, Op.remove 7]
        (User.new (fun _ => 107) (ascii "bob") (ascii "secret")) emptyStore).user.balance
      = -200 ∧
    (runOpsWith doubleArith wholeLib [Op.add salary, Op.add food, Op.remove 0, Op.remove 7]
        (User.new (fun _ => 107) (ascii "bob") (ascii "secret")) emptyStore).user.balance
      = incomeTotal
          (runOpsWith doubleArith wholeLib [Op.add salary, Op.add food, Op.remove 0, Op.remove 7]
            (User.new (fun _ => 107) (ascii "bob") (ascii "secret")) emptyStore).user.transactions
        - expenseTotal
          (runOpsWith doubleArith wholeLib [Op.add salary, Op.add food, Op.remove 0, Op.remove 7]
            (User.new (fun _ => 107) (ascii "bob") (ascii "secret")) emptyStore).user.transactions :=
  ⟨by decide!, by decide!, by decide!, by decide!,
    (balance_invariant_whole_amounts wholeLib (fun _ => 107) (ascii "bob") (ascii "secret")
      emptyStore [Op.add salary, Op.add food, Op.remove 0, Op.remove 7]
      (by decide!) (by decide!)).1⟩

/-! ## The balance rebuilt in the arithmetic of `double` -/

theorem replayBalance_append (A : Arith) (b : Amount) (ts us : List Transaction) :
    replayBalance A b (ts ++ us) = replayBalance A (replayBalance A b ts) us := by
  simp [replayBalance, List.foldl_append]

theorem loadLoopWith_replay (A : Arith) (L : Lib) :
    ∀ (fuel : Nat) (input : Str) (user : User) (fs : FileStore),
      ∃ parsed : List Transaction,
        (loadLoopWith A L fuel input user fs).user.transactions = user.transactions ++ parsed ∧
        (loadLoopWith A L fuel input user fs).user.balance
          = replayBalance A user.balance parsed := by
  intro fuel
  induction fuel with
  | zero => intro input user fs; exact ⟨[], by simp [loadLoopWith], by simp [loadLoopWith, replayBalance]⟩
  | succ fuel ih =>
    intro input user fs
    have hnone : ∃ parsed : List Transaction,
        user.transactions = user.transactions ++ parsed ∧
        user.balance = replayBalance A user.balance parsed :=
      ⟨[], by simp, by simp [replayBalance]⟩
    have hadd1 : ∀ (t : Transaction),
        ∃ parsed : List Transaction,
          (addTransactionWith A L user t fs).user.transactions = user.transactions ++ parsed ∧
          (addTransactionWith A L user t fs).user.balance
            = replayBalance A user.balance parsed := by
      intro t
      exact ⟨[t], by rw [addTransactionWith_user], by
        rw [addTransactionWith_user]; simp [replayBalance]⟩
    have hadd2 : ∀ (t : Transaction) (rest : Str),
        ∃ parsed : List Transaction,
          (loadLoopWith A L fuel rest (addTransactionWith A L user t fs).user
              (addTransactionWith A L user t fs).fs).user.transactions
            = user.transactions ++ parsed ∧
          (loadLoopWith A L fuel rest (addTransactionWith A L user t fs).user
              (addTransactionWith A L user t fs).fs).user.balance
            = replayBalance A user.balance parsed := by
      intro t rest
      obtain ⟨parsed, h1, h2⟩ := ih rest (addTransactionWith A L user t fs).user
        (addTransactionWith A L user t fs).fs
      refine ⟨t :: parsed, ?_, ?_⟩
      · rw [h1, addTransactionWith_user]; simp
      · rw [h2, addTransactionWith_user]; simp [replayBalance]
    unfold loadLoopWith
    split
    · exact hnone
    · split
      · simp only
        split
        · exact hnone
        · split
          · exact hadd2 _ _
          · exact hadd1 _
      · split
        · simp only
          split
          · exact hnone
          · split
            · exact hadd2 _ _
            · exact hadd1 _
        · exact ih _ _ _

theorem loadUserDataWith_replay (A : Arith) (L : Lib) (rnd : Nat → Nat)
    (username password : Str) (fs : FileStore) (u : User)
    (h : (loadUserDataWith A L rnd username password fs).user = some u) :
    u.balance = replayBalance A 0 u.transactions := by
  have key : ∀ (fuel : Nat) (input : Str),
      (loadLoopWith A L fuel input (User.new rnd username password) fs).user.balance
        = replayBalance A 0
            (loadLoopWith A L fuel input (User.new rnd username password) fs).user.transactions := by
    intro fuel input
    obtain ⟨parsed, h1, h2⟩ := loadLoopWith_replay A L fuel input
      (User.new rnd username password) fs
    rw [h1, h2]
    simp [User.new]
  unfold loadUserDataWith at h
  split at h
  · simp at h
  · simp only at h
    split at h
    · simp at h
    · split at h
      · simp at h
      · split at h
        · simp at h
        · simp only [Option.some.injEq] at h
          rw [← h]
          exact key _ _

theorem replayBalance_double_exact (ts : List Transaction) :
    ∀ (p : List Transaction), (∀ x ∈ p ++ ts, Whole x.getAmount) →
      absTotal (p ++ ts) < 2 ^ 53 →
      replayBalance doubleArith (incomeTotal p - expenseTotal p) ts
        = incomeTotal (p ++ ts) - expenseTotal (p ++ ts) := by
  induction ts with
  | nil => intro p _ _; simp [replayBalance]
  | cons t ts ih =>
    intro p hw hb
    have heq : p ++ t :: ts = (p ++ [t]) ++ ts := by simp
    have hsub : (p ++ [t]).Sublist (p ++ t :: ts) := by
      rw [heq]; exact List.sublist_append_left _ _
    have key := roundDouble_ledger (p ++ [t]) (fun x hx => hw x (hsub.subset hx))
      (lt_of_le_of_lt (absTotal_sublist hsub) hb)
    have hstep : balanceStep doubleArith (incomeTotal p - expenseTotal p) t
        = incomeTotal (p ++ [t]) - expenseTotal (p ++ [t]) := by
      rw [← key, incomeTotal_append, expenseTotal_append]
      cases t with
      | income a d dt =>
        simp only [balanceStep, doubleArith, incomeTotal, expenseTotal]
        congr 1
        ring
      | expense a d dt c =>
        simp only [balanceStep, doubleArith, incomeTotal, expenseTotal]
        congr 1
        ring
    have h2 := ih (p ++ [t]) (by rw [← heq]; exact hw) (by rw [← heq]; exact hb)
    show replayBalance doubleArith (balanceStep doubleArith _ t) ts = _
    rw [hstep, h2, heq]

theorem replayBalance_double_whole (ts : List Transaction)
    (hw : ∀ x ∈ ts, Whole x.getAmount) (hb : absTotal ts < 2 ^ 53) :
    replayBalance doubleArith 0 ts = incomeTotal ts - expenseTotal ts := by
  have h := replayBalance_double_exact ts [] (by simpa using hw) (by simpa using hb)
  simpa [incomeTotal, expenseTotal] using h

theorem loadLoopWith_skip_line (A : Arith) (L : Lib) (fuel : Nat) (line rest : Str)
    (user : User) (fs : FileStore) (h1 : newline ∉ line) (h2 : line ≠ ascii "Income")
    (h3 : line ≠ ascii "Expense") :
    loadLoopWith A L (fuel + 1) (line ++ newline :: rest) user fs
      = loadLoopWith A L fuel rest user fs := by
  rw [loadLoopWith, getline_append_newline _ _ h1]
  simp only [h2, h3, if_false]

theorem loadLoopWith_succ (A : Arith) (L : Lib) :
    ∀ (fuel : Nat) (input : Str) (user : User) (fs : FileStore), input.length < fuel →
      loadLoopWith A L (fuel + 1) input user fs = loadLoopWith A L fuel input user fs := by
  intro fuel
  induction fuel with
  | zero => intro input user fs h; omega
  | succ n ih =>
    intro input user fs hlen
    conv_lhs => unfold loadLoopWith
    conv_rhs => unfold loadLoopWith
    cases hg : getline input with
    | none => rfl
    | some lr =>
      obtain ⟨ty, in1⟩ := lr
      have h1 := getline_length input ty in1 hg
      have h2 := getlineD_length in1
      have h3 := getlineD_length (getlineD in1).2
      have h4 := getlineD_length (getlineD (getlineD in1).2).2
      have h5 := getlineD_length (getlineD (getlineD (getlineD in1).2).2).2
      simp only
      split
      · split
        · rfl
        · split
          · exact ih _ _ _ (by omega)
          · rfl
      · split
        · split
          · rfl
          · split
            · exact ih _ _ _ (by omega)
            · rfl
        · exact ih _ _ _ (by omega)

theorem loadLoopWith_fuel (A : Arith) (L : Lib) (input : Str) (user : User) (fs : FileStore) :
    ∀ k, loadLoopWith A L (input.length + 1 + k) input user fs
      = loadLoopWith A L (input.length + 1) input user fs := by
  intro k
  induction k with
  | zero => rfl
  | succ k ih => rw [← ih, ← Nat.add_assoc, loadLoopWith_succ A L _ input user fs (by omega)]

/-- C7, as stated, fails in the arithmetic of `double`. The record of `roundingStore` passes the
username and password checks and `loadUserData` returns 0 with the four entries Income 10^16,
Income 1, Expense 10^16, Income 1 and balance 1. The sum of the Income amounts minus the sum of
the Expense amounts is 2 as exact numbers, and 0 when both sums are accumulated in `double`. -/
theorem loadUserData_balance_fails_on_doubles :
    (loadUserDataWith doubleArith wholeLib (fun _ => 107) (ascii "bob") (ascii "abc")
        roundingStore).status = .returned 0 ∧
    (loadUserDataWith doubleArith wholeLib (fun _ => 107) (ascii "bob") (ascii "abc")
        roundingStore).user
      = some
          { id := ascii "kkk", username := ascii "bob", password := ascii "abc", balance := 1,
            transactions := roundingEntries } ∧
    incomeTotal roundingEntries - expenseTotal roundingEntries = 2 ∧
    doubleArith.sub (doubleSum (incomeAmounts roundingEntries))
        (doubleSum (expenseAmounts roundingEntries)) = 0 :=
  ⟨by decide!, by decide!, by decide!, by decide!⟩

/-- Amounts with decimal fractions break the equality as well: replaying Income 0.3, Expense 0.1,
Income 0.2, Expense 0.2 in `double` gives the `double` nearest to 0.2, while the Income amounts
summed in `double` minus the Expense amounts summed in `double` give a smaller `double`, and the
exact sums give a number that lies between the two. -/
theorem replayBalance_decimal_amounts :
    replayBalance doubleArith 0 decimalEntries = roundDouble (2 / 10) ∧
    roundDouble (2 / 10) = 3602879701896397 / 18014398509481984 ∧
    doubleArith.sub (doubleSum (incomeAmounts decimalEntries))
        (doubleSum (expenseAmounts decimalEntries))
      = 900719925474099 / 4503599627370496 ∧
    incomeTotal decimalEntries - expenseTotal decimalEntries
      = 7205759403792793 / 36028797018963968 :=
  ⟨by decide!, by decide!, by decide!, by decide!⟩

theorem first_getline (input : Str) : (getlineD input).1 = nthLine 0 input :=
  (getlineD_nthLine input).1

theorem second_getline (input : Str) :
    (getlineD (getlineD input).2).1 = nthLine 1 input := by
  rw [(getlineD_nthLine _).1, ← (getlineD_nthLine _).2 0]

theorem loadUserDataWith_assigned (A : Arith) (L : Lib) (rnd : Nat → Nat)
    (username password : Str) (fs : FileStore) (input : Str)
    (hfile : fs.content (recordPath username) = some input)
    (hname : nthLine 2 input = username)
    (hpass : decryptPassword (nthLine 1 input) (nthLine 0 input) = some password) :
    ∃ u, (loadUserDataWith A L rnd username password fs).user = some u := by
  unfold loadUserDataWith
  rw [hfile]
  simp only
  rw [third_getline, second_getline, first_getline, hpass]
  simp [hname]

/-- C7, amended: for every record that passes the username and password checks (its third line
is the requested username and its second line decrypts under its first line to the supplied
password), whatever its other lines hold, the fourth included, `loadUserData` assigns a ledger
whose balance is what the `double` balance steps of `addTransaction` make of 0 over the entries
of that ledger in order (an Income added, an Expense subtracted). When the amounts of the entries
are whole numbers whose absolute values sum to less than 2^53, that balance is the sum of the
amounts of the Income entries minus the sum of the amounts of the Expense entries, whether the
sums and their difference are taken exactly or accumulated in `double`. -/
theorem loadUserData_balance_replayed (L : Lib) (rnd : Nat → Nat) (username password : Str)
    (fs : FileStore) (input : Str)
    (hfile : fs.content (recordPath username) = some input)
    (hname : nthLine 2 input = username)
    (hpass : decryptPassword (nthLine 1 input) (nthLine 0 input) = some password) :
    ∃ u, (loadUserDataWith doubleArith L rnd username password fs).user = some u ∧
      u.balance = replayBalance doubleArith 0 u.transactions ∧
      ((∀ t ∈ u.transactions, Whole t.getAmount) →
        absTotal u.transactions < doubleIntegerLimit →
        u.balance = incomeTotal u.transactions - expenseTotal u.transactions ∧
        u.balance = doubleArith.sub (doubleSum (incomeAmounts u.transactions))
          (doubleSum (expenseAmounts u.transactions))) := by
  obtain ⟨u, hu⟩ := loadUserDataWith_assigned doubleArith L rnd username password fs input
    hfile hname hpass
  have h1 := loadUserDataWith_replay doubleArith L rnd username password fs u hu
  refine ⟨u, hu, h1, fun hw hb => ?_⟩
  have hb2 : absTotal u.transactions < 2 ^ 53 := by rw [← doubleIntegerLimit_eq]; exact hb
  have h2 : u.balance = incomeTotal u.transactions - expenseTotal u.transactions := by
    rw [h1]
    exact replayBalance_double_whole u.transactions hw hb2
  exact ⟨h2, by rw [double_sums_ledger _ hw hb2]; exact h2⟩

theorem loadUserData_balance_replayed_witness :
    tamperedStore.content (recordPath (ascii "bob")) = some tamperedRecord ∧
    nthLine 2 tamperedRecord = ascii "bob" ∧
    decryptPassword (nthLine 1 tamperedRecord) (nthLine 0 tamperedRecord)
      = some (ascii "secret") ∧
    nthLine 3 tamperedRecord = ascii "123456" ∧
    (loadUserDataWith doubleArith wholeLib (fun _ => 107) (ascii "bob") (ascii "secret")
        tamperedStore).user
      = some { id := ascii "kkk", username := ascii "bob", password := ascii "secret",
               balance := 800, transactions := sampleUser.transactions } ∧
    (∀ t ∈ sampleUser.transactions, Whole t.getAmount) ∧
    absTotal sampleUser.transactions < doubleIntegerLimit ∧
    (800 : Amount) = incomeTotal sampleUser.transactions - expenseTotal sampleUser.transactions ∧
    ∃ u, (loadUserDataWith doubleArith wholeLib (fun _ => 107) (ascii "bob") (ascii "secret")
        tamperedStore).user = some u ∧
      u.balance = replayBalance doubleArith 0 u.transactions ∧
      ((∀ t ∈ u.transactions, Whole t.getAmount) →
        absTotal u.transactions < doubleIntegerLimit →
        u.balance = incomeTotal u.transactions - expenseTotal u.transactions ∧
        u.balance = doubleArith.sub (doubleSum (incomeAmounts u.transactions))
          (doubleSum (expenseAmounts u.transactions))) :=
  ⟨by decide!, by decide, by decide, by decide, by decide!, by decide!, by decide!, by decide!,
    loadUserData_balance_replayed wholeLib (fun _ => 107) (ascii "bob") (ascii "secret")
      tamperedStore tamperedRecord (by decide!) (by decide) (by decide)⟩

/-! ## Category totals in the arithmetic of `double` -/

theorem amountSum_append (ts us : List Transaction) :
    amountSum (ts ++ us) = amountSum ts + amountSum us := by
  simp [amountSum]

theorem filter_hasCategory_sublist (c : Str) (ts : List Transaction) :
    (ts.filter (fun t => t.hasCategory c)).Sublist (ts.filter (fun t => t.isExpense)) := by
  induction ts with
  | nil => exact List.Sublist.refl _
  | cons t ts ih =>
    cases t with
    | income a d dt => simpa [List.filter_cons, Transaction.hasCategory, Transaction.isExpense] using ih
    | expense a d dt cat =>
      by_cases hc : cat = c
      · simpa [List.filter_cons, Transaction.hasCategory, Transaction.isExpense, hc] using ih
      · simp only [List.filter_cons, Transaction.hasCategory, Transaction.isExpense, hc,
          decide_False, Bool.false_eq_true, if_false, if_true]
        exact List.Sublist.cons _ ih

theorem mem_filter_hasCategory_isExpense (c : Str) (ts : List Transaction) (x : Transaction)
    (hx : x ∈ ts.filter (fun t => t.hasCategory c)) : x ∈ ts ∧ x.isExpense = true := by
  have h1 := (filter_hasCategory_sublist c ts).subset hx
  rw [List.mem_filter] at h1
  exact h1

theorem foldl_categoryStepWith_double (c : Str) (ts : List Transaction) :
    ∀ (p : List Transaction),
      (∀ x ∈ p ++ ts, x.isExpense = true → Whole x.getAmount) →
      absTotal ((p ++ ts).filter (fun t => t.isExpense)) < 2 ^ 53 →
      ts.foldl (categoryStepWith doubleArith c) (amountSum (p.filter (fun t => t.hasCategory c)))
        = amountSum ((p ++ ts).filter (fun t => t.hasCategory c)) := by
  induction ts with
  | nil => intro p _ _; simp
  | cons t ts ih =>
    intro p hw hb
    have heq : p ++ t :: ts = (p ++ [t]) ++ ts := by simp
    have hsub : (p ++ [t]).Sublist (p ++ t :: ts) := by
      rw [heq]; exact List.sublist_append_left _ _
    have hsub2 : ((p ++ [t]).filter (fun t => t.hasCategory c)).Sublist
        ((p ++ t :: ts).filter (fun t => t.isExpense)) :=
      (filter_hasCategory_sublist c _).trans (hsub.filter _)
    have key := roundDouble_amountSum ((p ++ [t]).filter (fun t => t.hasCategory c))
      (fun x hx => hw x (hsub.subset (mem_filter_hasCategory_isExpense c _ x hx).1)
        (mem_filter_hasCategory_isExpense c _ x hx).2)
      (lt_of_le_of_lt (absTotal_sublist hsub2) hb)
    have hstep : categoryStepWith doubleArith c
          (amountSum (p.filter (fun t => t.hasCategory c))) t
        = amountSum ((p ++ [t]).filter (fun t => t.hasCategory c)) := by
      rw [← key, List.filter_append, amountSum_append]
      cases t with
      | income a d dt =>
        simp [categoryStepWith, Transaction.hasCategory, amountSum, key, List.filter_append] at key ⊢
        exact key.symm
      | expense a d dt cat =>
        by_cases hc : cat = c
        · simp [categoryStepWith, Transaction.hasCategory, amountSum, hc, doubleArith,
            Transaction.getAmount]
        · simp [categoryStepWith, Transaction.hasCategory, amountSum, hc, List.filter_append]
            at key ⊢
          exact key.symm
    have h2 := ih (p ++ [t]) (by rw [← heq]; exact hw) (by rw [← heq]; exact hb)
    show ts.foldl (categoryStepWith doubleArith c) (categoryStepWith doubleArith c _ t) = _
    rw [hstep, h2, heq]

theorem expense_category_double_eq (user : User) (c : Str)
    (hw : ∀ t ∈ user.transactions, t.isExpense = true → Whole t.getAmount)
    (hb : absTotal (user.transactions.filter (fun t => t.isExpense)) < 2 ^ 53) :
    calculateExpensesByCategoryWith doubleArith user c
      = amountSum (user.transactions.filter (fun t => t.hasCategory c)) := by
  have h := foldl_categoryStepWith_double c user.transactions [] (by simpa using hw)
    (by simpa using hb)
  simpa [amountSum, calculateExpensesByCategoryWith] using h

/-- C26, as stated, fails in the arithmetic of `double`. The ledger `roundingLedger` has the
Expenses 10^16 and 1 in category `A` and 1 and 1 in category `B`; `calculateExpensesByCategory`
gives 10^16 for `A` and 2 for `B`, which sum to 10^16 + 2 both exactly and in `double`, while the
amounts of all Expenses sum to 10^16 + 3 exactly and to 10^16 when accumulated in `double`. -/
theorem category_totals_fail_on_doubles :
    categoriesOf roundingLedger.transactions = [ascii "A", ascii "B"] ∧
    calculateExpensesByCategoryWith doubleArith roundingLedger (ascii "A")
      = 10000000000000000 ∧
    calculateExpensesByCategoryWith doubleArith roundingLedger (ascii "B") = 2 ∧
    ((categoriesOf roundingLedger.transactions).map
        (fun c => calculateExpensesByCategoryWith doubleArith roundingLedger c)).sum
      = 10000000000000002 ∧
    doubleSum ((categoriesOf roundingLedger.transactions).map
        (fun c => calculateExpensesByCategoryWith doubleArith roundingLedger c))
      = 10000000000000002 ∧
    expenseTotal roundingLedger.transactions = 10000000000000003 ∧
    doubleSum (expenseAmounts roundingLedger.transactions) = 10000000000000000 :=
  ⟨by decide!, by decide!, by decide!, by decide!, by decide!, by decide!, by decide!⟩

theorem sum_category_absTotals (cats : List Str) (hnd : cats.Nodup) (ts : List Transaction) :
    (∀ t ∈ ts, ∀ c, t.categoryName = some c → c ∈ cats) →
    (cats.map (fun c => absTotal (ts.filter (fun t => t.hasCategory c)))).sum
      = absTotal (ts.filter (fun t => t.isExpense)) := by
  induction ts with
  | nil =>
    intro _
    simp [absTotal]
  | cons t ts ih =>
    intro h
    have hts : ∀ t ∈ ts, ∀ c, t.categoryName = some c → c ∈ cats :=
      fun x hx => h x (List.mem_cons_of_mem _ hx)
    have ih2 := ih hts
    cases t with
    | income a d dt =>
      simpa [Transaction.hasCategory, Transaction.isExpense] using ih2
    | expense a d dt cat =>
      have hcat : cat ∈ cats := h _ (List.mem_cons_self _ _) cat rfl
      have hstep : ∀ c, absTotal ((Transaction.expense a d dt cat :: ts).filter
            (fun t => t.hasCategory c))
          = (if cat = c then |a| else 0) + absTotal (ts.filter (fun t => t.hasCategory c)) := by
        intro c
        by_cases hc : cat = c
        · simp [List.filter_cons, Transaction.hasCategory, hc, absTotal, Transaction.getAmount]
        · simp [List.filter_cons, Transaction.hasCategory, hc, absTotal]
      simp only [hstep, List.sum_map_add]
      rw [sum_map_ite_of_mem cats cat |a| hnd hcat, ih2]
      simp [List.filter_cons, Transaction.isExpense, absTotal, Transaction.getAmount]

theorem doubleSum_category_totals (ts : List Transaction)
    (hw : ∀ t ∈ ts, t.isExpense = true → Whole t.getAmount)
    (hb : absTotal (ts.filter (fun t => t.isExpense)) < 2 ^ 53) :
    doubleSum ((categoriesOf ts).map
        (fun c => amountSum (ts.filter (fun t => t.hasCategory c))))
      = expenseTotal ts := by
  rw [doubleSum_whole]
  · exact sum_category_totals (categoriesOf ts) (List.nodup_dedup _) ts (mem_categoriesOf ts)
  · intro x hx
    obtain ⟨c, _, rfl⟩ := List.mem_map.mp hx
    exact whole_amountSum _ (fun t ht =>
      hw t (mem_filter_hasCategory_isExpense c ts t ht).1
        (mem_filter_hasCategory_isExpense c ts t ht).2)
  · have h1 : ((categoriesOf ts).map
          (fun c => |amountSum (ts.filter (fun t => t.hasCategory c))|)).sum
        ≤ ((categoriesOf ts).map
          (fun c => absTotal (ts.filter (fun t => t.hasCategory c)))).sum :=
      List.sum_le_sum (fun c _ => abs_amountSum_le _)
    have h2 := sum_category_absTotals (categoriesOf ts) (List.nodup_dedup _) ts
      (mem_categoriesOf ts)
    rw [h2] at h1
    rw [List.map_map]
    exact lt_of_le_of_lt h1 hb

theorem doubleSum_expenses (ts : List Transaction)
    (hw : ∀ t ∈ ts, t.isExpense = true → Whole t.getAmount)
    (hb : absTotal (ts.filter (fun t => t.isExpense)) < 2 ^ 53) :
    doubleSum (expenseAmounts ts) = expenseTotal ts := by
  unfold expenseAmounts
  rw [doubleSum_entries _ (fun t ht => hw t (List.mem_filter.mp ht).1
    (by simpa using (List.mem_filter.mp ht).2)) hb, ← expenseTotal_eq_amountSum]

/-- C26, amended: for every ledger whose Expense amounts are whole numbers with absolute values
summing to less than 2^53, the sum of `calculateExpensesByCategory(c)` over the distinct category
names c of its Expense entries equals the sum of the amounts of all its Expense entries, whether
the sums are taken exactly or accumulated in `double`. Each category total is the sum of the
amounts of the Expenses with that name, the names are taken once each, and they are exactly the
names some Expense carries. -/
theorem category_totals_partition_whole_amounts (user : User)
    (hw : ∀ t ∈ user.transactions, t.isExpense = true → Whole t.getAmount)
    (hb : absTotal (user.transactions.filter (fun t => t.isExpense)) < doubleIntegerLimit) :
    ((categoriesOf user.transactions).map
        (fun c => calculateExpensesByCategoryWith doubleArith user c)).sum
      = expenseTotal user.transactions ∧
    doubleSum ((categoriesOf user.transactions).map
        (fun c => calculateExpensesByCategoryWith doubleArith user c))
      = doubleSum (expenseAmounts user.transactions) ∧
    doubleSum (expenseAmounts user.transactions) = expenseTotal user.transactions ∧
    (∀ c, calculateExpensesByCategoryWith doubleArith user c
      = amountSum (user.transactions.filter (fun t => t.hasCategory c))) ∧
    (categoriesOf user.transactions).Nodup ∧
    (∀ c, c ∈ categoriesOf user.transactions ↔
      ∃ a d dt, Transaction.expense a d dt c ∈ user.transactions) ∧
    expenseTotal user.transactions
      = amountSum (user.transactions.filter (fun t => t.isExpense)) := by
  have hb2 : absTotal (user.transactions.filter (fun t => t.isExpense)) < 2 ^ 53 := by
    rw [← doubleIntegerLimit_eq]; exact hb
  have hexp := doubleSum_expenses user.transactions hw hb2
  refine ⟨?_, ?_, hexp, fun c => expense_category_double_eq user c hw hb2, List.nodup_dedup _,
    mem_categoriesOf_iff _, expenseTotal_eq_amountSum _⟩
  · simp only [expense_category_double_eq user _ hw hb2]
    exact sum_category_totals _ (List.nodup_dedup _) _ (mem_categoriesOf _)
  · simp only [expense_category_double_eq user _ hw hb2]
    rw [hexp]
    exact doubleSum_category_totals user.transactions hw hb2

theorem category_totals_partition_whole_amounts_witness :
    (∀ t ∈ twoCategoryLedger.transactions, t.isExpense = true → Whole t.getAmount) ∧
    absTotal (twoCategoryLedger.transactions.filter (fun t => t.isExpense))
      < doubleIntegerLimit ∧
    categoriesOf twoCategoryLedger.transactions = [ascii "Travel", ascii "Food"] ∧
    calculateExpensesByCategoryWith doubleArith twoCategoryLedger (ascii "Food") = 230 ∧
    calculateExpensesByCategoryWith doubleArith twoCategoryLedger (ascii "Travel") = 50 ∧
    expenseTotal twoCategoryLedger.transactions = 280 ∧
    ((categoriesOf twoCategoryLedger.transactions).map
        (fun c => calculateExpensesByCategoryWith doubleArith twoCategoryLedger c)).sum
      = expenseTotal twoCategoryLedger.transactions :=
  ⟨by decide!, by decide!, by decide!, by decide!, by decide!, by decide!,
    (category_totals_partition_whole_amounts twoCategoryLedger (by decide!) (by decide!)).1⟩

end Finance
